import Mathlib

/-!
# Bridge finding by depth-first search (`2 semestr/Contest 1/G.cpp`)

A shallow embedding of the program: the adjacency-list graph with its
traversal arrays, the recursive `DFS` that collects bridge identifiers, the
driver loop of `main`, the final sort and `Print`.

Vectors are lists read and written through bounds-checked accessors, so an
access outside a vector is a visible `Fault.outOfBounds` result.  The
recursion of `DFS` is driven by a fuel counter (one unit per nested call).
Vertices, edge identifiers and the timer are `int` in the source; they are
natural numbers here: the inputs considered have endpoints in `1..N`, the
timer never exceeds `N` and identifiers never exceed the number of edges.
-/

namespace G

/-- Ways in which a run of the embedded program can fail to produce a value. -/
inductive Fault where
  | outOfBounds
  | outOfFuel
deriving DecidableEq

/-- Checked read `v[i]` of a vector. -/
def rd {α : Type} (v : List α) (i : Nat) : Except Fault α :=
  match v[i]? with
  | some a => .ok a
  | none => .error .outOfBounds

/-- Checked write `v[i] = a` of a vector. -/
def wr {α : Type} (v : List α) (i : Nat) (a : α) : Except Fault (List α) :=
  if i < v.length then .ok (v.set i a) else .error .outOfBounds

/-- An edge `DefaultEdge<int>`: the pair (first, second). -/
abbrev DefaultEdge := Nat × Nat

/-- The class `AdjacencyListGraph` with the fields of `AbstractGraph`. -/
structure AdjacencyListGraph where
  vertices_number_ : Nat
  edges_number_ : Nat
  t_in : List Nat
  used : List Bool
  used_print : List Bool
  ret : List Nat
  position : List (List Bool)
  res : List Nat
  timer : Nat
  list_ : List (List (Nat × Nat))

/-- The statement `list_[i].push_back(x)`. -/
def pushAt (l : List (List (Nat × Nat))) (i : Nat) (x : Nat × Nat) :
    Except Fault (List (List (Nat × Nat))) :=
  match l[i]? with
  | some row => .ok (l.set i (row ++ [x]))
  | none => .error .outOfBounds

/-- The loop of the constructor over the edges, `iter_for_position` being the
identifier given to the next edge. -/
def addEdges : List DefaultEdge → Nat → List (List (Nat × Nat)) →
    Except Fault (List (List (Nat × Nat)))
  | [], _, l => .ok l
  | edge :: rest, iter_for_position, l =>
    match pushAt l edge.1 (edge.2, iter_for_position) with
    | .error e => .error e
    | .ok l1 =>
      match pushAt l1 edge.2 (edge.1, iter_for_position) with
      | .error e => .error e
      | .ok l2 => addEdges rest (iter_for_position + 1) l2

/-- The constructor `AdjacencyListGraph(vertices_num, edges)`. -/
def AdjacencyListGraph.new (vertices_num : Nat) (edges : List DefaultEdge) :
    Except Fault AdjacencyListGraph :=
  match addEdges edges 1 (List.replicate (vertices_num + 1) []) with
  | .error e => .error e
  | .ok l =>
    .ok { vertices_number_ := vertices_num
          edges_number_ := edges.length
          t_in := List.replicate (vertices_num + 1) 0
          used := List.replicate (vertices_num + 1) false
          used_print := List.replicate (vertices_num + 1) false
          ret := List.replicate (vertices_num + 1) 0
          position := []
          res := []
          timer := 0
          list_ := l }

/-- The method `GetNeighbours(vertex)`: a copy of `list_[vertex]`. -/
def AdjacencyListGraph.GetNeighbours (graph : AdjacencyListGraph) (vertex : Nat) :
    Except Fault (List (Nat × Nat)) :=
  rd graph.list_ vertex

/-- The statement `graph.ret[point] = std::min(graph.ret[point], x)`. -/
def relax (graph : AdjacencyListGraph) (point x : Nat) : Except Fault AdjacencyListGraph :=
  match rd graph.ret point with
  | .error e => .error e
  | .ok r =>
    match wr graph.ret point (min r x) with
    | .error e => .error e
    | .ok ret => .ok { graph with ret := ret }

/-- The first three statements of `DFS`: stamp `point` with the timer, start
its low-link at the same value and mark it used. -/
def enter (graph : AdjacencyListGraph) (point : Nat) : Except Fault AdjacencyListGraph :=
  match wr graph.t_in point graph.timer with
  | .error e => .error e
  | .ok t_in =>
    match rd t_in point with
    | .error e => .error e
    | .ok t =>
      match wr graph.ret point t with
      | .error e => .error e
      | .ok ret =>
        match wr graph.used point true with
        | .error e => .error e
        | .ok used =>
          .ok { graph with t_in := t_in, timer := graph.timer + 1, ret := ret, used := used }

/-- The body of the loop of `DFS` for one neighbour `to`, the recursive call
being `call`. -/
def visit (call : AdjacencyListGraph → Nat → Nat → Except Fault AdjacencyListGraph)
    (point parent : Nat) (graph : AdjacencyListGraph) (to_ : Nat × Nat) :
    Except Fault AdjacencyListGraph :=
  if to_.2 = parent then .ok graph
  else
    match rd graph.used to_.1 with
    | .error e => .error e
    | .ok true =>
      match rd graph.t_in to_.1 with
      | .error e => .error e
      | .ok t => relax graph point t
    | .ok false =>
      match call graph to_.1 to_.2 with
      | .error e => .error e
      | .ok g1 =>
        match rd g1.ret to_.1 with
        | .error e => .error e
        | .ok r =>
          match relax g1 point r with
          | .error e => .error e
          | .ok g2 =>
            match rd g2.ret to_.1, rd g2.t_in to_.1 with
            | .ok r2, .ok t2 =>
              if r2 = t2 then .ok { g2 with res := g2.res ++ [to_.2] } else .ok g2
            | .error e, _ => .error e
            | _, .error e => .error e

/-- The range-for loop of `DFS` over the copied neighbour list. -/
def forNeighbours (call : AdjacencyListGraph → Nat → Nat → Except Fault AdjacencyListGraph)
    (point parent : Nat) : List (Nat × Nat) → AdjacencyListGraph →
    Except Fault AdjacencyListGraph
  | [], graph => .ok graph
  | to_ :: rest, graph =>
    match visit call point parent graph to_ with
    | .error e => .error e
    | .ok g1 => forNeighbours call point parent rest g1

/-- The function `traverses::DFS(graph, point, parent)`; the first argument
bounds the depth of the recursion.  The default `parent = -1` of the source is
never used: `main` passes `0` and every recursive call passes an identifier. -/
def DFS : Nat → AdjacencyListGraph → Nat → Nat → Except Fault AdjacencyListGraph
  | 0, _, _, _ => .error .outOfFuel
  | fuel + 1, graph, point, parent =>
    match enter graph point with
    | .error e => .error e
    | .ok g1 =>
      match g1.GetNeighbours point with
      | .error e => .error e
      | .ok nbrs => forNeighbours (DFS fuel) point parent nbrs g1

/-- The driver loop of `main` over the vertices `i` of the given list. -/
def roots (fuel : Nat) : List Nat → AdjacencyListGraph → Except Fault AdjacencyListGraph
  | [], graph => .ok graph
  | i :: rest, graph =>
    match rd graph.used i with
    | .error e => .error e
    | .ok true => roots fuel rest graph
    | .ok false =>
      match DFS fuel graph i 0 with
      | .error e => .error e
      | .ok g1 => roots fuel rest g1

/-- The state of the graph object when the driver loop `for i = 1..N` of
`main` has finished. -/
def traverse (fuel number_point : Nat) (edges : List DefaultEdge) :
    Except Fault AdjacencyListGraph :=
  match AdjacencyListGraph.new number_point edges with
  | .error e => .error e
  | .ok graph => roots fuel (List.range' 1 number_point) graph

/-- The call `std::sort(res.begin(), res.end())` on integers. -/
def sort (res : List Nat) : List Nat :=
  res.insertionSort (fun a b => a ≤ b)

/-- The sorted list `graph.res` that `main` hands to `Print`.  The recursion
never nests deeper than the number of vertices, so `number_point + 1` units of
fuel are enough (`DFS_run`, `main_spec`). -/
def bridges (number_point : Nat) (edges : List DefaultEdge) : Except Fault (List Nat) :=
  match traverse (number_point + 1) number_point edges with
  | .error e => .error e
  | .ok graph => .ok (sort graph.res)

/-- The function `Print(res)`: the numbers written to the output, the size
first and then the elements. -/
def Print (res : List Nat) : List Nat :=
  res.length :: res

/-- The program `main` on the parsed input (`number_point` and the
`number_country` edges read from the standard input): the sequence of numbers
printed. -/
def main (number_point : Nat) (edges : List DefaultEdge) : Except Fault (List Nat) :=
  match bridges number_point edges with
  | .error e => .error e
  | .ok res => .ok (Print res)

/-! ## The graph of the input and what a bridge is -/

/-- Every endpoint of every input edge is a vertex `1..N`. -/
def ValidInput (N : Nat) (edges : List DefaultEdge) : Prop :=
  ∀ e ∈ edges, 1 ≤ e.1 ∧ e.1 ≤ N ∧ 1 ≤ e.2 ∧ e.2 ≤ N

instance (N : Nat) (edges : List DefaultEdge) : Decidable (ValidInput N edges) := by
  unfold ValidInput; infer_instance

/-- The input edge with identifier `j` (identifiers count from 1). -/
def endpoints (edges : List DefaultEdge) (j : Nat) : Option DefaultEdge :=
  if j = 0 then none else edges[j - 1]?

/-- The edge with identifier `j` joins `x` and `y`, in either orientation. -/
def Joins (edges : List DefaultEdge) (j x y : Nat) : Prop :=
  match endpoints edges j with
  | some e => (e.1 = x ∧ e.2 = y) ∨ (e.1 = y ∧ e.2 = x)
  | none => False

instance (edges : List DefaultEdge) (j x y : Nat) : Decidable (Joins edges j x y) := by
  unfold Joins; split <;> infer_instance

/-- Vertex `y` can be reached from `x` in the undirected multigraph. -/
def Reach (edges : List DefaultEdge) : Nat → Nat → Prop :=
  Relation.ReflTransGen (fun x y => ∃ j, Joins edges j x y)

/-- Vertex `y` can be reached from `x` without using the edge `i`. -/
def ReachAvoid (edges : List DefaultEdge) (i : Nat) : Nat → Nat → Prop :=
  Relation.ReflTransGen (fun x y => ∃ j, j ≠ i ∧ Joins edges j x y)

/-- The identifier `i` names an input edge whose removal disconnects its two
endpoints. -/
def IsBridge (edges : List DefaultEdge) (i : Nat) : Prop :=
  ∃ e, endpoints edges i = some e ∧ ¬ ReachAvoid edges i e.1 e.2

/-- The neighbour list of `v` as the specification words it: scan the edges in
input order, the next identifier being `i`, and emit `(b, i)` when the first
endpoint is `v` and then `(a, i)` when the second endpoint is `v`. -/
def scanFrom (v : Nat) : List DefaultEdge → Nat → List (Nat × Nat)
  | [], _ => []
  | e :: rest, i =>
    (if e.1 = v then [(e.2, i)] else []) ++ ((if e.2 = v then [(e.1, i)] else []) ++
      scanFrom v rest (i + 1))

/-- The neighbour list of `v` by the scan of the whole input, identifiers
starting at 1. -/
def neighboursSpec (edges : List DefaultEdge) (v : Nat) : List (Nat × Nat) :=
  scanFrom v edges 1

/-! ## A big-step description of the traversal -/

/-- The vertex `v` is marked in `used`. -/
def U (g : AdjacencyListGraph) (v : Nat) : Prop := g.used.getD v false = true

instance (g : AdjacencyListGraph) (v : Nat) : Decidable (U g v) := by
  unfold U; infer_instance

/-- The entry `t_in[v]`. -/
def T (g : AdjacencyListGraph) (v : Nat) : Nat := g.t_in.getD v 0

/-- The entry `ret[v]`. -/
def R (g : AdjacencyListGraph) (v : Nat) : Nat := g.ret.getD v 0

/-- The number of vertices not yet marked in `used`. -/
def cnt (g : AdjacencyListGraph) : Nat := g.used.count false

/-- The effect of `enter` when `point` is in range. -/
def mark (g : AdjacencyListGraph) (point : Nat) : AdjacencyListGraph :=
  { g with t_in := g.t_in.set point g.timer, timer := g.timer + 1,
           ret := g.ret.set point g.timer, used := g.used.set point true }

/-- The effect of `relax` when `point` is in range. -/
def lower (g : AdjacencyListGraph) (point x : Nat) : AdjacencyListGraph :=
  { g with ret := g.ret.set point (min (R g point) x) }

/-- The bridge test made after a recursive call returns from `u`, reached
through the edge `j`. -/
def report (g : AdjacencyListGraph) (u j : Nat) : AdjacencyListGraph :=
  if R g u = T g u then { g with res := g.res ++ [j] } else g

/-- The relation `Run adj v p nbrs g g1`: the loop of `DFS` at vertex `v`,
entered through edge `p`, takes the state `g` to `g1` while it works through
the remaining neighbours `nbrs`; `adj` gives the neighbour list of a vertex. -/
inductive Run (adj : Nat → List (Nat × Nat)) :
    Nat → Nat → List (Nat × Nat) → AdjacencyListGraph → AdjacencyListGraph → Prop where
  | done (v p : Nat) (g : AdjacencyListGraph) : Run adj v p [] g g
  | skip (v p u : Nat) (rest : List (Nat × Nat)) (g g1 : AdjacencyListGraph) :
      Run adj v p rest g g1 → Run adj v p ((u, p) :: rest) g g1
  | back (v p u j : Nat) (rest : List (Nat × Nat)) (g g1 : AdjacencyListGraph) :
      j ≠ p → U g u → Run adj v p rest (lower g v (T g u)) g1 →
      Run adj v p ((u, j) :: rest) g g1
  | tree (v p u j : Nat) (rest : List (Nat × Nat)) (g g1 g2 : AdjacencyListGraph) :
      j ≠ p → ¬ U g u → Run adj u j (adj u) (mark g u) g1 →
      Run adj v p rest (report (lower g1 v (R g1 u)) u j) g2 →
      Run adj v p ((u, j) :: rest) g g2

/-- The vectors of the state have `N + 1` entries and `list_` holds the
neighbour lists `adj`. -/
structure Shape (N : Nat) (adj : Nat → List (Nat × Nat)) (g : AdjacencyListGraph) : Prop where
  t_in_len : g.t_in.length = N + 1
  ret_len : g.ret.length = N + 1
  used_len : g.used.length = N + 1
  list_eq : ∀ v, v ≤ N → g.list_[v]? = some (adj v)

/-! ## Invariants of the traversal -/

/-- The edge `j` has an endpoint not yet marked in `used`. -/
def UnusedEnd (edges : List DefaultEdge) (g : AdjacencyListGraph) (j : Nat) : Prop :=
  ∃ x y, Joins edges j x y ∧ ¬ U g x

/-- Vertex `y` can be reached from `x` through vertices that are all unmarked
in the state `g` (both ends of the walk included). -/
def FreshReach (edges : List DefaultEdge) (g : AdjacencyListGraph) : Nat → Nat → Prop :=
  Relation.ReflTransGen (fun x y => ¬ U g x ∧ ¬ U g y ∧ ∃ k, Joins edges k x y)

/-- No edge leads from a marked vertex to an unmarked one. -/
def Closed (edges : List DefaultEdge) (g : AdjacencyListGraph) : Prop :=
  ∀ x y j, U g x → Joins edges j x y → U g y

/-- What holds of the state between any two steps of the run. -/
structure Inv (N : Nat) (edges : List DefaultEdge) (adj : Nat → List (Nat × Nat))
    (g : AdjacencyListGraph) : Prop where
  shape : Shape N adj g
  tin_lt : ∀ u, U g u → T g u < g.timer
  sound : ∀ j ∈ g.res, IsBridge edges j
  nodup : g.res.Nodup
  res_used : ∀ j ∈ g.res, ∀ x y, Joins edges j x y → U g x ∧ U g y

/-- What holds of the state `g` inside the loop of the call `DFS(v, p)` that
was entered in the state `g0`. -/
structure LoopInv (N : Nat) (edges : List DefaultEdge) (adj : Nat → List (Nat × Nat))
    (g0 : AdjacencyListGraph) (v p : Nat) (g : AdjacencyListGraph) : Prop where
  inv : Inv N edges adj g
  v_le : v ≤ N
  v_new : ¬ U g0 v
  v_used : U g v
  mono : ∀ u, U g0 u → U g u
  tin_frame : ∀ u, U g0 u → T g u = T g0 u
  ret_frame : ∀ u, U g0 u → R g u = R g0 u
  tin_v : T g v = g0.timer
  tin_fresh : ∀ w, U g w → ¬ U g0 w → g0.timer ≤ T g w
  tin_old : ∀ u, U g0 u → T g0 u < g0.timer
  ret_le : R g v ≤ T g v
  pgood : ∀ x y, Joins edges p x y → (x = v ∧ U g0 y) ∨ (y = v ∧ U g0 x)
  conn : ∀ u, U g u → Reach edges u v → ∀ j, UnusedEnd edges g j → ReachAvoid edges j u v
  conn0 : ∀ u, U g0 u → ∀ j, j ≠ p → Joins edges j v u → ReachAvoid edges j v u
  low_sub : ∀ w, U g w → ¬ U g0 w → w ≠ v → ∀ u j, Joins edges j w u →
    U g u ∧ R g v ≤ T g u
  done_sub : ∀ w, U g w → ¬ U g0 w → w ≠ v → ∀ u j, Joins edges j w u →
    j ∈ g.res ∨ ¬ IsBridge edges j
  witness : R g v = T g v ∨ ∃ w u k, FreshReach edges g0 v w ∧ Joins edges k w u ∧ k ≠ p ∧
    U g0 u ∧ R g v = T g0 u
  res_new : ∀ j ∈ g.res, j ∈ g0.res ∨ (j ≠ p ∧ ∃ x y, Joins edges j x y ∧ ¬ U g0 x)
  res_mono : ∀ j ∈ g0.res, j ∈ g.res
  reach : ∀ w, U g w → ¬ U g0 w → Reach edges v w

/-- How the state may change while the loop of `DFS` at `v` advances. -/
structure Mono (v : Nat) (g g1 : AdjacencyListGraph) : Prop where
  used : ∀ u, U g u → U g1 u
  tin : ∀ u, U g u → T g1 u = T g u
  ret_v : R g1 v ≤ R g v
  res : ∀ j ∈ g.res, j ∈ g1.res

/-- What the loop of `DFS` at `v` has established for the neighbour `u`
reached through the edge `j`. -/
def EdgeDone (edges : List DefaultEdge) (g : AdjacencyListGraph) (v u j : Nat) : Prop :=
  U g u ∧ R g v ≤ T g u ∧ (j ∈ g.res ∨ ¬ IsBridge edges j)

/-- Every edge at a marked vertex is reported or is not a bridge. -/
def AllDone (edges : List DefaultEdge) (g : AdjacencyListGraph) : Prop :=
  ∀ w, U g w → ∀ x j, Joins edges j w x → j ∈ g.res ∨ ¬ IsBridge edges j

/-- How a stretch of the driver loop over the roots `L` changes the state. -/
structure Grow (edges : List DefaultEdge) (L : List Nat) (g g1 : AdjacencyListGraph) : Prop where
  used : ∀ u, U g u → U g1 u
  tin : ∀ u, U g u → T g1 u = T g u
  fresh : ∀ w, U g1 w → ¬ U g w → g.timer ≤ T g1 w ∧ ∃ r ∈ L, Reach edges r w
  res : ∀ j ∈ g.res, j ∈ g1.res
  count : cnt g1 ≤ cnt g

/-! ## Families of inputs -/

/-- A walk from `x` to `y`: the list gives, step by step, the edge taken and
the vertex reached. -/
def IsWalk (edges : List DefaultEdge) : Nat → List (Nat × Nat) → Nat → Prop
  | x, [], y => x = y
  | x, s :: rest, y => Joins edges s.1 x s.2 ∧ IsWalk edges s.2 rest y

/-- A cycle through `x`: a closed walk of at least one step that takes no edge
twice (a self-loop is a cycle of one step, a pair of parallel edges a cycle of
two). -/
def IsCycle (edges : List DefaultEdge) (x : Nat) (w : List (Nat × Nat)) : Prop :=
  w ≠ [] ∧ IsWalk edges x w x ∧ (w.map Prod.fst).Nodup

/-- The multigraph has no cycle. -/
def Acyclic (edges : List DefaultEdge) : Prop :=
  ∀ x w, ¬ IsCycle edges x w

/-- Any two of the vertices `1..N` are joined by a walk. -/
def Connected (N : Nat) (edges : List DefaultEdge) : Prop :=
  ∀ x y, 1 ≤ x → x ≤ N → 1 ≤ y → y ≤ N → Reach edges x y

/-- The input is a tree on the vertices `1..N`: `N - 1` edges, connected, no
cycle. -/
structure IsTree (N : Nat) (edges : List DefaultEdge) : Prop where
  size : edges.length + 1 = N
  connected : Connected N edges
  acyclic : Acyclic edges

/-- The `N` edges form one cycle through all of `1..N`: `vs` lists the vertices
in the order of the cycle and `ids` the identifiers of the edges, the `k`-th
of them joining the `k`-th vertex to the next one, cyclically and in either
orientation. -/
def CycleThrough (N : Nat) (edges : List DefaultEdge) (vs ids : List Nat) : Prop :=
  edges.length = N ∧ vs.Perm (List.range' 1 N) ∧ ids.Perm (List.range' 1 N) ∧
    ∀ k, k < N → Joins edges (ids.getD k 0) (vs.getD k 0) (vs.getD ((k + 1) % N) 0)

instance (N : Nat) (edges : List DefaultEdge) (vs ids : List Nat) :
    Decidable (CycleThrough N edges vs ids) := by
  unfold CycleThrough; infer_instance

/-- The input is one simple cycle through all the vertices `1..N`, its edges
given in any order and orientation. -/
def IsSimpleCycle (N : Nat) (edges : List DefaultEdge) : Prop :=
  ∃ vs ids, CycleThrough N edges vs ids

/-- The seven edges are two triangles `a b c` and `d e f` on the six vertices
`1..6` and one edge joining `a` to `d`; `i1 .. i7` are the identifiers (input
positions) of the edges `ab, bc, ca, de, ef, fd, ad`. -/
def TwoTriangles (edges : List DefaultEdge) (a b c d e f i1 i2 i3 i4 i5 i6 i7 : Nat) : Prop :=
  edges.length = 7 ∧ [a, b, c, d, e, f].Perm [1, 2, 3, 4, 5, 6] ∧
    [i1, i2, i3, i4, i5, i6, i7].Perm [1, 2, 3, 4, 5, 6, 7] ∧
    Joins edges i1 a b ∧ Joins edges i2 b c ∧ Joins edges i3 c a ∧
    Joins edges i4 d e ∧ Joins edges i5 e f ∧ Joins edges i6 f d ∧ Joins edges i7 a d

instance (edges : List DefaultEdge) (a b c d e f i1 i2 i3 i4 i5 i6 i7 : Nat) :
    Decidable (TwoTriangles edges a b c d e f i1 i2 i3 i4 i5 i6 i7) := by
  unfold TwoTriangles; infer_instance

/-- The edge list with both endpoints of every edge moved up by `n`. -/
def shift (n : Nat) (edges : List DefaultEdge) : List DefaultEdge :=
  edges.map (fun e => (e.1 + n, e.2 + n))

/-- The neighbour lists `L` are those of the input with the list of every
vertex `0..N` put in some other order. -/
def Reordered (N : Nat) (edges : List DefaultEdge) (L : List (List (Nat × Nat))) : Prop :=
  L.length = N + 1 ∧ ∀ v, v ≤ N → (L.getD v []).Perm (neighboursSpec edges v)

instance (N : Nat) (edges : List DefaultEdge) (L : List (List (Nat × Nat))) :
    Decidable (Reordered N edges L) := by
  unfold Reordered; infer_instance

/-! ## The run with a log

The same program, keeping a log of what it does: every call of `DFS` with the
vertex whose loop made it, and every state the graph object passes through,
one per executed statement.  The log does not influence the run. -/

/-- One call `DFS(graph, point, parent)` as the log records it; `caller` is the
vertex whose loop made the call, `none` for a call made by the loop of `main`. -/
structure Call where
  caller : Option Nat
  point : Nat
  parent : Nat
deriving DecidableEq

/-- The graph object together with the log. -/
structure Logged where
  graph : AdjacencyListGraph
  calls : List Call
  states : List AdjacencyListGraph

/-- A statement has taken the graph object to the state `g`. -/
def Logged.record (s : Logged) (g : AdjacencyListGraph) : Logged :=
  { graph := g, calls := s.calls, states := s.states ++ [g] }

/-- A call of `DFS` is about to be made. -/
def Logged.call (s : Logged) (c : Call) : Logged :=
  { graph := s.graph, calls := s.calls ++ [c], states := s.states }

/-- The function `enter` with the state recorded after each of its three
statements. -/
def enterLog (s : Logged) (point : Nat) : Except Fault Logged :=
  match wr s.graph.t_in point s.graph.timer with
  | .error e => .error e
  | .ok t_in =>
    let s1 := s.record { s.graph with t_in := t_in, timer := s.graph.timer + 1 }
    match rd s1.graph.t_in point with
    | .error e => .error e
    | .ok t =>
      match wr s1.graph.ret point t with
      | .error e => .error e
      | .ok ret =>
        let s2 := s1.record { s1.graph with ret := ret }
        match wr s2.graph.used point true with
        | .error e => .error e
        | .ok used => .ok (s2.record { s2.graph with used := used })

/-- The statement `relax` with the state recorded after it. -/
def relaxLog (s : Logged) (point x : Nat) : Except Fault Logged :=
  match relax s.graph point x with
  | .error e => .error e
  | .ok g => .ok (s.record g)

/-- The function `visit` on the logged state: the recursive call is recorded
before it is made, and the state after each statement. -/
def visitLog (call : Logged → Nat → Nat → Except Fault Logged)
    (point parent : Nat) (s : Logged) (to_ : Nat × Nat) : Except Fault Logged :=
  if to_.2 = parent then .ok s
  else
    match rd s.graph.used to_.1 with
    | .error e => .error e
    | .ok true =>
      match rd s.graph.t_in to_.1 with
      | .error e => .error e
      | .ok t => relaxLog s point t
    | .ok false =>
      match call (s.call { caller := some point, point := to_.1, parent := to_.2 })
          to_.1 to_.2 with
      | .error e => .error e
      | .ok s1 =>
        match rd s1.graph.ret to_.1 with
        | .error e => .error e
        | .ok r =>
          match relaxLog s1 point r with
          | .error e => .error e
          | .ok s2 =>
            match rd s2.graph.ret to_.1, rd s2.graph.t_in to_.1 with
            | .ok r2, .ok t2 =>
              if r2 = t2 then .ok (s2.record { s2.graph with res := s2.graph.res ++ [to_.2] })
              else .ok s2
            | .error e, _ => .error e
            | _, .error e => .error e

/-- The function `forNeighbours` on the logged state. -/
def forNeighboursLog (call : Logged → Nat → Nat → Except Fault Logged)
    (point parent : Nat) : List (Nat × Nat) → Logged → Except Fault Logged
  | [], s => .ok s
  | to_ :: rest, s =>
    match visitLog call point parent s to_ with
    | .error e => .error e
    | .ok s1 => forNeighboursLog call point parent rest s1

/-- The function `DFS` on the logged state. -/
def DFSLog : Nat → Logged → Nat → Nat → Except Fault Logged
  | 0, _, _, _ => .error .outOfFuel
  | fuel + 1, s, point, parent =>
    match enterLog s point with
    | .error e => .error e
    | .ok s1 =>
      match s1.graph.GetNeighbours point with
      | .error e => .error e
      | .ok nbrs => forNeighboursLog (DFSLog fuel) point parent nbrs s1

/-- The function `roots` on the logged state; the calls made here have no
caller. -/
def rootsLog (fuel : Nat) : List Nat → Logged → Except Fault Logged
  | [], s => .ok s
  | i :: rest, s =>
    match rd s.graph.used i with
    | .error e => .error e
    | .ok true => rootsLog fuel rest s
    | .ok false =>
      match DFSLog fuel (s.call { caller := none, point := i, parent := 0 }) i 0 with
      | .error e => .error e
      | .ok s1 => rootsLog fuel rest s1

/-- The function `traverse` with the log: the first recorded state is the one
the constructor builds. -/
def traverseLog (fuel number_point : Nat) (edges : List DefaultEdge) :
    Except Fault Logged :=
  match AdjacencyListGraph.new number_point edges with
  | .error e => .error e
  | .ok graph =>
    rootsLog fuel (List.range' 1 number_point) { graph := graph, calls := [], states := [graph] }

/-! ## The statements of the traversal as steps -/

/-- The effect of `graph.t_in[point] = graph.timer++`. -/
def stamp (g : AdjacencyListGraph) (point : Nat) : AdjacencyListGraph :=
  { g with t_in := g.t_in.set point g.timer, timer := g.timer + 1 }

/-- The effect of `graph.ret[point] = graph.t_in[point]`. -/
def start (g : AdjacencyListGraph) (point : Nat) : AdjacencyListGraph :=
  { g with ret := g.ret.set point (T g point) }

/-- The effect of `graph.used[point] = true`. -/
def flag (g : AdjacencyListGraph) (point : Nat) : AdjacencyListGraph :=
  { g with used := g.used.set point true }

/-- The effect of `graph.res.push_back(j)`. -/
def push (g : AdjacencyListGraph) (j : Nat) : AdjacencyListGraph :=
  { g with res := g.res ++ [j] }

/-- One executed statement of the traversal takes the first state to the
second. -/
inductive Prim : AdjacencyListGraph → AdjacencyListGraph → Prop where
  | stamp (g : AdjacencyListGraph) (p : Nat) : Prim g (stamp g p)
  | start (g : AdjacencyListGraph) (p : Nat) : Prim g (start g p)
  | flag (g : AdjacencyListGraph) (p : Nat) : Prim g (flag g p)
  | lower (g : AdjacencyListGraph) (p x : Nat) : Prim g (lower g p x)
  | push (g : AdjacencyListGraph) (j : Nat) : Prim g (push g j)

/-- The effect of `enterLog` when `point` is in range. -/
def Logged.enter (s : Logged) (point : Nat) : Logged :=
  ((s.record (stamp s.graph point)).record (start (stamp s.graph point) point)).record
    (flag (start (stamp s.graph point) point) point)

/-- The bridge test after a recursive call, on the logged state. -/
def Logged.report (s : Logged) (u j : Nat) : Logged :=
  if R s.graph u = T s.graph u then s.record (push s.graph j) else s

/-- The relation `Run` on logged states. -/
inductive RunL (adj : Nat → List (Nat × Nat)) :
    Nat → Nat → List (Nat × Nat) → Logged → Logged → Prop where
  | done (v p : Nat) (s : Logged) : RunL adj v p [] s s
  | skip (v p u : Nat) (rest : List (Nat × Nat)) (s s1 : Logged) :
      RunL adj v p rest s s1 → RunL adj v p ((u, p) :: rest) s s1
  | back (v p u j : Nat) (rest : List (Nat × Nat)) (s s1 : Logged) :
      j ≠ p → U s.graph u →
      RunL adj v p rest (s.record (lower s.graph v (T s.graph u))) s1 →
      RunL adj v p ((u, j) :: rest) s s1
  | tree (v p u j : Nat) (rest : List (Nat × Nat)) (s s1 s2 : Logged) :
      j ≠ p → ¬ U s.graph u →
      RunL adj u j (adj u)
        ((s.call { caller := some v, point := u, parent := j }).enter u) s1 →
      RunL adj v p rest ((s1.record (lower s1.graph v (R s1.graph u))).report u j) s2 →
      RunL adj v p ((u, j) :: rest) s s2

/-- The recorded states form a chain of single statements that ends in the
current state of the graph object. -/
structure Traced (s : Logged) : Prop where
  chain : List.Chain' Prim s.states
  last : s.states.getLast? = some s.graph

/-- The driver loop of `main` on logged states: every vertex of the list that
is still unmarked is the root of a call of `DFS` with parent `0`. -/
inductive RootsL (adj : Nat → List (Nat × Nat)) : List Nat → Logged → Logged → Prop where
  | done (s : Logged) : RootsL adj [] s s
  | skip (i : Nat) (rest : List Nat) (s s1 : Logged) :
      U s.graph i → RootsL adj rest s s1 → RootsL adj (i :: rest) s s1
  | root (i : Nat) (rest : List Nat) (s s1 s2 : Logged) :
      ¬ U s.graph i →
      RunL adj i 0 (adj i) ((s.call { caller := none, point := i, parent := 0 }).enter i) s1 →
      RootsL adj rest s1 s2 → RootsL adj (i :: rest) s s2

/-- The low-link never exceeds the discovery time, which never exceeds the
timer. -/
def LowBound (g : AdjacencyListGraph) : Prop :=
  ∀ v, R g v ≤ T g v ∧ T g v ≤ g.timer

/-- What holds of the log of calls between any two steps of the loops. -/
structure CallsInv (N : Nat) (edges : List DefaultEdge) (adj : Nat → List (Nat × Nat))
    (s : Logged) : Prop where
  shape : Shape N adj s.graph
  nodup : (s.calls.map Call.point).Nodup
  used_iff : ∀ v, U s.graph v ↔ v ∈ s.calls.map Call.point
  timer_eq : s.graph.timer = s.calls.length
  tin_eq : ∀ k c, s.calls[k]? = some c → T s.graph c.point = k
  point_pos : ∀ c ∈ s.calls, 1 ≤ c.point
  tree_edge : ∀ c ∈ s.calls, ∀ a, c.caller = some a → Joins edges c.parent a c.point
  root_edge : ∀ c ∈ s.calls, c.caller = none → c.parent = 0
  caller_tin : ∀ c ∈ s.calls, ∀ a, c.caller = some a →
    U s.graph a ∧ T s.graph a < T s.graph c.point
  res_tree : ∀ j ∈ s.graph.res, ∃ c ∈ s.calls, c.parent = j ∧ c.caller ≠ none

/-- How the logged state may change while the loop of `DFS` at `v` advances. -/
structure CallsGrow (v : Nat) (s s1 : Logged) : Prop where
  calls : ∃ more, s1.calls = s.calls ++ more ∧ ∀ c ∈ more, ¬ U s.graph c.point ∧
    ∀ a, c.caller = some a → a = v ∨ ¬ U s.graph a
  used : ∀ u, U s.graph u → U s1.graph u
  tin : ∀ u, U s.graph u → T s1.graph u = T s.graph u
  ret : ∀ u, U s.graph u → u ≠ v → R s1.graph u = R s.graph u

/-- What the loop of `DFS` at `x`, entered through the edge `p`, has established
about `ret[x]` when the neighbours `nbrs` are still to be worked through. -/
structure LowAt (adj : Nat → List (Nat × Nat)) (s : Logged) (x p : Nat)
    (nbrs : List (Nat × Nat)) : Prop where
  bound : R s.graph x ≤ T s.graph x
  seen : ∀ e ∈ adj x, e ∉ nbrs → e.2 ≠ p → U s.graph e.1 ∧ R s.graph x ≤ T s.graph e.1
  children : ∀ c ∈ s.calls, c.caller = some x →
    c.parent ≠ p ∧ R s.graph x ≤ R s.graph c.point
  attained : R s.graph x = T s.graph x ∨
    (∃ e ∈ adj x, e.2 ≠ p ∧ U s.graph e.1 ∧ R s.graph x = T s.graph e.1) ∨
    (∃ c ∈ s.calls, c.caller = some x ∧ R s.graph x = R s.graph c.point)

/-- The call of `DFS` at `x` is in the log and its loop has finished. -/
def LowDone (adj : Nat → List (Nat × Nat)) (s : Logged) (x : Nat) : Prop :=
  ∃ cx ∈ s.calls, cx.point = x ∧ LowAt adj s x cx.parent []

/-- The log holds a call of `DFS` at `b` made by the loop of `DFS` at `a`. -/
def ChildOf (calls : List Call) (a b : Nat) : Prop :=
  ∃ c ∈ calls, c.caller = some a ∧ c.point = b

/-- The vertex `w` lies in the subtree of `v` of the forest of recursive calls. -/
def InSubtree (calls : List Call) (v w : Nat) : Prop :=
  Relation.ReflTransGen (ChildOf calls) v w

/-- The call of `DFS` at `w` was made with parent edge `e`. -/
def EnteredBy (calls : List Call) (w e : Nat) : Prop :=
  ∃ c ∈ calls, c.point = w ∧ c.parent = e

/-- The value `t` is the discovery time of `v`, or of the far end `u` of an edge
`e` at a vertex `w` of the subtree of `v` that is not the edge through which
`w` was entered. -/
def LowCandidate (edges : List DefaultEdge) (s : Logged) (v t : Nat) : Prop :=
  t = T s.graph v ∨ ∃ w u e, InSubtree s.calls v w ∧ Joins edges e w u ∧
    ¬ EnteredBy s.calls w e ∧ t = T s.graph u

/-- The trace holds a state followed by the effect on it of the statement
`ret[v] = min(ret[v], t_in[a])`, the value of `t_in[a]` being the one of the
current state. -/
def BackStep (s : Logged) (v a : Nat) : Prop :=
  ∃ l1 l2 g, s.states = l1 ++ g :: lower g v (T s.graph a) :: l2

/-! ## Reading and writing the state -/

section

theorem getD_set {α : Type} (l : List α) (i j : Nat) (a d : α) :
    (l.set i a).getD j d = if i = j ∧ i < l.length then a else l.getD j d := by
  simp only [List.getD_eq_getElem?_getD, List.getElem?_set]
  by_cases h : i = j
  · subst h
    by_cases h2 : i < l.length
    · simp [h2]
    · rw [List.getElem?_eq_none (by omega)]
      simp [h2]
  · simp [h]

theorem U_mark {g : AdjacencyListGraph} {v : Nat} (hv : v < g.used.length) (w : Nat) :
    U (mark g v) w ↔ w = v ∨ U g w := by
  unfold U mark
  simp only [getD_set]
  by_cases h : v = w
  · subst h; simp [hv]
  · simp [h]; intro h2; exact absurd h2.symm h

theorem T_mark {g : AdjacencyListGraph} {v : Nat} (hv : v < g.t_in.length) (w : Nat) :
    T (mark g v) w = if w = v then g.timer else T g w := by
  unfold T mark
  simp only [getD_set]
  by_cases h : v = w
  · subst h; simp [hv]
  · have : ¬ w = v := fun h2 => h h2.symm
    simp [h, this]

theorem R_mark {g : AdjacencyListGraph} {v : Nat} (hv : v < g.ret.length) (w : Nat) :
    R (mark g v) w = if w = v then g.timer else R g w := by
  unfold R mark
  simp only [getD_set]
  by_cases h : v = w
  · subst h; simp [hv]
  · have : ¬ w = v := fun h2 => h h2.symm
    simp [h, this]

theorem R_lower {g : AdjacencyListGraph} {v : Nat} (hv : v < g.ret.length) (x w : Nat) :
    R (lower g v x) w = if w = v then min (R g v) x else R g w := by
  unfold lower
  simp only [R, getD_set]
  by_cases h : v = w
  · subst h; simp [hv]
  · have : ¬ w = v := fun h2 => h h2.symm
    simp [h, this]

@[simp] theorem U_lower (g : AdjacencyListGraph) (v x w : Nat) : U (lower g v x) w ↔ U g w := Iff.rfl
@[simp] theorem T_lower (g : AdjacencyListGraph) (v x w : Nat) : T (lower g v x) w = T g w := rfl
@[simp] theorem res_lower (g : AdjacencyListGraph) (v x : Nat) : (lower g v x).res = g.res := rfl
@[simp] theorem timer_lower (g : AdjacencyListGraph) (v x : Nat) : (lower g v x).timer = g.timer := rfl
@[simp] theorem res_mark (g : AdjacencyListGraph) (v : Nat) : (mark g v).res = g.res := rfl
@[simp] theorem timer_mark (g : AdjacencyListGraph) (v : Nat) : (mark g v).timer = g.timer + 1 := rfl

@[simp] theorem U_report (g : AdjacencyListGraph) (u j w : Nat) : U (report g u j) w ↔ U g w := by
  unfold report; split <;> exact Iff.rfl
@[simp] theorem T_report (g : AdjacencyListGraph) (u j w : Nat) : T (report g u j) w = T g w := by
  unfold report; split <;> rfl
@[simp] theorem R_report (g : AdjacencyListGraph) (u j w : Nat) : R (report g u j) w = R g w := by
  unfold report; split <;> rfl
@[simp] theorem timer_report (g : AdjacencyListGraph) (u j : Nat) : (report g u j).timer = g.timer := by
  unfold report; split <;> rfl
theorem res_report (g : AdjacencyListGraph) (u j : Nat) :
    (report g u j).res = if R g u = T g u then g.res ++ [j] else g.res := by
  unfold report; split <;> rfl

theorem Shape_mark {N : Nat} {adj : Nat → List (Nat × Nat)} {g : AdjacencyListGraph}
    (h : Shape N adj g) (v : Nat) : Shape N adj (mark g v) := by
  constructor
  · simp [mark, h.t_in_len]
  · simp [mark, h.ret_len]
  · simp [mark, h.used_len]
  · exact h.list_eq

theorem Shape_lower {N : Nat} {adj : Nat → List (Nat × Nat)} {g : AdjacencyListGraph}
    (h : Shape N adj g) (v x : Nat) : Shape N adj (lower g v x) := by
  constructor
  · exact h.t_in_len
  · simp [lower, h.ret_len]
  · exact h.used_len
  · exact h.list_eq

theorem Shape_report {N : Nat} {adj : Nat → List (Nat × Nat)} {g : AdjacencyListGraph}
    (h : Shape N adj g) (u j : Nat) : Shape N adj (report g u j) := by
  unfold report
  split
  · exact ⟨h.t_in_len, h.ret_len, h.used_len, h.list_eq⟩
  · exact h

end

/-! ## Edges, walks and bridges -/

section

theorem Joins_iff {edges : List DefaultEdge} {j x y : Nat} :
    Joins edges j x y ↔ ∃ e, endpoints edges j = some e ∧
      ((e.1 = x ∧ e.2 = y) ∨ (e.1 = y ∧ e.2 = x)) := by
  unfold Joins
  cases h : endpoints edges j with
  | none => simp
  | some e => simp

theorem Joins_symm {edges : List DefaultEdge} {j x y : Nat} (h : Joins edges j x y) :
    Joins edges j y x := by
  rw [Joins_iff] at h ⊢
  obtain ⟨e, he, h⟩ := h
  exact ⟨e, he, h.symm⟩

theorem Joins_fun {edges : List DefaultEdge} {j x y a b : Nat} (h : Joins edges j x y)
    (h2 : Joins edges j a b) : (a = x ∧ b = y) ∨ (a = y ∧ b = x) := by
  rw [Joins_iff] at h h2
  obtain ⟨e, he, h⟩ := h
  obtain ⟨e2, he2, h2⟩ := h2
  rw [he] at he2
  cases he2
  omega

theorem Joins_zero {edges : List DefaultEdge} {x y : Nat} : ¬ Joins edges 0 x y := by
  rw [Joins_iff]
  simp [endpoints]

theorem endpoints_mem {edges : List DefaultEdge} {j : Nat} {e : DefaultEdge}
    (h : endpoints edges j = some e) : e ∈ edges ∧ 1 ≤ j ∧ j ≤ edges.length := by
  unfold endpoints at h
  split at h
  · cases h
  · have h3 := List.getElem?_eq_some_iff.mp h
    obtain ⟨hlt, h3⟩ := h3
    exact ⟨h3 ▸ List.getElem_mem _, by omega, by omega⟩

theorem Joins_range {N : Nat} {edges : List DefaultEdge} (hE : ValidInput N edges)
    {j x y : Nat} (h : Joins edges j x y) : 1 ≤ x ∧ x ≤ N ∧ 1 ≤ y ∧ y ≤ N := by
  rw [Joins_iff] at h
  obtain ⟨e, he, h⟩ := h
  have := hE e (endpoints_mem he).1
  omega

theorem mem_scanFrom {v u j : Nat} (es : List DefaultEdge) (i : Nat) :
    (u, j) ∈ scanFrom v es i ↔
      ∃ e, es[j - i]? = some e ∧ i ≤ j ∧ ((e.1 = v ∧ e.2 = u) ∨ (e.1 = u ∧ e.2 = v)) := by
  induction es generalizing i with
  | nil => simp [scanFrom]
  | cons e rest ih =>
    simp only [scanFrom, List.mem_append, ih]
    constructor
    · rintro (h | h | ⟨e2, h1, h2, h3⟩)
      · split at h
        · simp at h
          refine ⟨e, ?_, ?_, ?_⟩
          · simp [h.2]
          · omega
          · left; exact ⟨by assumption, h.1.symm⟩
        · simp at h
      · split at h
        · simp at h
          refine ⟨e, ?_, ?_, ?_⟩
          · simp [h.2]
          · omega
          · right; exact ⟨h.1.symm, by assumption⟩
        · simp at h
      · refine ⟨e2, ?_, by omega, h3⟩
        have : j - i = (j - (i + 1)) + 1 := by omega
        rw [this]
        simpa using h1
    · rintro ⟨e2, h1, h2, h3⟩
      by_cases hji : j = i
      · subst hji
        simp at h1
        subst h1
        rcases h3 with h3 | h3
        · left; simp [h3.1, h3.2]
        · right; left; simp [h3.1, h3.2]
      · right; right
        refine ⟨e2, ?_, by omega, h3⟩
        have : j - i = (j - (i + 1)) + 1 := by omega
        rw [this] at h1
        simpa using h1

theorem mem_neighboursSpec {edges : List DefaultEdge} {v u j : Nat} :
    (u, j) ∈ neighboursSpec edges v ↔ Joins edges j v u := by
  unfold neighboursSpec
  rw [mem_scanFrom, Joins_iff]
  unfold endpoints
  constructor
  · rintro ⟨e, h1, h2, h3⟩
    refine ⟨e, ?_, h3⟩
    rw [if_neg (by omega)]
    exact h1
  · rintro ⟨e, h1, h3⟩
    split at h1
    · cases h1
    · exact ⟨e, h1, by omega, h3⟩

theorem ReachAvoid.symm {edges : List DefaultEdge} {i x y : Nat}
    (h : ReachAvoid edges i x y) : ReachAvoid edges i y x := by
  unfold ReachAvoid at h ⊢
  induction h with
  | refl => exact Relation.ReflTransGen.refl
  | tail _ hbc ih =>
    obtain ⟨j, hj, hJ⟩ := hbc
    exact Relation.ReflTransGen.head ⟨j, hj, Joins_symm hJ⟩ ih

theorem ReachAvoid.trans {edges : List DefaultEdge} {i x y z : Nat}
    (h : ReachAvoid edges i x y) (h2 : ReachAvoid edges i y z) : ReachAvoid edges i x z :=
  Relation.ReflTransGen.trans h h2

theorem ReachAvoid.refl {edges : List DefaultEdge} {i x : Nat} : ReachAvoid edges i x x :=
  Relation.ReflTransGen.refl

theorem ReachAvoid.step {edges : List DefaultEdge} {i j x y : Nat} (hj : j ≠ i)
    (h : Joins edges j x y) : ReachAvoid edges i x y :=
  Relation.ReflTransGen.single ⟨j, hj, h⟩

theorem Reach.flip {edges : List DefaultEdge} {x y : Nat}
    (h : Reach edges x y) : Reach edges y x := by
  unfold Reach at h ⊢
  induction h with
  | refl => exact Relation.ReflTransGen.refl
  | tail _ hbc ih =>
    obtain ⟨j, hJ⟩ := hbc
    exact Relation.ReflTransGen.head ⟨j, Joins_symm hJ⟩ ih

theorem Reach.concat {edges : List DefaultEdge} {x y z : Nat}
    (h : Reach edges x y) (h2 : Reach edges y z) : Reach edges x z :=
  Relation.ReflTransGen.trans h h2

theorem Reach.here {edges : List DefaultEdge} {x : Nat} : Reach edges x x :=
  Relation.ReflTransGen.refl

theorem Reach.edge {edges : List DefaultEdge} {j x y : Nat}
    (h : Joins edges j x y) : Reach edges x y :=
  Relation.ReflTransGen.single ⟨j, h⟩

theorem ReachAvoid.forget {edges : List DefaultEdge} {i x y : Nat}
    (h : ReachAvoid edges i x y) : Reach edges x y := by
  unfold ReachAvoid at h
  unfold Reach
  exact Relation.ReflTransGen.mono (fun a b ⟨j, _, hJ⟩ => ⟨j, hJ⟩) h

/-- A non-bridge: some orientation of the endpoints is connected avoiding the edge. -/
theorem not_bridge_of_reach {edges : List DefaultEdge} {j x y : Nat}
    (hJ : Joins edges j x y) (h : ReachAvoid edges j x y) : ¬ IsBridge edges j := by
  rintro ⟨e, he, hne⟩
  rw [Joins_iff] at hJ
  obtain ⟨e2, he2, h3⟩ := hJ
  rw [he] at he2
  cases he2
  rcases h3 with ⟨h1, h2⟩ | ⟨h1, h2⟩
  · rw [h1, h2] at hne; exact hne h
  · rw [h1, h2] at hne; exact hne h.symm

theorem bridge_of_not_reach {edges : List DefaultEdge} {j x y : Nat}
    (hJ : Joins edges j x y) (h : ¬ ReachAvoid edges j x y) : IsBridge edges j := by
  rw [Joins_iff] at hJ
  obtain ⟨e, he, h3⟩ := hJ
  refine ⟨e, he, ?_⟩
  rcases h3 with ⟨h1, h2⟩ | ⟨h1, h2⟩
  · rw [h1, h2]; exact h
  · rw [h1, h2]; exact fun h4 => h h4.symm

end

/-! ## Returning from a recursive call -/

section

variable {N : Nat} {edges : List DefaultEdge} {adj : Nat → List (Nat × Nat)}

theorem FreshReach.not_used {g : AdjacencyListGraph} {x y : Nat}
    (h : FreshReach edges g x y) (hx : ¬ U g x) : ¬ U g y := by
  unfold FreshReach at h
  induction h with
  | refl => exact hx
  | tail _ hbc _ => exact hbc.2.1

theorem FreshReach.mono {g g0 : AdjacencyListGraph} {x y : Nat}
    (hm : ∀ u, U g0 u → U g u) (h : FreshReach edges g x y) : FreshReach edges g0 x y := by
  unfold FreshReach at h ⊢
  exact Relation.ReflTransGen.mono
    (fun a b ⟨h1, h2, h3⟩ => ⟨fun h => h1 (hm a h), fun h => h2 (hm b h), h3⟩) h

theorem FreshReach.to_reach {g : AdjacencyListGraph} {x y : Nat}
    (h : FreshReach edges g x y) : Reach edges x y := by
  unfold FreshReach at h
  unfold Reach
  exact Relation.ReflTransGen.mono (fun a b ⟨_, _, h3⟩ => h3) h

/-- A walk through unmarked vertices avoids every edge that has a marked end. -/
theorem FreshReach.avoid {g : AdjacencyListGraph} {x y j a b : Nat}
    (hJ : Joins edges j a b) (ha : U g a)
    (h : FreshReach edges g x y) : ReachAvoid edges j x y := by
  unfold FreshReach at h
  unfold ReachAvoid
  refine Relation.ReflTransGen.mono ?_ h
  rintro c d ⟨h1, h2, k, hk⟩
  refine ⟨k, ?_, hk⟩
  rintro rfl
  rcases Joins_fun hJ hk with ⟨h3, _⟩ | ⟨_, h3⟩
  · exact h1 (h3 ▸ ha)
  · exact h2 (h3 ▸ ha)

/-- All that a finished call `DFS(u, j)` entered in state `g` has established
for the vertices it marked. -/
theorem LoopInv.all_fresh {g g1 : AdjacencyListGraph} {u j : Nat}
    (C : LoopInv N edges adj g u j g1)
    (CF : ∀ x k, Joins edges k u x → k ≠ j → EdgeDone edges g1 u x k)
    (w : Nat) (hw : U g1 w) (hw0 : ¬ U g w) (x k : Nat) (hk : Joins edges k w x)
    (hkj : k ≠ j) : EdgeDone edges g1 u x k := by
  by_cases hwu : w = u
  · subst hwu; exact CF x k hk hkj
  · have h1 := C.low_sub w hw hw0 hwu x k hk
    have h2 := C.done_sub w hw hw0 hwu x k hk
    exact ⟨h1.1, h1.2, h2⟩

/-- When the low-link of `u` equals its discovery time, the vertices marked by
the call are closed under every edge except the entering one. -/
theorem LoopInv.closed_of_eq {g g1 : AdjacencyListGraph} {u j : Nat}
    (C : LoopInv N edges adj g u j g1)
    (CF : ∀ x k, Joins edges k u x → k ≠ j → EdgeDone edges g1 u x k)
    (heq : R g1 u = T g1 u) (y : Nat) (h : ReachAvoid edges j u y) :
    U g1 y ∧ ¬ U g y := by
  unfold ReachAvoid at h
  induction h with
  | refl => exact ⟨C.v_used, C.v_new⟩
  | @tail b c _ hbc ih =>
    obtain ⟨k, hkj, hk⟩ := hbc
    have h1 := C.all_fresh CF b ih.1 ih.2 c k hk hkj
    refine ⟨h1.1, fun hc => ?_⟩
    have h2 := C.tin_frame c hc
    have h3 := C.tin_old c hc
    have h4 := h1.2.1
    have h5 := C.tin_v
    omega

theorem LoopInv.exit {g0 g g1 g2 : AdjacencyListGraph} {v p u j : Nat}
    (L : LoopInv N edges adj g0 v p g) (hJ : Joins edges j v u) (hjp : j ≠ p)
    (hu : ¬ U g u) (C : LoopInv N edges adj g u j g1)
    (CF : ∀ x k, Joins edges k u x → k ≠ j → EdgeDone edges g1 u x k)
    (hS : Shape N adj g2)
    (hU2 : ∀ x, U g2 x ↔ U g1 x) (hT2 : ∀ x, T g2 x = T g1 x)
    (hRv : R g2 v = min (R g1 v) (R g1 u)) (hRx : ∀ x, x ≠ v → R g2 x = R g1 x)
    (hres : g2.res = if R g1 u = T g1 u then g1.res ++ [j] else g1.res)
    (htimer : g2.timer = g1.timer) :
    LoopInv N edges adj g0 v p g2 ∧ Mono v g g2 ∧ EdgeDone edges g2 v u j := by
  have hvu : v ≠ u := fun h => hu (h ▸ L.v_used)
  have hJs : Joins edges j u v := Joins_symm hJ
  have hv1 : U g1 v := C.mono v L.v_used
  have hu1 : U g1 u := C.v_used
  have hRv1 : R g1 v = R g v := C.ret_frame v L.v_used
  have hTv1 : T g1 v = T g v := C.tin_frame v L.v_used
  have hres12 : ∀ k ∈ g1.res, k ∈ g2.res := by
    intro k hk; rw [hres]; split
    · exact List.mem_append_left _ hk
    · exact hk
  have hjnot : j ∉ g1.res := by
    intro hj
    rcases C.res_new j hj with h | ⟨h, _⟩
    · exact hu (L.inv.res_used j h v u hJ).2
    · exact h rfl
  have hmem2 : ∀ k ∈ g2.res, k ∈ g1.res ∨ (k = j ∧ R g1 u = T g1 u) := by
    intro k hk; rw [hres] at hk; split at hk
    · rcases List.mem_append.mp hk with h | h
      · exact Or.inl h
      · exact Or.inr ⟨by simpa using h, by assumption⟩
    · exact Or.inl hk
  have hretle : R g2 v ≤ T g2 v := by
    have := L.ret_le
    rw [hRv, hT2, hTv1, hRv1]; omega
  -- the entering edge of `u` is reported or is not a bridge
  have hhead : j ∈ g2.res ∨ ¬ IsBridge edges j := by
    by_cases heq : R g1 u = T g1 u
    · left; rw [hres, if_pos heq]; simp
    · right
      rcases C.witness with h | ⟨w, x, k, hw, hk, hkj, hx, _⟩
      · exact absurd h heq
      · apply not_bridge_of_reach hJs
        have h1 : ReachAvoid edges j u w := hw.avoid hJ L.v_used
        have h2 : ReachAvoid edges j w x := ReachAvoid.step hkj hk
        have h3 : Reach edges x v :=
          ((hw.to_reach.concat (Reach.edge hk)).flip).concat (Reach.edge hJs)
        have h4 := L.conn x hx h3 j ⟨u, v, hJs, hu⟩
        exact (h1.trans h2).trans h4
  have hmono : Mono v g g2 := by
    refine ⟨fun x hx => (hU2 x).2 (C.mono x hx), fun x hx => ?_, ?_,
      fun k hk => hres12 k (C.res_mono k hk)⟩
    · rw [hT2]; exact C.tin_frame x hx
    · rw [hRv, hRv1]; omega
  refine ⟨?_, hmono, (hU2 u).2 hu1, ?_, hhead⟩
  swap
  · have := C.ret_le
    rw [hRv, hT2]; omega
  refine
    { inv := ?_, v_le := L.v_le, v_new := L.v_new, v_used := (hU2 v).2 hv1, mono := ?_,
      tin_frame := ?_, ret_frame := ?_, tin_v := ?_, tin_fresh := ?_, tin_old := L.tin_old,
      ret_le := hretle, pgood := L.pgood, conn := ?_, conn0 := L.conn0, low_sub := ?_,
      done_sub := ?_, witness := ?_, res_new := ?_, res_mono := ?_, reach := ?_ }
  · -- inv
    refine ⟨hS, ?_, ?_, ?_, ?_⟩
    · intro x hx
      rw [hT2, htimer]
      exact C.inv.tin_lt x ((hU2 x).1 hx)
    · intro k hk
      rcases hmem2 k hk with h | ⟨rfl, heq⟩
      · exact C.inv.sound k h
      · apply bridge_of_not_reach hJs
        intro hr
        exact (C.closed_of_eq CF heq v hr).2 L.v_used
    · rw [hres]; split
      · rw [List.nodup_append]
        refine ⟨C.inv.nodup, List.nodup_singleton j, ?_⟩
        intro a ha hb
        simp at hb
        subst hb
        exact hjnot ha
      · exact C.inv.nodup
    · intro k hk x y hxy
      rcases hmem2 k hk with h | ⟨rfl, _⟩
      · have := C.inv.res_used k h x y hxy
        exact ⟨(hU2 x).2 this.1, (hU2 y).2 this.2⟩
      · rcases Joins_fun hJ hxy with ⟨h1, h2⟩ | ⟨h1, h2⟩
        · subst h1; subst h2; exact ⟨(hU2 _).2 hv1, (hU2 _).2 hu1⟩
        · subst h1; subst h2; exact ⟨(hU2 _).2 hu1, (hU2 _).2 hv1⟩
  · -- mono
    exact fun x hx => hmono.used x (L.mono x hx)
  · -- tin_frame
    intro x hx
    rw [hmono.tin x (L.mono x hx)]; exact L.tin_frame x hx
  · -- ret_frame
    intro x hx
    have hxv : x ≠ v := fun h => L.v_new (h ▸ hx)
    rw [hRx x hxv, C.ret_frame x (L.mono x hx)]; exact L.ret_frame x hx
  · -- tin_v
    rw [hT2, hTv1]; exact L.tin_v
  · -- tin_fresh
    intro w hw hw0
    rw [hT2]
    by_cases hwg : U g w
    · rw [C.tin_frame w hwg]; exact L.tin_fresh w hwg hw0
    · have h1 := C.tin_fresh w ((hU2 w).1 hw) hwg
      have h2 := L.inv.tin_lt v L.v_used
      have h3 := L.tin_v
      omega
  · -- conn
    intro x hx hxv k hk
    obtain ⟨a, b, hab, ha⟩ := hk
    have ha1 : ¬ U g1 a := fun h => ha ((hU2 a).2 h)
    have h1 := C.conn x ((hU2 x).1 hx) (hxv.concat (Reach.edge hJ)) k ⟨a, b, hab, ha1⟩
    have hjk : j ≠ k := by
      rintro rfl
      rcases Joins_fun hJ hab with ⟨h3, _⟩ | ⟨h3, _⟩
      · exact ha1 (h3 ▸ hv1)
      · exact ha1 (h3 ▸ hu1)
    exact h1.trans (ReachAvoid.step hjk hJs)
  · -- low_sub
    intro w hw hw0 hwv x k hk
    rw [hU2, hT2]
    by_cases hwg : U g w
    · have h1 := L.low_sub w hwg hw0 hwv x k hk
      refine ⟨C.mono x h1.1, ?_⟩
      rw [C.tin_frame x h1.1]
      have := hmono.ret_v
      omega
    · by_cases hkj : k = j
      · subst hkj
        rcases Joins_fun hJ hk with ⟨h1, h2⟩ | ⟨h1, h2⟩
        · exact absurd h1 hwv
        · subst h2
          refine ⟨hv1, ?_⟩
          rw [← hT2]; exact hretle
      · have h1 := C.all_fresh CF w ((hU2 w).1 hw) hwg x k hk hkj
        refine ⟨h1.1, ?_⟩
        have := h1.2.1
        rw [hRv]; omega
  · -- done_sub
    intro w hw hw0 hwv x k hk
    by_cases hwg : U g w
    · rcases L.done_sub w hwg hw0 hwv x k hk with h | h
      · exact Or.inl (hmono.res k h)
      · exact Or.inr h
    · by_cases hkj : k = j
      · subst hkj; exact hhead
      · rcases (C.all_fresh CF w ((hU2 w).1 hw) hwg x k hk hkj).2.2 with h | h
        · exact Or.inl (hres12 k h)
        · exact Or.inr h
  · -- witness
    by_cases hle : R g1 v ≤ R g1 u
    · have h1 : R g2 v = R g v := by rw [hRv, hRv1] at *; omega
      rcases L.witness with h | ⟨w, x, k, hw, hk, hkp, hx, hr⟩
      · left; rw [h1, hT2, hTv1]; exact h
      · right; exact ⟨w, x, k, hw, hk, hkp, hx, by rw [h1]; exact hr⟩
    · have h1 : R g2 v = R g1 u := by rw [hRv]; omega
      have h2 := L.ret_le
      have h3 := L.tin_v
      have h4 := L.inv.tin_lt v L.v_used
      rcases C.witness with h | ⟨w, x, k, hw, hk, hkj, hx, hr⟩
      · have := C.tin_v
        omega
      · right
        have hx0 : U g0 x := by
          by_contra hc
          have := L.tin_fresh x hx hc
          omega
        have hwn : ¬ U g w := hw.not_used hu
        refine ⟨w, x, k, ?_, hk, ?_, hx0, ?_⟩
        · unfold FreshReach
          refine Relation.ReflTransGen.head ⟨L.v_new, fun h => hu (L.mono u h), j, hJ⟩ ?_
          exact FreshReach.mono L.mono hw
        · rintro rfl
          rcases L.pgood w x hk with ⟨h5, _⟩ | ⟨_, h5⟩
          · exact hwn (h5 ▸ L.v_used)
          · exact hwn (L.mono w h5)
        · rw [h1, hr]; exact L.tin_frame x hx0
  · -- res_new
    intro k hk
    rcases hmem2 k hk with h | ⟨rfl, _⟩
    · rcases C.res_new k h with h1 | ⟨_, x, y, hxy, hx⟩
      · exact L.res_new k h1
      · right
        refine ⟨?_, x, y, hxy, fun h => hx (L.mono x h)⟩
        rintro rfl
        rcases L.pgood x y hxy with ⟨h5, _⟩ | ⟨_, h5⟩
        · exact hx (h5 ▸ L.v_used)
        · exact hx (L.mono x h5)
    · exact Or.inr ⟨hjp, v, u, hJ, L.v_new⟩
  · -- res_mono
    exact fun k hk => hmono.res k (L.res_mono k hk)
  · -- reach
    intro w hw hw0
    by_cases hwg : U g w
    · exact L.reach w hwg hw0
    · exact (Reach.edge hJ).concat (C.reach w ((hU2 w).1 hw) hwg)

end

/-! ## The invariant of the traversal -/

section

variable {N : Nat} {edges : List DefaultEdge} {adj : Nat → List (Nat × Nat)}

theorem LoopInv.back {g0 g g2 : AdjacencyListGraph} {v p u j : Nat}
    (L : LoopInv N edges adj g0 v p g) (hJ : Joins edges j v u) (hjp : j ≠ p)
    (hu : U g u) (hS : Shape N adj g2)
    (hU2 : ∀ x, U g2 x ↔ U g x) (hT2 : ∀ x, T g2 x = T g x)
    (hRv : R g2 v = min (R g v) (T g u)) (hRx : ∀ x, x ≠ v → R g2 x = R g x)
    (hres : g2.res = g.res) (htimer : g2.timer = g.timer) :
    LoopInv N edges adj g0 v p g2 ∧ Mono v g g2 ∧ EdgeDone edges g2 v u j := by
  have hmono : Mono v g g2 := by
    refine ⟨fun x hx => (hU2 x).2 hx, fun x _ => hT2 x, ?_, fun k hk => hres ▸ hk⟩
    rw [hRv]; omega
  have hhead : j ∈ g2.res ∨ ¬ IsBridge edges j := by
    by_cases huv : u = v
    · right
      subst huv
      exact not_bridge_of_reach hJ ReachAvoid.refl
    · by_cases hu0 : U g0 u
      · right
        exact not_bridge_of_reach hJ (L.conn0 u hu0 j hjp hJ)
      · rw [hres]
        exact L.done_sub u hu hu0 huv v j (Joins_symm hJ)
  refine ⟨?_, hmono, (hU2 u).2 hu, ?_, hhead⟩
  swap
  · rw [hRv, hT2]; omega
  refine
    { inv := ?_, v_le := L.v_le, v_new := L.v_new, v_used := (hU2 v).2 L.v_used, mono := ?_,
      tin_frame := ?_, ret_frame := ?_, tin_v := ?_, tin_fresh := ?_, tin_old := L.tin_old,
      ret_le := ?_, pgood := L.pgood, conn := ?_, conn0 := L.conn0, low_sub := ?_,
      done_sub := ?_, witness := ?_, res_new := ?_, res_mono := ?_, reach := ?_ }
  · refine ⟨hS, ?_, ?_, ?_, ?_⟩
    · intro x hx
      rw [hT2, htimer]
      exact L.inv.tin_lt x ((hU2 x).1 hx)
    · rw [hres]; exact L.inv.sound
    · rw [hres]; exact L.inv.nodup
    · intro k hk x y hxy
      rw [hres] at hk
      have := L.inv.res_used k hk x y hxy
      exact ⟨(hU2 x).2 this.1, (hU2 y).2 this.2⟩
  · exact fun x hx => (hU2 x).2 (L.mono x hx)
  · intro x hx
    rw [hT2]; exact L.tin_frame x hx
  · intro x hx
    have hxv : x ≠ v := fun h => L.v_new (h ▸ hx)
    rw [hRx x hxv]; exact L.ret_frame x hx
  · rw [hT2]; exact L.tin_v
  · intro w hw hw0
    rw [hT2]; exact L.tin_fresh w ((hU2 w).1 hw) hw0
  · have := L.ret_le
    rw [hRv, hT2]; omega
  · intro x hx hxv k hk
    obtain ⟨a, b, hab, ha⟩ := hk
    exact L.conn x ((hU2 x).1 hx) hxv k ⟨a, b, hab, fun h => ha ((hU2 a).2 h)⟩
  · intro w hw hw0 hwv x k hk
    have h1 := L.low_sub w ((hU2 w).1 hw) hw0 hwv x k hk
    refine ⟨(hU2 x).2 h1.1, ?_⟩
    have := h1.2
    rw [hRv, hT2]; omega
  · intro w hw hw0 hwv x k hk
    rw [hres]
    exact L.done_sub w ((hU2 w).1 hw) hw0 hwv x k hk
  · by_cases hle : R g v ≤ T g u
    · have h1 : R g2 v = R g v := by rw [hRv]; omega
      rw [h1, hT2]; exact L.witness
    · have h1 : R g2 v = T g u := by rw [hRv]; omega
      have h2 := L.ret_le
      have h3 := L.tin_v
      right
      have hu0 : U g0 u := by
        by_contra hc
        have := L.tin_fresh u hu hc
        omega
      refine ⟨v, u, j, Relation.ReflTransGen.refl, hJ, hjp, hu0, ?_⟩
      rw [h1]; exact L.tin_frame u hu0
  · rw [hres]; exact L.res_new
  · rw [hres]; exact L.res_mono
  · intro w hw hw0
    exact L.reach w ((hU2 w).1 hw) hw0

/-- The invariant of the loop holds when `DFS(u, j)` has just marked `u`. -/
theorem LoopInv.enter {g g1 : AdjacencyListGraph} {u j : Nat}
    (I : Inv N edges adj g) (hle : u ≤ N) (hu : ¬ U g u)
    (hp : ∀ x y, Joins edges j x y → (x = u ∧ U g y) ∨ (y = u ∧ U g x))
    (hc : ∀ x, U g x → Reach edges x u → ∀ k, k ≠ j → UnusedEnd edges g k →
      ReachAvoid edges k x u)
    (hS : Shape N adj g1)
    (hU1 : ∀ x, U g1 x ↔ x = u ∨ U g x)
    (hT1 : ∀ x, T g1 x = if x = u then g.timer else T g x)
    (hR1 : ∀ x, R g1 x = if x = u then g.timer else R g x)
    (hres : g1.res = g.res) (htimer : g1.timer = g.timer + 1) :
    LoopInv N edges adj g u j g1 := by
  have hne : ∀ x, U g x → x ≠ u := fun x hx h => hu (h ▸ hx)
  have hfresh : ∀ w, U g1 w → ¬ U g w → w = u := by
    intro w hw hw0
    rcases (hU1 w).1 hw with h | h
    · exact h
    · exact absurd h hw0
  refine
    { inv := ?_, v_le := hle, v_new := hu, v_used := (hU1 u).2 (Or.inl rfl), mono := ?_,
      tin_frame := ?_, ret_frame := ?_, tin_v := ?_, tin_fresh := ?_, tin_old := I.tin_lt,
      ret_le := ?_, pgood := hp, conn := ?_, conn0 := ?_, low_sub := ?_,
      done_sub := ?_, witness := ?_, res_new := ?_, res_mono := ?_, reach := ?_ }
  · refine ⟨hS, ?_, ?_, ?_, ?_⟩
    · intro x hx
      rw [hT1, htimer]
      split
      · omega
      · rcases (hU1 x).1 hx with h | h
        · contradiction
        · have := I.tin_lt x h; omega
    · rw [hres]; exact I.sound
    · rw [hres]; exact I.nodup
    · intro k hk x y hxy
      rw [hres] at hk
      have := I.res_used k hk x y hxy
      exact ⟨(hU1 x).2 (Or.inr this.1), (hU1 y).2 (Or.inr this.2)⟩
  · exact fun x hx => (hU1 x).2 (Or.inr hx)
  · intro x hx
    rw [hT1, if_neg (hne x hx)]
  · intro x hx
    rw [hR1, if_neg (hne x hx)]
  · rw [hT1, if_pos rfl]
  · intro w hw hw0
    rw [hfresh w hw hw0, hT1, if_pos rfl]
  · rw [hT1, hR1, if_pos rfl, if_pos rfl]
  · intro x hx hxu k hk
    rcases (hU1 x).1 hx with h | h
    · subst h; exact ReachAvoid.refl
    · obtain ⟨a, b, hab, ha⟩ := hk
      have ha0 : ¬ U g a := fun h2 => ha ((hU1 a).2 (Or.inr h2))
      have hau : a ≠ u := fun h2 => ha ((hU1 a).2 (Or.inl h2))
      apply hc x h hxu k _ ⟨a, b, hab, ha0⟩
      rintro rfl
      rcases hp a b hab with ⟨h2, _⟩ | ⟨_, h2⟩
      · exact hau h2
      · exact ha0 h2
  · intro x hx k hk hJ
    exact (hc x hx (Reach.edge (Joins_symm hJ)) k hk ⟨u, x, hJ, hu⟩).symm
  · intro w hw hw0 hwu
    exact absurd (hfresh w hw hw0) hwu
  · intro w hw hw0 hwu
    exact absurd (hfresh w hw hw0) hwu
  · left; rw [hT1, hR1, if_pos rfl, if_pos rfl]
  · intro k hk
    left; rw [hres] at hk; exact hk
  · intro k hk
    rw [hres]; exact hk
  · intro w hw hw0
    rw [hfresh w hw hw0]; exact Reach.here

/-- The main invariant theorem: a run of the loop of `DFS` keeps the loop
invariant and settles every neighbour it works through. -/
theorem Run.spec (hE : ValidInput N edges)
    (hadj : ∀ v u j, (u, j) ∈ adj v ↔ Joins edges j v u)
    {v p : Nat} {nbrs : List (Nat × Nat)} {g g1 : AdjacencyListGraph}
    (h : Run adj v p nbrs g g1) :
    ∀ g0, LoopInv N edges adj g0 v p g → (∀ e ∈ nbrs, e ∈ adj v) →
      LoopInv N edges adj g0 v p g1 ∧ Mono v g g1 ∧
        ∀ u j, (u, j) ∈ nbrs → j ≠ p → EdgeDone edges g1 v u j := by
  induction h with
  | done v p g =>
    intro g0 L _
    exact ⟨L, ⟨fun _ h => h, fun _ _ => rfl, le_refl _, fun _ h => h⟩, by simp⟩
  | skip v p u rest g g1 _ ih =>
    intro g0 L hsub
    obtain ⟨L1, M1, F1⟩ := ih g0 L (fun e he => hsub e (List.mem_cons_of_mem _ he))
    refine ⟨L1, M1, ?_⟩
    intro x k hxk hkp
    rcases List.mem_cons.mp hxk with h | h
    · cases h; exact absurd rfl hkp
    · exact F1 x k h hkp
  | back v p u j rest g g1 hjp hu _ ih =>
    intro g0 L hsub
    have hJ : Joins edges j v u := (hadj v u j).1 (hsub _ (List.mem_cons_self _ _))
    have hvlen : v < g.ret.length := by rw [L.inv.shape.ret_len]; have := L.v_le; omega
    obtain ⟨L2, M2, F2⟩ := L.back hJ hjp hu (Shape_lower L.inv.shape v (T g u))
      (fun x => U_lower g v _ x) (fun x => T_lower g v _ x)
      (by rw [R_lower hvlen, if_pos rfl])
      (fun x hx => by rw [R_lower hvlen, if_neg hx]) rfl rfl
    obtain ⟨L1, M1, F1⟩ := ih g0 L2 (fun e he => hsub e (List.mem_cons_of_mem _ he))
    have hM : Mono v g g1 :=
      ⟨fun x hx => M1.used x (M2.used x hx),
       fun x hx => by rw [M1.tin x (M2.used x hx), M2.tin x hx],
       le_trans M1.ret_v M2.ret_v, fun k hk => M1.res k (M2.res k hk)⟩
    refine ⟨L1, hM, ?_⟩
    intro x k hxk hkp
    rcases List.mem_cons.mp hxk with h | h
    · cases h
      refine ⟨M1.used _ F2.1, ?_, ?_⟩
      · rw [M1.tin _ F2.1]; exact le_trans M1.ret_v F2.2.1
      · rcases F2.2.2 with h3 | h3
        · exact Or.inl (M1.res _ h3)
        · exact Or.inr h3
    · exact F1 x k h hkp
  | tree v p u j rest g g1 g2 hjp hu _ _ ihc ih =>
    intro g0 L hsub
    have hJ : Joins edges j v u := (hadj v u j).1 (hsub _ (List.mem_cons_self _ _))
    have hule : u ≤ N := (Joins_range hE hJ).2.2.2
    have hS := L.inv.shape
    -- the recursive call
    have C0 : LoopInv N edges adj g u j (mark g u) := by
      apply LoopInv.enter L.inv hule hu
      · intro x y hxy
        rcases Joins_fun hJ hxy with ⟨h1, h2⟩ | ⟨h1, h2⟩
        · right; exact ⟨h2, h1 ▸ L.v_used⟩
        · left; exact ⟨h1, h2 ▸ L.v_used⟩
      · intro x hx hxu k hkj hk
        have h1 := L.conn x hx (hxu.concat (Reach.edge (Joins_symm hJ))) k hk
        exact h1.trans (ReachAvoid.step hkj.symm hJ)
      · exact Shape_mark hS u
      · exact fun x => U_mark (by rw [hS.used_len]; omega) x
      · exact fun x => T_mark (by rw [hS.t_in_len]; omega) x
      · exact fun x => R_mark (by rw [hS.ret_len]; omega) x
      · rfl
      · rfl
    obtain ⟨C, _, CF⟩ := ihc g C0 (fun e he => he)
    have CF2 : ∀ x k, Joins edges k u x → k ≠ j → EdgeDone edges g1 u x k :=
      fun x k hk hkj => CF x k ((hadj u x k).2 hk) hkj
    have hvlen : v < g1.ret.length := by rw [C.inv.shape.ret_len]; have := L.v_le; omega
    have hvu : u ≠ v := fun h => hu (h ▸ L.v_used)
    obtain ⟨L2, M2, F2⟩ := L.exit hJ hjp hu C CF2
      (Shape_report (Shape_lower C.inv.shape v (R g1 u)) u j)
      (fun x => by simp) (fun x => by simp)
      (by rw [R_report, R_lower hvlen, if_pos rfl])
      (fun x hx => by rw [R_report, R_lower hvlen, if_neg hx])
      (by rw [res_report, R_lower hvlen, if_neg hvu]; simp)
      (by simp)
    obtain ⟨L1, M1, F1⟩ := ih g0 L2 (fun e he => hsub e (List.mem_cons_of_mem _ he))
    have hM : Mono v g g2 :=
      ⟨fun x hx => M1.used x (M2.used x hx),
       fun x hx => by rw [M1.tin x (M2.used x hx), M2.tin x hx],
       le_trans M1.ret_v M2.ret_v, fun k hk => M1.res k (M2.res k hk)⟩
    refine ⟨L1, hM, ?_⟩
    intro x k hxk hkp
    rcases List.mem_cons.mp hxk with h | h
    · cases h
      refine ⟨M1.used _ F2.1, ?_, ?_⟩
      · rw [M1.tin _ F2.1]; exact le_trans M1.ret_v F2.2.1
      · rcases F2.2.2 with h3 | h3
        · exact Or.inl (M1.res _ h3)
        · exact Or.inr h3
    · exact F1 x k h hkp

end

/-! ## The program follows the big-step relation -/

section

variable {N : Nat} {edges : List DefaultEdge} {adj : Nat → List (Nat × Nat)}

theorem rd_ok {α : Type} {v : List α} {i : Nat} (h : i < v.length) (d : α) :
    rd v i = .ok (v.getD i d) := by
  unfold rd
  rw [List.getD_eq_getElem?_getD, List.getElem?_eq_getElem h]
  rfl

theorem wr_ok {α : Type} {v : List α} {i : Nat} (h : i < v.length) (a : α) :
    wr v i a = .ok (v.set i a) := by
  unfold wr
  rw [if_pos h]

theorem enter_ok {g : AdjacencyListGraph} {v : Nat} (hS : Shape N adj g) (hv : v ≤ N) :
    enter g v = .ok (mark g v) := by
  have h1 : v < g.t_in.length := by rw [hS.t_in_len]; omega
  have h2 : v < g.ret.length := by rw [hS.ret_len]; omega
  have h3 : v < g.used.length := by rw [hS.used_len]; omega
  have h4 : v < (g.t_in.set v g.timer).length := by simpa using h1
  unfold enter
  rw [wr_ok h1]
  simp only
  rw [rd_ok h4 0]
  simp only
  rw [wr_ok h2]
  simp only
  rw [wr_ok h3]
  simp only [mark, getD_set, h1, and_self, if_true]

theorem relax_ok {g : AdjacencyListGraph} {v : Nat} (hS : Shape N adj g) (hv : v ≤ N)
    (x : Nat) : relax g v x = .ok (lower g v x) := by
  have h2 : v < g.ret.length := by rw [hS.ret_len]; omega
  unfold relax
  rw [rd_ok h2 0]
  simp only
  rw [wr_ok h2]
  rfl

theorem neighbours_ok {g : AdjacencyListGraph} {v : Nat} (hS : Shape N adj g) (hv : v ≤ N) :
    g.GetNeighbours v = .ok (adj v) := by
  unfold AdjacencyListGraph.GetNeighbours rd
  rw [hS.list_eq v hv]

theorem count_set_true (l : List Bool) (i : Nat) (hi : i < l.length)
    (h : l.getD i false = false) : (l.set i true).count false + 1 = l.count false := by
  induction l generalizing i with
  | nil => simp at hi
  | cons b rest ih =>
    cases i with
    | zero =>
      simp at h
      subst h
      simp
    | succ i =>
      simp at hi h
      have := ih i hi (by simpa using h)
      simp only [List.set_cons_succ, List.count_cons]
      omega

theorem cnt_mark {g : AdjacencyListGraph} {v : Nat} (hv : v < g.used.length) (hu : ¬ U g v) :
    cnt (mark g v) + 1 = cnt g := by
  unfold cnt mark
  apply count_set_true _ _ hv
  unfold U at hu
  simpa using hu

@[simp] theorem cnt_lower (g : AdjacencyListGraph) (v x : Nat) : cnt (lower g v x) = cnt g := rfl

@[simp] theorem cnt_report (g : AdjacencyListGraph) (u j : Nat) : cnt (report g u j) = cnt g := by
  unfold report; split <;> rfl

theorem visit_back {call : AdjacencyListGraph → Nat → Nat → Except Fault AdjacencyListGraph}
    {g : AdjacencyListGraph} {v p u j : Nat} (hS : Shape N adj g) (hv : v ≤ N) (hu : u ≤ N)
    (hjp : j ≠ p) (hU : U g u) : visit call v p g (u, j) = .ok (lower g v (T g u)) := by
  have h1 : u < g.used.length := by rw [hS.used_len]; omega
  have h2 : u < g.t_in.length := by rw [hS.t_in_len]; omega
  unfold visit
  simp only [if_neg hjp]
  rw [rd_ok h1 false]
  unfold U at hU
  rw [hU]
  simp only
  rw [rd_ok h2 0]
  simp only
  exact relax_ok hS hv _

theorem visit_tree {call : AdjacencyListGraph → Nat → Nat → Except Fault AdjacencyListGraph}
    {g g1 : AdjacencyListGraph} {v p u j : Nat} (hS : Shape N adj g) (hS1 : Shape N adj g1)
    (hv : v ≤ N) (hu : u ≤ N) (hjp : j ≠ p) (hU : ¬ U g u) (hcall : call g u j = .ok g1) :
    visit call v p g (u, j) = .ok (report (lower g1 v (R g1 u)) u j) := by
  have h1 : u < g.used.length := by rw [hS.used_len]; omega
  have h2 : u < g1.ret.length := by rw [hS1.ret_len]; omega
  have hS2 := Shape_lower hS1 v (R g1 u)
  have h3 : u < (lower g1 v (R g1 u)).ret.length := by rw [hS2.ret_len]; omega
  have h4 : u < (lower g1 v (R g1 u)).t_in.length := by rw [hS2.t_in_len]; omega
  unfold visit
  simp only [if_neg hjp]
  rw [rd_ok h1 false]
  have hU2 : g.used.getD u false = false := by
    unfold U at hU; simpa using hU
  rw [hU2]
  simp only
  rw [hcall]
  simp only
  rw [rd_ok h2 0]
  simp only
  rw [show g1.ret.getD u 0 = R g1 u from rfl, relax_ok hS1 hv]
  simp only
  rw [rd_ok h3 0, rd_ok h4 0]
  simp only
  unfold report R T
  split <;> rfl

/-- The functional loop agrees with the big-step relation, given that the
recursive call does at the current fuel. -/
theorem forNeighbours_run {fuel : Nat}
    (ih : ∀ g v p, Shape N adj g → v ≤ N → ¬ U g v → cnt g ≤ fuel →
      ∃ g1, DFS fuel g v p = .ok g1 ∧ Run adj v p (adj v) (mark g v) g1 ∧ Shape N adj g1 ∧
        cnt g1 < cnt g)
    (v p : Nat) (hv : v ≤ N) (nbrs : List (Nat × Nat)) :
    ∀ g, Shape N adj g → (∀ e ∈ nbrs, e.1 ≤ N) → cnt g ≤ fuel →
      ∃ g1, forNeighbours (DFS fuel) v p nbrs g = .ok g1 ∧ Run adj v p nbrs g g1 ∧
        Shape N adj g1 ∧ cnt g1 ≤ cnt g := by
  induction nbrs with
  | nil =>
    intro g hS _ _
    exact ⟨g, rfl, Run.done v p g, hS, le_refl _⟩
  | cons e rest ihl =>
    intro g hS hr hc
    obtain ⟨u, j⟩ := e
    have hu : u ≤ N := hr (u, j) (List.mem_cons_self _ _)
    have hr2 : ∀ e ∈ rest, e.1 ≤ N := fun e he => hr e (List.mem_cons_of_mem _ he)
    by_cases hjp : j = p
    · subst hjp
      obtain ⟨g1, h1, h2, h3, h4⟩ := ihl g hS hr2 hc
      refine ⟨g1, ?_, Run.skip v j u rest g g1 h2, h3, h4⟩
      simp only [forNeighbours, visit, if_true]
      exact h1
    · by_cases hU : U g u
      · have hS2 := Shape_lower hS v (T g u)
        obtain ⟨g1, h1, h2, h3, h4⟩ := ihl (lower g v (T g u)) hS2 hr2 (by simpa using hc)
        refine ⟨g1, ?_, Run.back v p u j rest g g1 hjp hU h2, h3, by simpa using h4⟩
        simp only [forNeighbours]
        rw [visit_back hS hv hu hjp hU]
        exact h1
      · obtain ⟨gc, hc1, hc2, hc3, hc4⟩ := ih g u j hS hu hU hc
        have hS2 := Shape_report (Shape_lower hc3 v (R gc u)) u j
        obtain ⟨g1, h1, h2, h3, h4⟩ := ihl (report (lower gc v (R gc u)) u j) hS2 hr2
          (by simp; omega)
        refine ⟨g1, ?_, Run.tree v p u j rest g gc g1 hjp hU hc2 h2, h3, ?_⟩
        · simp only [forNeighbours]
          rw [visit_tree hS hc3 hv hu hjp hU hc1]
          exact h1
        · simp at h4; omega

/-- Totality of `DFS`: with fuel for every unmarked vertex the call returns a
state, the one the big-step relation describes. -/
theorem DFS_run (hrange : ∀ v e, e ∈ adj v → e.1 ≤ N) (fuel : Nat) :
    ∀ g v p, Shape N adj g → v ≤ N → ¬ U g v → cnt g ≤ fuel →
      ∃ g1, DFS fuel g v p = .ok g1 ∧ Run adj v p (adj v) (mark g v) g1 ∧ Shape N adj g1 ∧
        cnt g1 < cnt g := by
  induction fuel with
  | zero =>
    intro g v p hS hv hU hc
    have := cnt_mark (by rw [hS.used_len]; omega) hU
    omega
  | succ fuel ih =>
    intro g v p hS hv hU hc
    have hm := cnt_mark (by rw [hS.used_len]; omega) hU
    obtain ⟨g1, h1, h2, h3, h4⟩ := forNeighbours_run ih v p hv (adj v) (mark g v)
      (Shape_mark hS v) (fun e he => hrange v e he) (by omega)
    refine ⟨g1, ?_, h2, h3, by omega⟩
    simp only [DFS]
    rw [enter_ok hS hv]
    simp only
    rw [neighbours_ok (Shape_mark hS v) hv]
    exact h1

end

/-! ## The constructor and the driver loop -/

section

variable {N : Nat} {edges : List DefaultEdge} {adj : Nat → List (Nat × Nat)}

theorem pushAt_ok {l : List (List (Nat × Nat))} {i : Nat} (h : i < l.length) (x : Nat × Nat) :
    pushAt l i x = .ok (l.set i (l.getD i [] ++ [x])) := by
  unfold pushAt
  rw [List.getD_eq_getElem?_getD, List.getElem?_eq_getElem h]
  rfl

/-- The constructor loop appends to every row the scan of the remaining edges. -/
theorem addEdges_spec (es : List DefaultEdge) :
    ∀ (i : Nat) (l : List (List (Nat × Nat))), l.length = N + 1 →
      (∀ e ∈ es, e.1 ≤ N ∧ e.2 ≤ N) →
      ∃ l1, addEdges es i l = .ok l1 ∧ l1.length = N + 1 ∧
        ∀ v, l1.getD v [] = l.getD v [] ++ scanFrom v es i := by
  induction es with
  | nil =>
    intro i l hl _
    exact ⟨l, rfl, hl, fun v => by simp [scanFrom]⟩
  | cons e rest ih =>
    intro i l hl hr
    have he := hr e (List.mem_cons_self _ _)
    have h1 : e.1 < l.length := by omega
    have h2 : e.2 < (l.set e.1 (l.getD e.1 [] ++ [(e.2, i)])).length := by
      simp; omega
    obtain ⟨l1, h3, h4, h5⟩ := ih (i + 1)
      ((l.set e.1 (l.getD e.1 [] ++ [(e.2, i)])).set e.2
        ((l.set e.1 (l.getD e.1 [] ++ [(e.2, i)])).getD e.2 [] ++ [(e.1, i)]))
      (by simp; omega) (fun e he => hr e (List.mem_cons_of_mem _ he))
    refine ⟨l1, ?_, h4, ?_⟩
    · simp only [addEdges]
      rw [pushAt_ok h1]
      simp only
      rw [pushAt_ok h2]
      exact h3
    · intro v
      have h2b : e.2 < l.length := by omega
      rw [h5 v]
      simp only [scanFrom, getD_set, List.length_set, h1, h2b, and_true]
      by_cases ha : e.1 = v <;> by_cases hb : e.2 = v <;> simp [ha, hb]

theorem getD_replicate {α : Type} (n i : Nat) (a : α) : (List.replicate n a).getD i a = a := by
  rw [List.getD_eq_getElem?_getD]
  by_cases h : i < n
  · simp [List.getElem?_replicate, h]
  · simp [List.getElem?_replicate, h]

/-- The constructor succeeds on a valid input; the state it builds. -/
theorem new_ok (hE : ValidInput N edges) :
    ∃ g, AdjacencyListGraph.new N edges = .ok g ∧ Shape N (neighboursSpec edges) g ∧
      g.res = [] ∧ g.timer = 0 ∧ (∀ v, ¬ U g v) ∧ cnt g = N + 1 := by
  obtain ⟨l, h1, h2, h3⟩ := addEdges_spec (N := N) edges 1 (List.replicate (N + 1) [])
    (by simp) (fun e he => by have := hE e he; omega)
  unfold AdjacencyListGraph.new
  rw [h1]
  refine ⟨_, rfl, ?_, rfl, rfl, ?_, ?_⟩
  · refine ⟨by simp, by simp, by simp, ?_⟩
    intro v hv
    have h4 := h3 v
    rw [getD_replicate, List.nil_append] at h4
    simp only
    rw [List.getElem?_eq_getElem (by omega : v < l.length)]
    rw [List.getD_eq_getElem?_getD, List.getElem?_eq_getElem (by omega : v < l.length)] at h4
    simp only [Option.getD_some] at h4
    rw [h4]
    rfl
  · intro v
    unfold U
    simp only
    rw [getD_replicate]
    simp
  · unfold cnt
    simp

theorem Closed.used_of_reach {g : AdjacencyListGraph} (hC : Closed edges g) {x y : Nat} (hx : U g x)
    (h : Reach edges x y) : U g y := by
  unfold Reach at h
  induction h with
  | refl => exact hx
  | tail _ hbc ih =>
    obtain ⟨j, hj⟩ := hbc
    exact hC _ _ j ih hj

/-- One root call of the driver: `DFS(r, 0)` from a state whose marked vertices
are closed under the edges. -/
theorem root_call (hE : ValidInput N edges)
    (hadj : ∀ v u j, (u, j) ∈ adj v ↔ Joins edges j v u)
    {g : AdjacencyListGraph} {r fuel : Nat} (I : Inv N edges adj g) (hC : Closed edges g)
    (hD : AllDone edges g) (hr : r ≤ N) (hu : ¬ U g r) (hc : cnt g ≤ fuel) :
    ∃ g1, DFS fuel g r 0 = .ok g1 ∧ Inv N edges adj g1 ∧ Closed edges g1 ∧
      AllDone edges g1 ∧ U g1 r ∧ Grow edges [r] g g1 := by
  have hrange : ∀ v e, e ∈ adj v → e.1 ≤ N := by
    intro v e he
    exact (Joins_range hE ((hadj v e.1 e.2).1 he)).2.2.2
  obtain ⟨g1, h1, h2, h3, h4⟩ := DFS_run hrange fuel g r 0 I.shape hr hu hc
  have hS := I.shape
  have C0 : LoopInv N edges adj g r 0 (mark g r) := by
    apply LoopInv.enter I hr hu
    · intro x y hxy
      exact absurd hxy Joins_zero
    · intro x hx hxr
      exact absurd (hC.used_of_reach hx hxr) hu
    · exact Shape_mark hS r
    · exact fun x => U_mark (by rw [hS.used_len]; omega) x
    · exact fun x => T_mark (by rw [hS.t_in_len]; omega) x
    · exact fun x => R_mark (by rw [hS.ret_len]; omega) x
    · rfl
    · rfl
  obtain ⟨C, _, CF⟩ := h2.spec hE hadj g C0 (fun e he => he)
  have hk0 : ∀ {k x y}, Joins edges k x y → k ≠ 0 := by
    intro k x y hk h0
    subst h0
    exact Joins_zero hk
  have CF2 : ∀ x k, Joins edges k r x → k ≠ 0 → EdgeDone edges g1 r x k :=
    fun x k hk hk0 => CF x k ((hadj r x k).2 hk) hk0
  refine ⟨g1, h1, C.inv, ?_, ?_, C.v_used, ?_⟩
  · intro x y j hx hj
    by_cases hxg : U g x
    · exact C.mono y (hC x y j hxg hj)
    · exact (C.all_fresh CF2 x hx hxg y j hj (hk0 hj)).1
  · intro w hw x j hj
    by_cases hwg : U g w
    · rcases hD w hwg x j hj with h | h
      · exact Or.inl (C.res_mono j h)
      · exact Or.inr h
    · exact (C.all_fresh CF2 w hw hwg x j hj (hk0 hj)).2.2
  · refine ⟨C.mono, C.tin_frame, ?_, C.res_mono, by omega⟩
    intro w hw hwg
    exact ⟨C.tin_fresh w hw hwg, r, List.mem_singleton.mpr rfl, C.reach w hw hwg⟩

/-- The driver loop over a list of roots. -/
theorem roots_spec (hE : ValidInput N edges)
    (hadj : ∀ v u j, (u, j) ∈ adj v ↔ Joins edges j v u) (fuel : Nat) (L : List Nat) :
    ∀ g, Inv N edges adj g → Closed edges g → AllDone edges g → (∀ i ∈ L, i ≤ N) →
      cnt g ≤ fuel →
      ∃ g1, roots fuel L g = .ok g1 ∧ Inv N edges adj g1 ∧ Closed edges g1 ∧
        AllDone edges g1 ∧ (∀ i ∈ L, U g1 i) ∧ Grow edges L g g1 := by
  induction L with
  | nil =>
    intro g I hC hD _ _
    exact ⟨g, rfl, I, hC, hD, by simp,
      ⟨fun _ h => h, fun _ _ => rfl, fun w hw hn => absurd hw hn, fun _ h => h, le_refl _⟩⟩
  | cons i rest ih =>
    intro g I hC hD hL hc
    have hi : i ≤ N := hL i (List.mem_cons_self _ _)
    have hL2 : ∀ i ∈ rest, i ≤ N := fun k hk => hL k (List.mem_cons_of_mem _ hk)
    have hlen : i < g.used.length := by rw [I.shape.used_len]; omega
    by_cases hu : U g i
    · obtain ⟨g1, h1, h2, h3, h4, h5, h6⟩ := ih g I hC hD hL2 hc
      refine ⟨g1, ?_, h2, h3, h4, ?_, ?_⟩
      · simp only [roots]
        rw [rd_ok hlen false]
        unfold U at hu
        rw [hu]
        exact h1
      · intro k hk
        rcases List.mem_cons.mp hk with h | h
        · subst h; exact h6.used _ hu
        · exact h5 k h
      · refine ⟨h6.used, h6.tin, ?_, h6.res, h6.count⟩
        intro w hw hn
        obtain ⟨h7, r, hr, h8⟩ := h6.fresh w hw hn
        exact ⟨h7, r, List.mem_cons_of_mem _ hr, h8⟩
    · obtain ⟨gc, c1, c2, c3, c4, c5, c6⟩ := root_call hE hadj I hC hD hi hu hc
      obtain ⟨g1, h1, h2, h3, h4, h5, h6⟩ := ih gc c2 c3 c4 hL2 (le_trans c6.count hc)
      refine ⟨g1, ?_, h2, h3, h4, ?_, ?_⟩
      · simp only [roots]
        rw [rd_ok hlen false]
        have hu2 : g.used.getD i false = false := by
          unfold U at hu; simpa using hu
        rw [hu2]
        simp only
        rw [c1]
        exact h1
      · intro k hk
        rcases List.mem_cons.mp hk with h | h
        · subst h; exact h6.used _ c5
        · exact h5 k h
      · refine ⟨fun x hx => h6.used x (c6.used x hx),
          fun x hx => by rw [h6.tin x (c6.used x hx), c6.tin x hx], ?_,
          fun k hk => h6.res k (c6.res k hk), le_trans h6.count c6.count⟩
        intro w hw hn
        have ht : g.timer ≤ gc.timer := by
          have := c2.tin_lt i c5
          have := (c6.fresh i c5 hu).1
          omega
        by_cases hwc : U gc w
        · obtain ⟨h7, r, hr, h8⟩ := c6.fresh w hwc hn
          rw [h6.tin w hwc]
          refine ⟨h7, r, ?_, h8⟩
          rw [List.mem_singleton.mp hr]
          exact List.mem_cons_self _ _
        · obtain ⟨h7, r, hr, h8⟩ := h6.fresh w hw hwc
          exact ⟨by omega, r, List.mem_cons_of_mem _ hr, h8⟩

end

/-! ## The final state of the traversal -/

section

variable {N : Nat} {edges : List DefaultEdge}

theorem hadj_spec (edges : List DefaultEdge) :
    ∀ v u j, (u, j) ∈ neighboursSpec edges v ↔ Joins edges j v u :=
  fun _ _ _ => mem_neighboursSpec

/-- The whole traversal of `main` on a valid input: it returns a state, in
which every vertex is marked and every edge is reported or is not a bridge. -/
theorem traverse_spec (hE : ValidInput N edges) :
    ∃ g0 g, AdjacencyListGraph.new N edges = .ok g0 ∧ traverse (N + 1) N edges = .ok g ∧
      Inv N edges (neighboursSpec edges) g ∧ Closed edges g ∧ AllDone edges g ∧
      (∀ i, 1 ≤ i → i ≤ N → U g i) ∧ Grow edges (List.range' 1 N) g0 g ∧
      g0.timer = 0 ∧ (∀ v, ¬ U g0 v) := by
  obtain ⟨g0, h1, h2, h3, h4, h5, h6⟩ := new_ok hE
  have I0 : Inv N edges (neighboursSpec edges) g0 :=
    ⟨h2, fun u hu => absurd hu (h5 u), by simp [h3], by simp [h3], by simp [h3]⟩
  have hC0 : Closed edges g0 := fun x _ _ hx _ => absurd hx (h5 x)
  have hD0 : AllDone edges g0 := fun w hw _ _ _ => absurd hw (h5 w)
  obtain ⟨g, k1, k2, k3, k4, k5, k6⟩ := roots_spec hE (hadj_spec edges) (N + 1)
    (List.range' 1 N) g0 I0 hC0 hD0
    (fun i hi => by rw [List.mem_range'_1] at hi; omega) (by omega)
  refine ⟨g0, g, h1, ?_, k2, k3, k4, ?_, k6, h4, h5⟩
  · unfold traverse
    rw [h1]
    exact k1
  · intro i hi1 hi2
    exact k5 i (by rw [List.mem_range'_1]; omega)

theorem mem_sort {l : List Nat} {i : Nat} : i ∈ sort l ↔ i ∈ l :=
  (List.perm_insertionSort _ l).mem_iff

/-- In the final state the reported identifiers are exactly the bridges. -/
theorem res_iff_bridge (hE : ValidInput N edges) {g : AdjacencyListGraph}
    (I : Inv N edges (neighboursSpec edges) g) (hD : AllDone edges g)
    (hall : ∀ i, 1 ≤ i → i ≤ N → U g i) (i : Nat) : i ∈ g.res ↔ IsBridge edges i := by
  constructor
  · exact I.sound i
  · intro hb
    obtain ⟨e, he, _⟩ := id hb
    have hJ : Joins edges i e.1 e.2 := Joins_iff.2 ⟨e, he, Or.inl ⟨rfl, rfl⟩⟩
    have hr := Joins_range hE hJ
    rcases hD e.1 (hall e.1 hr.1 hr.2.1) e.2 i hJ with h | h
    · exact h
    · exact absurd hb h

end

/-! ## The values of `bridges` and `main` -/

section

variable {N : Nat} {edges : List DefaultEdge}

/-- The program on a valid input: the final state of the traversal, and the
values of `bridges` and `main` computed from it. -/
theorem main_spec (hE : ValidInput N edges) :
    ∃ g, traverse (N + 1) N edges = .ok g ∧ bridges N edges = .ok (sort g.res) ∧
      main N edges = .ok (Print (sort g.res)) ∧
      Inv N edges (neighboursSpec edges) g ∧ AllDone edges g ∧
      (∀ i, 1 ≤ i → i ≤ N → U g i) := by
  obtain ⟨g0, g, _, h2, h3, _, h5, h6, _⟩ := traverse_spec hE
  have hb : bridges N edges = .ok (sort g.res) := by
    unfold bridges
    rw [h2]
  refine ⟨g, h2, hb, ?_, h3, h5, h6⟩
  unfold main
  rw [hb]

theorem sort_sorted_lt {l : List Nat} (h : l.Nodup) :
    List.Sorted (fun a b => a < b) (sort l) := by
  have h1 : List.Sorted (fun a b : Nat => a ≤ b) (sort l) :=
    List.sorted_insertionSort (fun a b : Nat => a ≤ b) l
  have h2 : (sort l).Nodup := (List.perm_insertionSort _ l).nodup_iff.mpr h
  exact List.Sorted.lt_of_le h1 h2

end

/-! ## Accesses stay inside the vectors -/

section

variable {N : Nat} {edges : List DefaultEdge} {adj : Nat → List (Nat × Nat)}

theorem visit_tree_fault {call : AdjacencyListGraph → Nat → Nat → Except Fault AdjacencyListGraph}
    {g : AdjacencyListGraph} {v p u j : Nat} {e : Fault} (hS : Shape N adj g)
    (hu : u ≤ N) (hjp : j ≠ p) (hU : ¬ U g u) (hcall : call g u j = .error e) :
    visit call v p g (u, j) = .error e := by
  have h1 : u < g.used.length := by rw [hS.used_len]; omega
  unfold visit
  simp only [if_neg hjp]
  rw [rd_ok h1 false]
  have hU2 : g.used.getD u false = false := by
    unfold U at hU; simpa using hU
  rw [hU2]
  simp only
  rw [hcall]

/-- The loop of `DFS` never reads or writes outside a vector, whatever the
fuel, provided the recursive call never does. -/
theorem forNeighbours_safe {fuel : Nat}
    (ih : ∀ g v p, Shape N adj g → v ≤ N →
      DFS fuel g v p = .error .outOfFuel ∨ ∃ g1, DFS fuel g v p = .ok g1 ∧ Shape N adj g1)
    (v p : Nat) (hv : v ≤ N) (nbrs : List (Nat × Nat)) :
    ∀ g, Shape N adj g → (∀ e ∈ nbrs, e.1 ≤ N) →
      forNeighbours (DFS fuel) v p nbrs g = .error .outOfFuel ∨
        ∃ g1, forNeighbours (DFS fuel) v p nbrs g = .ok g1 ∧ Shape N adj g1 := by
  induction nbrs with
  | nil =>
    intro g hS _
    exact Or.inr ⟨g, rfl, hS⟩
  | cons e rest ihl =>
    intro g hS hr
    obtain ⟨u, j⟩ := e
    have hu : u ≤ N := hr (u, j) (List.mem_cons_self _ _)
    have hr2 : ∀ e ∈ rest, e.1 ≤ N := fun e he => hr e (List.mem_cons_of_mem _ he)
    by_cases hjp : j = p
    · subst hjp
      have := ihl g hS hr2
      simpa only [forNeighbours, visit, if_true] using this
    · by_cases hU : U g u
      · have := ihl (lower g v (T g u)) (Shape_lower hS v (T g u)) hr2
        simp only [forNeighbours]
        rw [visit_back hS hv hu hjp hU]
        exact this
      · rcases ih g u j hS hu with hc | ⟨gc, hc, hSc⟩
        · left
          simp only [forNeighbours]
          rw [visit_tree_fault hS hu hjp hU hc]
        · have := ihl (report (lower gc v (R gc u)) u j)
            (Shape_report (Shape_lower hSc v (R gc u)) u j) hr2
          simp only [forNeighbours]
          rw [visit_tree hS hSc hv hu hjp hU hc]
          exact this

/-- The call `DFS` never reads or writes outside a vector, whatever the fuel. -/
theorem DFS_safe (hrange : ∀ v e, e ∈ adj v → e.1 ≤ N) (fuel : Nat) :
    ∀ g v p, Shape N adj g → v ≤ N →
      DFS fuel g v p = .error .outOfFuel ∨ ∃ g1, DFS fuel g v p = .ok g1 ∧ Shape N adj g1 := by
  induction fuel with
  | zero =>
    intro g v p _ _
    exact Or.inl rfl
  | succ fuel ih =>
    intro g v p hS hv
    have := forNeighbours_safe ih v p hv (adj v) (mark g v) (Shape_mark hS v)
      (fun e he => hrange v e he)
    simp only [DFS]
    rw [enter_ok hS hv]
    simp only
    rw [neighbours_ok (Shape_mark hS v) hv]
    exact this

theorem roots_safe (hrange : ∀ v e, e ∈ adj v → e.1 ≤ N) (fuel : Nat) (L : List Nat) :
    ∀ g, Shape N adj g → (∀ i ∈ L, i ≤ N) →
      roots fuel L g = .error .outOfFuel ∨ ∃ g1, roots fuel L g = .ok g1 ∧ Shape N adj g1 := by
  induction L with
  | nil =>
    intro g hS _
    exact Or.inr ⟨g, rfl, hS⟩
  | cons i rest ih =>
    intro g hS hL
    have hi : i ≤ N := hL i (List.mem_cons_self _ _)
    have hL2 : ∀ i ∈ rest, i ≤ N := fun k hk => hL k (List.mem_cons_of_mem _ hk)
    have hlen : i < g.used.length := by rw [hS.used_len]; omega
    simp only [roots]
    rw [rd_ok hlen false]
    cases hu : g.used.getD i false with
    | true => exact ih g hS hL2
    | false =>
      simp only
      rcases DFS_safe hrange fuel g i 0 hS hi with hc | ⟨gc, hc, hSc⟩
      · rw [hc]; exact Or.inl rfl
      · rw [hc]; exact ih gc hSc hL2

theorem range_spec (hE : ValidInput N edges) :
    ∀ v e, e ∈ neighboursSpec edges v → e.1 ≤ N := by
  intro v e he
  exact (Joins_range hE ((hadj_spec edges v e.1 e.2).1 he)).2.2.2

theorem traverse_safe (hE : ValidInput N edges) (fuel : Nat) :
    traverse fuel N edges = .error .outOfFuel ∨
      ∃ g, traverse fuel N edges = .ok g ∧ Shape N (neighboursSpec edges) g := by
  obtain ⟨g0, h1, h2, _⟩ := new_ok hE
  unfold traverse
  rw [h1]
  exact roots_safe (range_spec hE) fuel (List.range' 1 N) g0 h2
    (fun i hi => by rw [List.mem_range'_1] at hi; omega)

end

/-! ## Trails, trees and the shape of the output -/

section

variable {N : Nat} {edges : List DefaultEdge}

theorem IsWalk.split {y : Nat} (w1 : List (Nat × Nat)) (s : Nat × Nat)
    (w2 : List (Nat × Nat)) :
    ∀ x, IsWalk edges x (w1 ++ s :: w2) y →
      ∃ b, IsWalk edges x w1 b ∧ Joins edges s.1 b s.2 ∧ IsWalk edges s.2 w2 y := by
  induction w1 with
  | nil =>
    intro x h
    exact ⟨x, rfl, h.1, h.2⟩
  | cons t rest ih =>
    intro x h
    obtain ⟨b, h1, h2, h3⟩ := ih t.2 h.2
    exact ⟨b, ⟨h.1, h1⟩, h2, h3⟩

theorem IsWalk.snoc {y z j : Nat} (w : List (Nat × Nat)) :
    ∀ x, IsWalk edges x w y → Joins edges j y z → IsWalk edges x (w ++ [(j, z)]) z := by
  induction w with
  | nil =>
    intro x h hj
    cases h
    exact ⟨hj, rfl⟩
  | cons t rest ih =>
    intro x h hj
    exact ⟨h.1, ih t.2 h.2 hj⟩

/-- Two vertices connected without the edge `i` are joined by a walk that
avoids `i` and takes no edge twice. -/
theorem trail_of_reachAvoid {i x y : Nat} (h : ReachAvoid edges i x y) :
    ∃ w, IsWalk edges x w y ∧ (w.map Prod.fst).Nodup ∧ i ∉ w.map Prod.fst := by
  unfold ReachAvoid at h
  induction h using Relation.ReflTransGen.head_induction_on with
  | refl => exact ⟨[], rfl, List.nodup_nil, by simp⟩
  | @head a c hac _ ih =>
    obtain ⟨j, hji, hj⟩ := hac
    obtain ⟨w, hw, hnd, hi⟩ := ih
    by_cases hjw : j ∈ w.map Prod.fst
    · -- the edge `j` is already on the trail: a final part of it starts at `a`
      obtain ⟨s, hs, hsj⟩ := List.mem_map.mp hjw
      obtain ⟨w1, w2, rfl⟩ := List.append_of_mem hs
      obtain ⟨b, _, hb, h2⟩ := IsWalk.split w1 s w2 c hw
      rw [List.map_append, List.map_cons] at hnd hi
      have hnd2 : ((s :: w2).map Prod.fst).Nodup := by
        rw [List.map_cons]
        exact (List.nodup_append.mp hnd).2.1
      have hi2 : i ∉ (s :: w2).map Prod.fst := by
        rw [List.map_cons]
        exact fun h => hi (List.mem_append_right _ h)
      rw [hsj] at hb
      rcases Joins_fun hj hb with ⟨h3, h4⟩ | ⟨h3, h4⟩
      · -- the trail takes `j` from `a`
        refine ⟨s :: w2, ⟨?_, h2⟩, hnd2, hi2⟩
        rw [hsj, ← h3]; exact hb
      · -- the trail takes `j` into `a`
        refine ⟨w2, ?_, (List.nodup_cons.mp hnd2).2, fun h => hi2 (List.mem_cons_of_mem _ h)⟩
        rw [← h4]; exact h2
    · refine ⟨(j, c) :: w, ⟨hj, hw⟩, ?_, ?_⟩
      · rw [List.map_cons]
        exact List.nodup_cons.mpr ⟨hjw, hnd⟩
      · rw [List.map_cons]
        intro h
        rcases List.mem_cons.mp h with h | h
        · exact hji h.symm
        · exact hi h

/-- In a multigraph without cycles every edge is a bridge. -/
theorem Acyclic.bridge (hA : Acyclic edges) {i : Nat} {e : DefaultEdge}
    (he : endpoints edges i = some e) : IsBridge edges i := by
  refine ⟨e, he, fun hr => ?_⟩
  obtain ⟨w, hw, hnd, hi⟩ := trail_of_reachAvoid hr
  have hJ : Joins edges i e.2 e.1 := Joins_iff.2 ⟨e, he, Or.inr ⟨rfl, rfl⟩⟩
  refine hA e.1 (w ++ [(i, e.1)]) ⟨by simp, IsWalk.snoc w e.1 hw hJ, ?_⟩
  rw [List.map_append, List.nodup_append]
  refine ⟨hnd, by simp, ?_⟩
  intro a ha hb
  simp at hb
  subst hb
  exact hi ha

theorem endpoints_isSome {i : Nat} (h1 : 1 ≤ i) (h2 : i ≤ edges.length) :
    ∃ e, endpoints edges i = some e := by
  unfold endpoints
  rw [if_neg (by omega)]
  exact ⟨edges[i - 1], List.getElem?_eq_getElem (by omega)⟩

theorem IsBridge.range {i : Nat} (h : IsBridge edges i) : 1 ≤ i ∧ i ≤ edges.length := by
  obtain ⟨e, he, _⟩ := h
  exact (endpoints_mem he).2

/-- Two strictly ascending lists with the same members are equal. -/
theorem eq_of_sorted_of_mem_iff {l1 l2 : List Nat} (h1 : List.Sorted (fun a b => a < b) l1)
    (h2 : List.Sorted (fun a b => a < b) l2) (h : ∀ i, i ∈ l1 ↔ i ∈ l2) : l1 = l2 := by
  have n1 : l1.Nodup := h1.imp (fun hab => Nat.ne_of_lt hab)
  have n2 : l2.Nodup := h2.imp (fun hab => Nat.ne_of_lt hab)
  exact List.eq_of_perm_of_sorted ((List.perm_ext_iff_of_nodup n1 n2).2 h) h1 h2

theorem sorted_range' (s n : Nat) : List.Sorted (fun a b => a < b) (List.range' s n) := by
  induction n generalizing s with
  | zero => simp [List.range']
  | succ n ih =>
    rw [List.range']
    refine List.sorted_cons.2 ⟨?_, ih (s + 1)⟩
    intro b hb
    rw [List.mem_range'_1] at hb
    omega

/-- The output of the program, characterised: strictly ascending, with the
bridges as members. -/
theorem bridges_spec (hE : ValidInput N edges) :
    ∃ out, bridges N edges = .ok out ∧ List.Sorted (fun a b => a < b) out ∧
      ∀ i, i ∈ out ↔ IsBridge edges i := by
  obtain ⟨g, _, h2, _, h4, h5, h6⟩ := main_spec hE
  exact ⟨sort g.res, h2, sort_sorted_lt h4.nodup,
    fun i => mem_sort.trans (res_iff_bridge hE h4 h5 h6 i)⟩

/-- The output of the program is the strictly ascending list with the given
members, when these are the bridges. -/
theorem bridges_eq_of_mem_iff (hE : ValidInput N edges) {l : List Nat}
    (hl : List.Sorted (fun a b => a < b) l) (h : ∀ i, i ∈ l ↔ IsBridge edges i) :
    bridges N edges = .ok l := by
  obtain ⟨out, h1, h2, h3⟩ := bridges_spec hE
  rw [h1, eq_of_sorted_of_mem_iff h2 hl (fun i => (h3 i).trans (h i).symm)]

end

/-! ## An input that is one cycle -/

section

variable {N : Nat} {edges : List DefaultEdge}

theorem perm_range_length {l : List Nat} (h : l.Perm (List.range' 1 N)) : l.length = N := by
  rw [h.length_eq, List.length_range']

theorem perm_range_mem {l : List Nat} (h : l.Perm (List.range' 1 N)) (i : Nat) :
    i ∈ l ↔ 1 ≤ i ∧ i ≤ N := by
  rw [h.mem_iff, List.mem_range'_1]
  omega

theorem perm_range_nodup {l : List Nat} (h : l.Perm (List.range' 1 N)) : l.Nodup :=
  h.nodup_iff.mpr (List.nodup_range' 1 N)

theorem getD_mem {l : List Nat} {k : Nat} (h : k < l.length) : l.getD k 0 ∈ l := by
  rw [List.getD_eq_getElem?_getD, List.getElem?_eq_getElem h]
  exact List.getElem_mem _

theorem exists_getD_of_mem {l : List Nat} {i : Nat} (h : i ∈ l) :
    ∃ k, k < l.length ∧ l.getD k 0 = i := by
  obtain ⟨k, hk, h2⟩ := List.getElem_of_mem h
  refine ⟨k, hk, ?_⟩
  rw [List.getD_eq_getElem?_getD, List.getElem?_eq_getElem hk]
  exact h2

theorem getD_inj {l : List Nat} (hn : l.Nodup) {k1 k2 : Nat} (h1 : k1 < l.length)
    (h2 : k2 < l.length) (h : l.getD k1 0 = l.getD k2 0) : k1 = k2 := by
  rw [List.getD_eq_getElem?_getD, List.getD_eq_getElem?_getD, List.getElem?_eq_getElem h1,
    List.getElem?_eq_getElem h2] at h
  exact (List.Nodup.getElem_inj_iff hn).mp h

theorem CycleThrough.validInput {vs ids : List Nat} (h : CycleThrough N edges vs ids) :
    ValidInput N edges := by
  obtain ⟨hlen, hvs, hids, hJ⟩ := h
  intro e he
  obtain ⟨m, hm, rfl⟩ := List.getElem_of_mem he
  have h1 : m + 1 ∈ ids := (perm_range_mem hids _).2 (by omega)
  obtain ⟨k, hk, hk2⟩ := exists_getD_of_mem h1
  rw [perm_range_length hids] at hk
  have h2 := hJ k hk
  rw [hk2, Joins_iff] at h2
  obtain ⟨e2, he2, h3⟩ := h2
  have h4 : endpoints edges (m + 1) = some edges[m] := by
    unfold endpoints
    rw [if_neg (by omega)]
    exact List.getElem?_eq_getElem hm
  rw [h4] at he2
  cases he2
  have hN : 0 < N := by omega
  have m1 := (perm_range_mem hvs _).1 (getD_mem (l := vs) (k := k)
    (by rw [perm_range_length hvs]; exact hk))
  have m2 := (perm_range_mem hvs _).1 (getD_mem (l := vs) (k := (k + 1) % N)
    (by rw [perm_range_length hvs]; exact Nat.mod_lt _ hN))
  rcases h3 with ⟨h5, h6⟩ | ⟨h5, h6⟩
  · rw [h5, h6]; omega
  · rw [h5, h6]; omega

/-- Going round the cycle the other way avoids the edge at position `k`. -/
theorem CycleThrough.around {vs ids : List Nat} (h : CycleThrough N edges vs ids)
    {k : Nat} (hk : k < N) (m : Nat) (hm : m + 1 ≤ N) :
    ReachAvoid edges (ids.getD k 0) (vs.getD ((k + 1) % N) 0)
      (vs.getD ((k + 1 + m) % N) 0) := by
  obtain ⟨_, _, hids, hJ⟩ := h
  induction m with
  | zero => exact ReachAvoid.refl
  | succ m ih =>
    have h1 := ih (by omega)
    have hN : 0 < N := by omega
    have hk2 : (k + 1 + m) % N < N := Nat.mod_lt _ hN
    have h2 := hJ ((k + 1 + m) % N) hk2
    rw [Nat.mod_add_mod] at h2
    refine h1.trans (ReachAvoid.step ?_ h2)
    intro heq
    have h3 := getD_inj (perm_range_nodup hids) (by rw [perm_range_length hids]; exact hk2)
      (by rw [perm_range_length hids]; exact hk) heq
    by_cases hlt : k + 1 + m < N
    · rw [Nat.mod_eq_of_lt hlt] at h3
      omega
    · rw [Nat.mod_eq_sub_mod (by omega), Nat.mod_eq_of_lt (by omega)] at h3
      omega

/-- No edge of a cycle through all the vertices is a bridge. -/
theorem CycleThrough.not_bridge {vs ids : List Nat} (h : CycleThrough N edges vs ids)
    (i : Nat) : ¬ IsBridge edges i := by
  intro hb
  have hr := hb.range
  rw [h.1] at hr
  obtain ⟨k, hk, hk2⟩ := exists_getD_of_mem ((perm_range_mem h.2.2.1 i).2 hr)
  rw [perm_range_length h.2.2.1] at hk
  have h1 := h.around hk (N - 1) (by omega)
  have h2 : (k + 1 + (N - 1)) % N = k := by
    rw [show k + 1 + (N - 1) = k + N by omega, Nat.add_mod_right, Nat.mod_eq_of_lt hk]
  rw [h2, hk2] at h1
  have h3 := h.2.2.2 k hk
  rw [hk2] at h3
  exact not_bridge_of_reach (Joins_symm h3) h1 hb

end

/-! ## An input of two joined triangles -/

section

variable {edges : List DefaultEdge} {a b c d e f i1 i2 i3 i4 i5 i6 i7 : Nat}

theorem TwoTriangles.vertex_range (h : TwoTriangles edges a b c d e f i1 i2 i3 i4 i5 i6 i7) :
    (1 ≤ a ∧ a ≤ 6) ∧ (1 ≤ b ∧ b ≤ 6) ∧ (1 ≤ c ∧ c ≤ 6) ∧ (1 ≤ d ∧ d ≤ 6) ∧
      (1 ≤ e ∧ e ≤ 6) ∧ (1 ≤ f ∧ f ≤ 6) := by
  have hp := h.2.1
  have hm : ∀ x, x ∈ [a, b, c, d, e, f] → 1 ≤ x ∧ x ≤ 6 := by
    intro x hx
    have := hp.mem_iff.1 hx
    simp at this
    omega
  exact ⟨hm a (by simp), hm b (by simp), hm c (by simp), hm d (by simp), hm e (by simp),
    hm f (by simp)⟩

theorem TwoTriangles.vertex_ne (h : TwoTriangles edges a b c d e f i1 i2 i3 i4 i5 i6 i7) :
    (¬a = b ∧ ¬a = c ∧ ¬a = d ∧ ¬a = e ∧ ¬a = f) ∧
      (¬b = c ∧ ¬b = d ∧ ¬b = e ∧ ¬b = f) ∧ (¬c = d ∧ ¬c = e ∧ ¬c = f) ∧
      (¬d = e ∧ ¬d = f) ∧ ¬e = f := by
  have hn : [a, b, c, d, e, f].Nodup := h.2.1.nodup_iff.mpr (by decide)
  simpa only [List.nodup_cons, List.mem_cons, List.mem_singleton, not_or, List.not_mem_nil,
    List.nodup_nil, not_false_eq_true, and_true] using hn

theorem TwoTriangles.id_cases (h : TwoTriangles edges a b c d e f i1 i2 i3 i4 i5 i6 i7)
    (k : Nat) (hk1 : 1 ≤ k) (hk7 : k ≤ 7) :
    k = i1 ∨ k = i2 ∨ k = i3 ∨ k = i4 ∨ k = i5 ∨ k = i6 ∨ k = i7 := by
  have : k ∈ [i1, i2, i3, i4, i5, i6, i7] := by
    rw [h.2.2.1.mem_iff]
    simp
    omega
  simpa using this

theorem TwoTriangles.id_ne (h : TwoTriangles edges a b c d e f i1 i2 i3 i4 i5 i6 i7) :
    (¬i1 = i2 ∧ ¬i1 = i3 ∧ ¬i1 = i4 ∧ ¬i1 = i5 ∧ ¬i1 = i6 ∧ ¬i1 = i7) ∧
      (¬i2 = i3 ∧ ¬i2 = i4 ∧ ¬i2 = i5 ∧ ¬i2 = i6 ∧ ¬i2 = i7) ∧
      (¬i3 = i4 ∧ ¬i3 = i5 ∧ ¬i3 = i6 ∧ ¬i3 = i7) ∧ (¬i4 = i5 ∧ ¬i4 = i6 ∧ ¬i4 = i7) ∧
      (¬i5 = i6 ∧ ¬i5 = i7) ∧ ¬i6 = i7 := by
  have hn : [i1, i2, i3, i4, i5, i6, i7].Nodup := h.2.2.1.nodup_iff.mpr (by decide)
  simpa only [List.nodup_cons, List.mem_cons, List.mem_singleton, not_or, List.not_mem_nil,
    List.nodup_nil, not_false_eq_true, and_true] using hn

/-- An edge of the two-triangle input is one of the seven listed ones. -/
theorem TwoTriangles.joins (h : TwoTriangles edges a b c d e f i1 i2 i3 i4 i5 i6 i7)
    {k x y : Nat} (hk : Joins edges k x y) :
    (k = i1 ∧ ((x = a ∧ y = b) ∨ (x = b ∧ y = a))) ∨
    (k = i2 ∧ ((x = b ∧ y = c) ∨ (x = c ∧ y = b))) ∨
    (k = i3 ∧ ((x = c ∧ y = a) ∨ (x = a ∧ y = c))) ∨
    (k = i4 ∧ ((x = d ∧ y = e) ∨ (x = e ∧ y = d))) ∨
    (k = i5 ∧ ((x = e ∧ y = f) ∨ (x = f ∧ y = e))) ∨
    (k = i6 ∧ ((x = f ∧ y = d) ∨ (x = d ∧ y = f))) ∨
    (k = i7 ∧ ((x = a ∧ y = d) ∨ (x = d ∧ y = a))) := by
  obtain ⟨e0, he0, _⟩ := Joins_iff.1 hk
  have hr := (endpoints_mem he0).2
  rw [h.1] at hr
  obtain ⟨_, _, _, j1, j2, j3, j4, j5, j6, j7⟩ := id h
  rcases h.id_cases k hr.1 hr.2 with rfl | rfl | rfl | rfl | rfl | rfl | rfl
  · exact Or.inl ⟨rfl, Joins_fun j1 hk⟩
  · exact Or.inr (Or.inl ⟨rfl, Joins_fun j2 hk⟩)
  · exact Or.inr (Or.inr (Or.inl ⟨rfl, Joins_fun j3 hk⟩))
  · exact Or.inr (Or.inr (Or.inr (Or.inl ⟨rfl, Joins_fun j4 hk⟩)))
  · exact Or.inr (Or.inr (Or.inr (Or.inr (Or.inl ⟨rfl, Joins_fun j5 hk⟩))))
  · exact Or.inr (Or.inr (Or.inr (Or.inr (Or.inr (Or.inl ⟨rfl, Joins_fun j6 hk⟩)))))
  · exact Or.inr (Or.inr (Or.inr (Or.inr (Or.inr (Or.inr ⟨rfl, Joins_fun j7 hk⟩)))))

theorem TwoTriangles.inRange (h : TwoTriangles edges a b c d e f i1 i2 i3 i4 i5 i6 i7) :
    ValidInput 6 edges := by
  intro e0 he0
  obtain ⟨m, hm, rfl⟩ := List.getElem_of_mem he0
  have h4 : endpoints edges (m + 1) = some edges[m] := by
    unfold endpoints
    rw [if_neg (by omega)]
    exact List.getElem?_eq_getElem hm
  have hJ : Joins edges (m + 1) edges[m].1 edges[m].2 :=
    Joins_iff.2 ⟨_, h4, Or.inl ⟨rfl, rfl⟩⟩
  have hv := h.vertex_range
  rcases h.joins hJ with ⟨_, h1 | h1⟩ | ⟨_, h1 | h1⟩ | ⟨_, h1 | h1⟩ | ⟨_, h1 | h1⟩ |
    ⟨_, h1 | h1⟩ | ⟨_, h1 | h1⟩ | ⟨_, h1 | h1⟩ <;> omega

/-- Two sides of a triangle connect the ends of the third side. -/
theorem triangle_not_bridge {j k l x y z : Nat} (hj : Joins edges j x y)
    (hk : Joins edges k y z) (hl : Joins edges l z x) (hkj : k ≠ j) (hlj : l ≠ j) :
    ¬ IsBridge edges j :=
  not_bridge_of_reach hj
    ((ReachAvoid.step hlj (Joins_symm hl)).trans (ReachAvoid.step hkj (Joins_symm hk)))

/-- No vertex lies on both triangles. -/
theorem TwoTriangles.apart (h : TwoTriangles edges a b c d e f i1 i2 i3 i4 i5 i6 i7)
    {x : Nat} (h1 : x = a ∨ x = b ∨ x = c) (h2 : x = d ∨ x = e ∨ x = f) : False := by
  obtain ⟨⟨_, _, had, hae, haf⟩, ⟨_, hbd, hbe, hbf⟩, ⟨hcd, hce, hcf⟩, _, _⟩ := h.vertex_ne
  rcases h1 with h1 | h1 | h1 <;> rcases h2 with h2 | h2 | h2
  · exact had (h1.symm.trans h2)
  · exact hae (h1.symm.trans h2)
  · exact haf (h1.symm.trans h2)
  · exact hbd (h1.symm.trans h2)
  · exact hbe (h1.symm.trans h2)
  · exact hbf (h1.symm.trans h2)
  · exact hcd (h1.symm.trans h2)
  · exact hce (h1.symm.trans h2)
  · exact hcf (h1.symm.trans h2)

/-- Without the joining edge nothing leaves the first triangle. -/
theorem TwoTriangles.stay (h : TwoTriangles edges a b c d e f i1 i2 i3 i4 i5 i6 i7)
    {y : Nat} (hr : ReachAvoid edges i7 a y) : y = a ∨ y = b ∨ y = c := by
  unfold ReachAvoid at hr
  induction hr with
  | refl => exact Or.inl rfl
  | @tail u w _ huw ih =>
    obtain ⟨k, hk7, hk⟩ := huw
    rcases h.joins hk with ⟨_, h1⟩ | ⟨_, h1⟩ | ⟨_, h1⟩ | ⟨_, h1⟩ | ⟨_, h1⟩ | ⟨_, h1⟩ | ⟨h2, _⟩
    · omega
    · omega
    · omega
    · exact (h.apart ih (by omega)).elim
    · exact (h.apart ih (by omega)).elim
    · exact (h.apart ih (by omega)).elim
    · exact absurd h2 hk7

/-- The bridges of the two-triangle input: the joining edge alone. -/
theorem TwoTriangles.bridge_iff (h : TwoTriangles edges a b c d e f i1 i2 i3 i4 i5 i6 i7)
    (i : Nat) : i ∈ [i7] ↔ IsBridge edges i := by
  obtain ⟨_, _, _, j1, j2, j3, j4, j5, j6, j7⟩ := id h
  constructor
  · intro hm
    rw [List.mem_singleton] at hm
    subst hm
    apply bridge_of_not_reach j7
    intro hr
    exact h.apart (h.stay hr) (Or.inl rfl)
  · intro hb
    have hr := hb.range
    rw [h.1] at hr
    rw [List.mem_singleton]
    obtain ⟨⟨h12, h13, _, _, _, _⟩, ⟨h23, _, _, _, _⟩, _, ⟨h45, h46, _⟩, ⟨h56, _⟩, _⟩ := h.id_ne
    rcases h.id_cases i hr.1 hr.2 with h0 | h0 | h0 | h0 | h0 | h0 | h0
    · rw [h0] at hb
      exact absurd hb (triangle_not_bridge j1 j2 j3 (Ne.symm h12) (Ne.symm h13))
    · rw [h0] at hb
      exact absurd hb (triangle_not_bridge j2 j3 j1 (Ne.symm h23) h12)
    · rw [h0] at hb
      exact absurd hb (triangle_not_bridge j3 j1 j2 h13 h23)
    · rw [h0] at hb
      exact absurd hb (triangle_not_bridge j4 j5 j6 (Ne.symm h45) (Ne.symm h46))
    · rw [h0] at hb
      exact absurd hb (triangle_not_bridge j5 j6 j4 (Ne.symm h56) h45)
    · rw [h0] at hb
      exact absurd hb (triangle_not_bridge j6 j4 j5 h46 h56)
    · exact h0

end

/-! ## Disjoint unions of inputs -/

section

variable {n1 n2 : Nat} {E1 E2 : List DefaultEdge}

theorem endpoints_append_left {X : List DefaultEdge} {i : Nat} (h : i ≤ E1.length) :
    endpoints (E1 ++ X) i = endpoints E1 i := by
  unfold endpoints
  split
  · rfl
  · exact List.getElem?_append_left (by omega)

theorem endpoints_append_right {X : List DefaultEdge} {i : Nat} (h : 1 ≤ i) :
    endpoints (E1 ++ X) (i + E1.length) = endpoints X i := by
  unfold endpoints
  rw [if_neg (by omega), if_neg (by omega),
    List.getElem?_append_right (by omega)]
  congr 1
  omega

theorem endpoints_shift {i : Nat} :
    endpoints (shift n1 E2) i = (endpoints E2 i).map (fun e => (e.1 + n1, e.2 + n1)) := by
  unfold endpoints shift
  split
  · rfl
  · exact List.getElem?_map _ _ _

/-- An edge of the disjoint union is an edge of the first part, or an edge of
the second part with its identifier and endpoints moved up. -/
theorem Joins_union {j x y : Nat} :
    Joins (E1 ++ shift n1 E2) j x y ↔
      Joins E1 j x y ∨ ∃ j2 x2 y2, j = j2 + E1.length ∧ x = x2 + n1 ∧ y = y2 + n1 ∧
        Joins E2 j2 x2 y2 := by
  constructor
  · intro h
    obtain ⟨e, he, h3⟩ := Joins_iff.1 h
    have hj := (endpoints_mem he).2.1
    by_cases hle : j ≤ E1.length
    · rw [endpoints_append_left hle] at he
      exact Or.inl (Joins_iff.2 ⟨e, he, h3⟩)
    · right
      obtain ⟨j2, rfl⟩ : ∃ j2, j = j2 + E1.length := ⟨j - E1.length, by omega⟩
      rw [endpoints_append_right (by omega), endpoints_shift] at he
      cases h2 : endpoints E2 j2 with
      | none => rw [h2] at he; cases he
      | some e2 =>
        rw [h2] at he
        simp only [Option.map_some', Option.some.injEq] at he
        subst he
        simp only at h3
        rcases h3 with ⟨h4, h5⟩ | ⟨h4, h5⟩
        · exact ⟨j2, e2.1, e2.2, rfl, h4.symm, h5.symm,
            Joins_iff.2 ⟨e2, h2, Or.inl ⟨rfl, rfl⟩⟩⟩
        · exact ⟨j2, e2.2, e2.1, rfl, h5.symm, h4.symm,
            Joins_iff.2 ⟨e2, h2, Or.inr ⟨rfl, rfl⟩⟩⟩
  · rintro (h | ⟨j2, x2, y2, rfl, rfl, rfl, h⟩)
    · obtain ⟨e, he, h3⟩ := Joins_iff.1 h
      have hj := (endpoints_mem he).2.2
      exact Joins_iff.2 ⟨e, by rw [endpoints_append_left hj]; exact he, h3⟩
    · obtain ⟨e, he, h3⟩ := Joins_iff.1 h
      have hj := (endpoints_mem he).2.1
      refine Joins_iff.2 ⟨(e.1 + n1, e.2 + n1), ?_, ?_⟩
      · rw [endpoints_append_right hj, endpoints_shift, he]
        rfl
      · simp only
        omega

theorem ValidInput.union (h1 : ValidInput n1 E1) (h2 : ValidInput n2 E2) :
    ValidInput (n1 + n2) (E1 ++ shift n1 E2) := by
  intro e he
  rcases List.mem_append.mp he with h | h
  · have := h1 e h
    omega
  · unfold shift at h
    obtain ⟨e2, he2, rfl⟩ := List.mem_map.mp h
    have := h2 e2 he2
    simp only
    omega

/-- A walk of the disjoint union that starts in the first part stays there. -/
theorem reachAvoid_left (h1 : ValidInput n1 E1) (h2 : ValidInput n2 E2) {i x y : Nat}
    (hx : x ≤ n1) (h : ReachAvoid (E1 ++ shift n1 E2) i x y) :
    ReachAvoid E1 i x y ∧ y ≤ n1 := by
  unfold ReachAvoid at h
  induction h with
  | refl => exact ⟨ReachAvoid.refl, hx⟩
  | @tail u w _ huw ih =>
    obtain ⟨k, hki, hk⟩ := huw
    rcases Joins_union.1 hk with hk1 | ⟨k2, x2, y2, _, hu, _, hk2⟩
    · exact ⟨ih.1.trans (ReachAvoid.step hki hk1), (Joins_range h1 hk1).2.2.2⟩
    · have := (Joins_range h2 hk2).1
      have := ih.2
      omega

theorem reachAvoid_of_left {i x y : Nat} (h : ReachAvoid E1 i x y) :
    ReachAvoid (E1 ++ shift n1 E2) i x y := by
  unfold ReachAvoid at h ⊢
  exact Relation.ReflTransGen.mono
    (fun a b ⟨k, hk, hJ⟩ => ⟨k, hk, Joins_union.2 (Or.inl hJ)⟩) h

/-- A walk of the disjoint union that starts in the second part is a walk of
the second part, moved up. -/
theorem reachAvoid_right (h1 : ValidInput n1 E1) (h2 : ValidInput n2 E2) {i2 x2 y : Nat}
    (hx : 1 ≤ x2) (h : ReachAvoid (E1 ++ shift n1 E2) (i2 + E1.length) (x2 + n1) y) :
    ∃ y2, y = y2 + n1 ∧ 1 ≤ y2 ∧ ReachAvoid E2 i2 x2 y2 := by
  unfold ReachAvoid at h
  induction h with
  | refl => exact ⟨x2, rfl, hx, ReachAvoid.refl⟩
  | @tail u w _ huw ih =>
    obtain ⟨k, hki, hk⟩ := huw
    obtain ⟨u2, rfl, hu2, hr⟩ := ih
    rcases Joins_union.1 hk with hk1 | ⟨k2, a2, w2, rfl, hu, rfl, hk2⟩
    · have := (Joins_range h1 hk1).2.1
      omega
    · have ha : a2 = u2 := by omega
      subst ha
      refine ⟨w2, rfl, (Joins_range h2 hk2).2.2.1, hr.trans (ReachAvoid.step ?_ hk2)⟩
      exact fun h => hki (by rw [h])

theorem reachAvoid_of_right {i2 x2 y2 : Nat} (h : ReachAvoid E2 i2 x2 y2) :
    ReachAvoid (E1 ++ shift n1 E2) (i2 + E1.length) (x2 + n1) (y2 + n1) := by
  unfold ReachAvoid at h ⊢
  induction h with
  | refl => exact Relation.ReflTransGen.refl
  | @tail u w _ huw ih =>
    obtain ⟨k, hki, hk⟩ := huw
    refine Relation.ReflTransGen.tail ih ⟨k + E1.length, by omega, ?_⟩
    exact Joins_union.2 (Or.inr ⟨k, u, w, rfl, rfl, rfl, hk⟩)

theorem isBridge_iff_joins {edges : List DefaultEdge} {i : Nat} :
    IsBridge edges i ↔ ∃ x y, Joins edges i x y ∧ ¬ ReachAvoid edges i x y := by
  constructor
  · rintro ⟨e, he, hn⟩
    exact ⟨e.1, e.2, Joins_iff.2 ⟨e, he, Or.inl ⟨rfl, rfl⟩⟩, hn⟩
  · rintro ⟨x, y, hJ, hn⟩
    exact bridge_of_not_reach hJ hn

/-- The bridges of a disjoint union are the bridges of its two parts. -/
theorem isBridge_union (h1 : ValidInput n1 E1) (h2 : ValidInput n2 E2) (i : Nat) :
    IsBridge (E1 ++ shift n1 E2) i ↔
      IsBridge E1 i ∨ ∃ i2, i = i2 + E1.length ∧ IsBridge E2 i2 := by
  simp only [isBridge_iff_joins]
  constructor
  · rintro ⟨x, y, hJ, hn⟩
    rcases Joins_union.1 hJ with hJ1 | ⟨i2, x2, y2, rfl, rfl, rfl, hJ2⟩
    · exact Or.inl ⟨x, y, hJ1, fun h => hn (reachAvoid_of_left h)⟩
    · exact Or.inr ⟨i2, rfl, x2, y2, hJ2, fun h => hn (reachAvoid_of_right h)⟩
  · rintro (⟨x, y, hJ1, hn⟩ | ⟨i2, rfl, x2, y2, hJ2, hn⟩)
    · refine ⟨x, y, Joins_union.2 (Or.inl hJ1), fun h => hn ?_⟩
      exact (reachAvoid_left h1 h2 (Joins_range h1 hJ1).2.1 h).1
    · refine ⟨x2 + n1, y2 + n1, Joins_union.2 (Or.inr ⟨i2, x2, y2, rfl, rfl, rfl, hJ2⟩),
        fun h => hn ?_⟩
      obtain ⟨y3, hy, _, hr⟩ := reachAvoid_right h1 h2 (Joins_range h2 hJ2).1 h
      have : y3 = y2 := by omega
      subst this
      exact hr

theorem reach_avoid_zero {edges : List DefaultEdge} {x y : Nat} (h : Reach edges x y) :
    ReachAvoid edges 0 x y := by
  unfold Reach at h
  unfold ReachAvoid
  refine Relation.ReflTransGen.mono ?_ h
  rintro a b ⟨j, hj⟩
  refine ⟨j, ?_, hj⟩
  rintro rfl
  exact Joins_zero hj

theorem roots_append (fuel : Nat) (L1 L2 : List Nat) :
    ∀ g g1, roots fuel L1 g = .ok g1 → roots fuel (L1 ++ L2) g = roots fuel L2 g1 := by
  induction L1 with
  | nil =>
    intro g g1 h
    cases h
    rfl
  | cons i rest ih =>
    intro g g1 h
    simp only [List.cons_append, roots] at h ⊢
    cases hr : rd g.used i with
    | error e => rw [hr] at h; cases h
    | ok b =>
      rw [hr] at h
      cases b with
      | true => exact ih g g1 h
      | false =>
        simp only at h ⊢
        cases hd : DFS fuel g i 0 with
        | error e => rw [hd] at h; cases h
        | ok g2 =>
          rw [hd] at h
          exact ih g2 g1 h

end

/-! ## The run on a disjoint union -/

section

variable {n1 n2 : Nat} {E1 E2 : List DefaultEdge}

/-- On a disjoint union the driver finishes the first part before it enters
the second: every discovery time of the first part is below every one of the
second. -/
theorem traverse_union_times (h1 : ValidInput n1 E1) (h2 : ValidInput n2 E2) :
    ∃ g, traverse (n1 + n2 + 1) (n1 + n2) (E1 ++ shift n1 E2) = .ok g ∧
      ∀ v w, 1 ≤ v → v ≤ n1 → n1 < w → w ≤ n1 + n2 → T g v < T g w := by
  have hE := ValidInput.union h1 h2
  obtain ⟨g0, hnew, hS, hres, _, hU0, hcnt⟩ := new_ok hE
  have I0 : Inv (n1 + n2) (E1 ++ shift n1 E2) (neighboursSpec (E1 ++ shift n1 E2)) g0 :=
    ⟨hS, fun u hu => absurd hu (hU0 u), by simp [hres], by simp [hres], by simp [hres]⟩
  have hC0 : Closed (E1 ++ shift n1 E2) g0 := fun x _ _ hx _ => absurd hx (hU0 x)
  have hD0 : AllDone (E1 ++ shift n1 E2) g0 := fun w hw _ _ _ => absurd hw (hU0 w)
  obtain ⟨gm, m1, m2, m3, m4, m5, m6⟩ := roots_spec hE (hadj_spec _) (n1 + n2 + 1)
    (List.range' 1 n1) g0 I0 hC0 hD0
    (fun i hi => by rw [List.mem_range'_1] at hi; omega) (by omega)
  obtain ⟨g, k1, k2, _, _, k5, k6⟩ := roots_spec hE (hadj_spec _) (n1 + n2 + 1)
    (List.range' (1 + n1) n2) gm m2 m3 m4
    (fun i hi => by rw [List.mem_range'_1] at hi; omega)
    (by have := m6.count; omega)
  refine ⟨g, ?_, ?_⟩
  · unfold traverse
    rw [hnew]
    simp only
    have hr : List.range' 1 (n1 + n2) = List.range' 1 n1 ++ List.range' (1 + n1) n2 := by
      rw [List.range'_append_1, Nat.add_comm]
    rw [hr, roots_append _ _ _ _ _ m1]
    exact k1
  · intro v w hv1 hv2 hw1 hw2
    have hvm : U gm v := m5 v (by rw [List.mem_range'_1]; omega)
    have hwg : U g w := k5 w (by rw [List.mem_range'_1]; omega)
    have hwm : ¬ U gm w := by
      intro hc
      obtain ⟨_, r, hr, hrw⟩ := m6.fresh w hc (hU0 w)
      rw [List.mem_range'_1] at hr
      have := (reachAvoid_left h1 h2 (by omega : r ≤ n1) (reach_avoid_zero hrw)).2
      omega
    have t1 := k6.tin v hvm
    have t2 := m2.tin_lt v hvm
    have t3 := (k6.fresh w hwg hwm).1
    omega

/-- The list the program returns on a disjoint union: the list of the first
part followed by the list of the second with every identifier moved up by the
number of edges of the first. -/
theorem bridges_union (h1 : ValidInput n1 E1) (h2 : ValidInput n2 E2) :
    ∃ o1 o2, bridges n1 E1 = .ok o1 ∧ bridges n2 E2 = .ok o2 ∧
      bridges (n1 + n2) (E1 ++ shift n1 E2) =
        .ok (o1 ++ o2.map (fun i => i + E1.length)) := by
  obtain ⟨o1, a1, a2, a3⟩ := bridges_spec h1
  obtain ⟨o2, b1, b2, b3⟩ := bridges_spec h2
  refine ⟨o1, o2, a1, b1, ?_⟩
  apply bridges_eq_of_mem_iff (ValidInput.union h1 h2)
  · unfold List.Sorted
    rw [List.pairwise_append, List.pairwise_map]
    refine ⟨a2, ?_, ?_⟩
    · exact List.Pairwise.imp (fun hab => by omega) b2
    · intro a ha b hb
      obtain ⟨b0, hb0, rfl⟩ := List.mem_map.mp hb
      have := ((a3 a).1 ha).range
      have := ((b3 b0).1 hb0).range
      omega
  · intro i
    rw [isBridge_union h1 h2, List.mem_append, List.mem_map, a3]
    constructor
    · rintro (h | ⟨i2, hi2, rfl⟩)
      · exact Or.inl h
      · exact Or.inr ⟨i2, rfl, (b3 i2).1 hi2⟩
    · rintro (h | ⟨i2, rfl, hi2⟩)
      · exact Or.inl h
      · exact Or.inr ⟨i2, (b3 i2).2 hi2, rfl⟩

end

/-! ## The output from any order of neighbours and roots -/

section

variable {N : Nat} {edges : List DefaultEdge} {adj : Nat → List (Nat × Nat)}

/-- In a final state of a traversal with any neighbour order the reported
identifiers are exactly the bridges. -/
theorem res_iff_bridge_of (hE : ValidInput N edges) {g : AdjacencyListGraph}
    (I : Inv N edges adj g) (hD : AllDone edges g)
    (hall : ∀ i, 1 ≤ i → i ≤ N → U g i) (i : Nat) : i ∈ g.res ↔ IsBridge edges i := by
  constructor
  · exact I.sound i
  · intro hb
    obtain ⟨e, he, _⟩ := id hb
    have hJ : Joins edges i e.1 e.2 := Joins_iff.2 ⟨e, he, Or.inl ⟨rfl, rfl⟩⟩
    have hr := Joins_range hE hJ
    rcases hD e.1 (hall e.1 hr.1 hr.2.1) e.2 i hJ with h | h
    · exact h
    · exact absurd hb h

/-- A driver loop that tries every vertex `1..N` as a root, in any order, with
any neighbour order and enough fuel, from a state in which nothing is marked
or reported: it returns a state, and the sorted list of that state is the
output of the program. -/
theorem roots_output (hE : ValidInput N edges)
    (hadj : ∀ v u j, (u, j) ∈ adj v ↔ Joins edges j v u)
    {g0 : AdjacencyListGraph} (hS : Shape N adj g0) (hU : ∀ v, ¬ U g0 v) (hres : g0.res = [])
    {order : List Nat} (ho : ∀ i, i ∈ order ↔ 1 ≤ i ∧ i ≤ N) {fuel : Nat}
    (hf : cnt g0 ≤ fuel) :
    ∃ g1, roots fuel order g0 = .ok g1 ∧ bridges N edges = .ok (sort g1.res) ∧
      Inv N edges adj g1 ∧ (∀ i, 1 ≤ i → i ≤ N → U g1 i) := by
  have I0 : Inv N edges adj g0 :=
    ⟨hS, fun u hu => absurd hu (hU u), by simp [hres], by simp [hres], by simp [hres]⟩
  have hC0 : Closed edges g0 := fun x _ _ hx _ => absurd hx (hU x)
  have hD0 : AllDone edges g0 := fun w hw _ _ _ => absurd hw (hU w)
  obtain ⟨g1, k1, k2, _, k4, k5, _⟩ := roots_spec hE hadj fuel order g0 I0 hC0 hD0
    (fun i hi => ((ho i).1 hi).2) hf
  have hall : ∀ i, 1 ≤ i → i ≤ N → U g1 i := fun i h1 h2 => k5 i ((ho i).2 ⟨h1, h2⟩)
  refine ⟨g1, k1, ?_, k2, hall⟩
  exact bridges_eq_of_mem_iff hE (sort_sorted_lt k2.nodup)
    (fun i => mem_sort.trans (res_iff_bridge_of hE k2 k4 hall i))

theorem U_with_list (g : AdjacencyListGraph) (L : List (List (Nat × Nat))) (v : Nat) :
    U { g with list_ := L } v ↔ U g v := Iff.rfl

/-- The graph with reordered neighbour lists has the shape the traversal
needs, and its neighbour lists still list the edges at every vertex. -/
theorem Reordered.shape (hE : ValidInput N edges) {L : List (List (Nat × Nat))}
    (hL : Reordered N edges L) {g0 : AdjacencyListGraph}
    (hS : Shape N (neighboursSpec edges) g0) :
    Shape N (fun v => L.getD v []) { g0 with list_ := L } ∧
      ∀ v u j, (u, j) ∈ L.getD v [] ↔ Joins edges j v u := by
  refine ⟨⟨hS.t_in_len, hS.ret_len, hS.used_len, ?_⟩, ?_⟩
  · intro v hv
    simp only
    rw [List.getD_eq_getElem?_getD, List.getElem?_eq_getElem (by rw [hL.1]; omega)]
    rfl
  · intro v u j
    by_cases hv : v ≤ N
    · rw [(hL.2 v hv).mem_iff]
      exact mem_neighboursSpec
    · have h1 : L.getD v [] = [] := by
        rw [List.getD_eq_getElem?_getD, List.getElem?_eq_none (by rw [hL.1]; omega)]
        rfl
      rw [h1]
      constructor
      · intro h; cases h
      · intro h
        exact absurd (Joins_range hE h).2.1 hv

end

/-! ## Counting the stored entries -/

section

variable {N : Nat} {edges : List DefaultEdge}

/-- The entries of a neighbour list that carry the identifier `i`: they come
from the `i`-th edge alone. -/
theorem filter_scanFrom (v i : Nat) (es : List DefaultEdge) :
    ∀ k, (scanFrom v es k).filter (fun x => x.2 = i) =
      if k ≤ i then
        (es[i - k]?).elim []
          (fun e => (if e.1 = v then [(e.2, i)] else []) ++ (if e.2 = v then [(e.1, i)] else []))
      else [] := by
  induction es with
  | nil =>
    intro k
    simp [scanFrom]
  | cons e rest ih =>
    intro k
    simp only [scanFrom, List.filter_append, ih (k + 1)]
    by_cases hki : k = i
    · subst hki
      have h1 : ¬ (k + 1 ≤ k) := by omega
      simp only [h1, if_false, le_refl, if_true, Nat.sub_self, List.getElem?_cons_zero,
        Option.elim, List.append_nil]
      by_cases ha : e.1 = v <;> by_cases hb : e.2 = v <;> simp [ha, hb]
    · have h2 : ∀ u : Nat, List.filter (fun x => decide (x.2 = i)) [(u, k)] = [] := by
        intro u
        simp [hki]
      have h3 : List.filter (fun x => decide (x.2 = i))
          (if e.1 = v then [(e.2, k)] else []) = [] := by
        split
        · exact h2 _
        · rfl
      have h4 : List.filter (fun x => decide (x.2 = i))
          (if e.2 = v then [(e.1, k)] else []) = [] := by
        split
        · exact h2 _
        · rfl
      rw [h3, h4, List.nil_append, List.nil_append]
      by_cases hlt : k ≤ i
      · have h5 : k + 1 ≤ i := by omega
        have h6 : i - k = (i - (k + 1)) + 1 := by omega
        simp only [hlt, h5, if_true]
        rw [h6, List.getElem?_cons_succ]
      · have h5 : ¬ (k + 1 ≤ i) := by omega
        simp only [hlt, h5, if_false]

theorem filter_neighboursSpec (v i : Nat) {e : DefaultEdge} (he : endpoints edges i = some e) :
    (neighboursSpec edges v).filter (fun x => x.2 = i) =
      (if e.1 = v then [(e.2, i)] else []) ++ (if e.2 = v then [(e.1, i)] else []) := by
  have hr := (endpoints_mem he).2
  unfold endpoints at he
  rw [if_neg (by omega)] at he
  unfold neighboursSpec
  rw [filter_scanFrom, if_pos hr.1, he]
  rfl

theorem sum_indicator (a n : Nat) :
    ((List.range n).map (fun v => if a = v then 1 else 0)).sum = if a < n then 1 else 0 := by
  induction n with
  | zero => simp
  | succ n ih =>
    rw [List.range_succ, List.map_append, List.sum_append, ih]
    simp only [List.map_cons, List.map_nil, List.sum_cons, List.sum_nil]
    by_cases h1 : a < n
    · have h2 : a ≠ n := by omega
      have h3 : a < n + 1 := by omega
      simp [h1, h2, h3]
    · by_cases h2 : a = n
      · simp [h2]
      · have : ¬ a < n + 1 := by omega
        simp [h1, h2, this]

theorem sum_map_add (f g : Nat → Nat) (l : List Nat) :
    (l.map (fun v => f v + g v)).sum = (l.map f).sum + (l.map g).sum := by
  induction l with
  | nil => rfl
  | cons a rest ih =>
    simp only [List.map_cons, List.sum_cons, ih]
    omega

/-- Over all neighbour lists together the identifier of an edge occurs twice. -/
theorem count_id_all (hE : ValidInput N edges) {i : Nat} {e : DefaultEdge}
    (he : endpoints edges i = some e) :
    (((List.range (N + 1)).map (neighboursSpec edges)).flatten).countP (fun x => x.2 = i) = 2 := by
  have hv := hE e (endpoints_mem he).1
  rw [List.countP_flatten, List.map_map]
  have h1 : (List.countP (fun x : Nat × Nat => decide (x.2 = i)) ∘ neighboursSpec edges) =
      fun v => (if e.1 = v then 1 else 0) + (if e.2 = v then 1 else 0) := by
    funext v
    simp only [Function.comp, List.countP_eq_length_filter, filter_neighboursSpec v i he,
      List.length_append]
    by_cases ha : e.1 = v <;> by_cases hb : e.2 = v <;> simp [ha, hb]
  rw [h1, sum_map_add, sum_indicator, sum_indicator, if_pos (by omega), if_pos (by omega)]

/-- The neighbour lists stored by the constructor, as one list. -/
theorem new_list (hE : ValidInput N edges) :
    ∃ g, AdjacencyListGraph.new N edges = .ok g ∧
      g.list_ = (List.range (N + 1)).map (neighboursSpec edges) := by
  obtain ⟨l, h1, h2, h3⟩ := addEdges_spec (N := N) edges 1 (List.replicate (N + 1) [])
    (by simp) (fun e he => by have := hE e he; omega)
  unfold AdjacencyListGraph.new
  rw [h1]
  refine ⟨_, rfl, ?_⟩
  simp only
  apply List.ext_getElem
  · simp [h2]
  · intro v hv1 hv2
    have h4 := h3 v
    rw [getD_replicate, List.nil_append, List.getD_eq_getElem?_getD,
      List.getElem?_eq_getElem hv1] at h4
    simp only [Option.getD_some] at h4
    rw [h4]
    simp [neighboursSpec]

theorem getD_map_range (f : Nat → List (Nat × Nat)) {v : Nat} (hv : v ≤ N) :
    ((List.range (N + 1)).map f).getD v [] = f v := by
  rw [List.getD_eq_getElem?_getD, List.getElem?_map, List.getElem?_range (by omega)]
  rfl

/-- A self-loop is listed twice at its vertex. -/
theorem count_self_loop {i a : Nat} (he : endpoints edges i = some (a, a)) :
    (neighboursSpec edges a).count (a, i) = 2 := by
  have h1 := filter_neighboursSpec a i he
  simp only [if_true, List.singleton_append] at h1
  rw [← List.count_filter (p := fun x : Nat × Nat => decide (x.2 = i)) (by simp), h1]
  simp

end

/-! ## The logged program follows the logged relation -/

section

variable {N : Nat} {edges : List DefaultEdge} {adj : Nat → List (Nat × Nat)}

@[simp] theorem record_graph (s : Logged) (g : AdjacencyListGraph) : (s.record g).graph = g := rfl
@[simp] theorem record_calls (s : Logged) (g : AdjacencyListGraph) :
    (s.record g).calls = s.calls := rfl
@[simp] theorem record_states (s : Logged) (g : AdjacencyListGraph) :
    (s.record g).states = s.states ++ [g] := rfl
@[simp] theorem call_graph (s : Logged) (c : Call) : (s.call c).graph = s.graph := rfl
@[simp] theorem call_calls (s : Logged) (c : Call) : (s.call c).calls = s.calls ++ [c] := rfl
@[simp] theorem call_states (s : Logged) (c : Call) : (s.call c).states = s.states := rfl

theorem mark_eq {g : AdjacencyListGraph} {v : Nat} (hv : v < g.t_in.length) :
    flag (start (stamp g v) v) v = mark g v := by
  have h : T (stamp g v) v = g.timer := by
    unfold T stamp
    simp only [getD_set, hv, and_self, if_true]
  unfold flag start
  rw [h]
  rfl

theorem enter_graph {s : Logged} {v : Nat} (hv : v < s.graph.t_in.length) :
    (s.enter v).graph = mark s.graph v := by
  unfold Logged.enter
  rw [record_graph, mark_eq hv]

@[simp] theorem enter_calls (s : Logged) (v : Nat) : (s.enter v).calls = s.calls := rfl

theorem enter_states (s : Logged) (v : Nat) :
    (s.enter v).states = s.states ++ [stamp s.graph v, start (stamp s.graph v) v,
      flag (start (stamp s.graph v) v) v] := by
  unfold Logged.enter
  simp

theorem report_graph (s : Logged) (u j : Nat) : (s.report u j).graph = report s.graph u j := by
  unfold Logged.report report
  split <;> rfl

@[simp] theorem report_calls (s : Logged) (u j : Nat) : (s.report u j).calls = s.calls := by
  unfold Logged.report
  split <;> rfl

theorem enterLog_ok {s : Logged} {v : Nat} (hS : Shape N adj s.graph) (hv : v ≤ N) :
    enterLog s v = .ok (s.enter v) := by
  have h1 : v < s.graph.t_in.length := by rw [hS.t_in_len]; omega
  have h2 : v < s.graph.ret.length := by rw [hS.ret_len]; omega
  have h3 : v < s.graph.used.length := by rw [hS.used_len]; omega
  have h4 : v < (s.graph.t_in.set v s.graph.timer).length := by simpa using h1
  unfold enterLog
  rw [wr_ok h1]
  simp only [record_graph]
  rw [rd_ok h4 0]
  simp only
  rw [wr_ok h2]
  simp only
  rw [wr_ok h3]
  rfl

theorem relaxLog_ok {s : Logged} {v : Nat} (hS : Shape N adj s.graph) (hv : v ≤ N) (x : Nat) :
    relaxLog s v x = .ok (s.record (lower s.graph v x)) := by
  unfold relaxLog
  rw [relax_ok hS hv]

theorem visitLog_back {call : Logged → Nat → Nat → Except Fault Logged}
    {s : Logged} {v p u j : Nat} (hS : Shape N adj s.graph) (hv : v ≤ N) (hu : u ≤ N)
    (hjp : j ≠ p) (hU : U s.graph u) :
    visitLog call v p s (u, j) = .ok (s.record (lower s.graph v (T s.graph u))) := by
  have h1 : u < s.graph.used.length := by rw [hS.used_len]; omega
  have h2 : u < s.graph.t_in.length := by rw [hS.t_in_len]; omega
  unfold visitLog
  simp only [if_neg hjp]
  rw [rd_ok h1 false]
  unfold U at hU
  rw [hU]
  simp only
  rw [rd_ok h2 0]
  simp only
  exact relaxLog_ok hS hv _

theorem visitLog_tree {call : Logged → Nat → Nat → Except Fault Logged}
    {s s1 : Logged} {v p u j : Nat} (hS : Shape N adj s.graph) (hS1 : Shape N adj s1.graph)
    (hv : v ≤ N) (hu : u ≤ N) (hjp : j ≠ p) (hU : ¬ U s.graph u)
    (hcall : call (s.call { caller := some v, point := u, parent := j }) u j = .ok s1) :
    visitLog call v p s (u, j) =
      .ok ((s1.record (lower s1.graph v (R s1.graph u))).report u j) := by
  have h1 : u < s.graph.used.length := by rw [hS.used_len]; omega
  have h2 : u < s1.graph.ret.length := by rw [hS1.ret_len]; omega
  have hS2 := Shape_lower hS1 v (R s1.graph u)
  have h3 : u < (lower s1.graph v (R s1.graph u)).ret.length := by rw [hS2.ret_len]; omega
  have h4 : u < (lower s1.graph v (R s1.graph u)).t_in.length := by rw [hS2.t_in_len]; omega
  unfold visitLog
  simp only [if_neg hjp]
  rw [rd_ok h1 false]
  have hU2 : s.graph.used.getD u false = false := by
    unfold U at hU; simpa using hU
  rw [hU2]
  simp only
  rw [hcall]
  simp only
  rw [rd_ok h2 0]
  simp only
  rw [show s1.graph.ret.getD u 0 = R s1.graph u from rfl, relaxLog_ok hS1 hv]
  simp only [record_graph]
  rw [rd_ok h3 0, rd_ok h4 0]
  simp only
  unfold Logged.report push R T
  simp only [record_graph]
  split <;> rfl

/-- The logged loop agrees with the logged big-step relation and, on the graph
object, with the loop of the program. -/
theorem forNeighboursLog_run {fuel : Nat}
    (ih : ∀ s v p, Shape N adj s.graph → v ≤ N → ¬ U s.graph v → cnt s.graph ≤ fuel →
      ∃ s1, DFSLog fuel s v p = .ok s1 ∧ RunL adj v p (adj v) (s.enter v) s1 ∧
        DFS fuel s.graph v p = .ok s1.graph ∧ Shape N adj s1.graph ∧
        cnt s1.graph < cnt s.graph)
    (v p : Nat) (hv : v ≤ N) (nbrs : List (Nat × Nat)) :
    ∀ s, Shape N adj s.graph → (∀ e ∈ nbrs, e.1 ≤ N) → cnt s.graph ≤ fuel →
      ∃ s1, forNeighboursLog (DFSLog fuel) v p nbrs s = .ok s1 ∧ RunL adj v p nbrs s s1 ∧
        forNeighbours (DFS fuel) v p nbrs s.graph = .ok s1.graph ∧
        Shape N adj s1.graph ∧ cnt s1.graph ≤ cnt s.graph := by
  induction nbrs with
  | nil =>
    intro s hS _ _
    exact ⟨s, rfl, RunL.done v p s, rfl, hS, le_refl _⟩
  | cons e rest ihl =>
    intro s hS hr hc
    obtain ⟨u, j⟩ := e
    have hu : u ≤ N := hr (u, j) (List.mem_cons_self _ _)
    have hr2 : ∀ e ∈ rest, e.1 ≤ N := fun e he => hr e (List.mem_cons_of_mem _ he)
    by_cases hjp : j = p
    · subst hjp
      obtain ⟨s1, h1, h2, h3, h4, h5⟩ := ihl s hS hr2 hc
      refine ⟨s1, ?_, RunL.skip v j u rest s s1 h2, ?_, h4, h5⟩
      · simp only [forNeighboursLog, visitLog, if_true]
        exact h1
      · simp only [forNeighbours, visit, if_true]
        exact h3
    · by_cases hU : U s.graph u
      · have hS2 := Shape_lower hS v (T s.graph u)
        obtain ⟨s1, h1, h2, h3, h4, h5⟩ := ihl (s.record (lower s.graph v (T s.graph u))) hS2 hr2
          (by simpa using hc)
        refine ⟨s1, ?_, RunL.back v p u j rest s s1 hjp hU h2, ?_, h4, by simpa using h5⟩
        · simp only [forNeighboursLog]
          rw [visitLog_back hS hv hu hjp hU]
          exact h1
        · simp only [forNeighbours]
          rw [visit_back hS hv hu hjp hU]
          exact h3
      · obtain ⟨sc, hc1, hc2, hc3, hc4, hc5⟩ :=
          ih (s.call { caller := some v, point := u, parent := j }) u j hS hu hU hc
        have hg2 : ((sc.record (lower sc.graph v (R sc.graph u))).report u j).graph =
            report (lower sc.graph v (R sc.graph u)) u j := report_graph _ u j
        have hS2 : Shape N adj ((sc.record (lower sc.graph v (R sc.graph u))).report u j).graph := by
          rw [hg2]
          exact Shape_report (Shape_lower hc4 v (R sc.graph u)) u j
        obtain ⟨s1, h1, h2, h3, h4, h5⟩ :=
          ihl ((sc.record (lower sc.graph v (R sc.graph u))).report u j) hS2 hr2
            (by rw [hg2]; simp at hc5 ⊢; omega)
        refine ⟨s1, ?_, RunL.tree v p u j rest s sc s1 hjp hU hc2 h2, ?_, h4, ?_⟩
        · simp only [forNeighboursLog]
          rw [visitLog_tree hS hc4 hv hu hjp hU hc1]
          exact h1
        · simp only [forNeighbours]
          rw [visit_tree hS hc4 hv hu hjp hU hc3]
          rw [hg2] at h3
          exact h3
        · rw [hg2] at h5
          simp at h5 hc5
          omega

/-- The logged `DFS` returns whenever `DFS` does, with the same graph object. -/
theorem DFSLog_run (hrange : ∀ v e, e ∈ adj v → e.1 ≤ N) (fuel : Nat) :
    ∀ s v p, Shape N adj s.graph → v ≤ N → ¬ U s.graph v → cnt s.graph ≤ fuel →
      ∃ s1, DFSLog fuel s v p = .ok s1 ∧ RunL adj v p (adj v) (s.enter v) s1 ∧
        DFS fuel s.graph v p = .ok s1.graph ∧ Shape N adj s1.graph ∧
        cnt s1.graph < cnt s.graph := by
  induction fuel with
  | zero =>
    intro s v p hS hv hU hc
    have := cnt_mark (by rw [hS.used_len]; omega) hU
    omega
  | succ fuel ih =>
    intro s v p hS hv hU hc
    have hm := cnt_mark (by rw [hS.used_len]; omega) hU
    have hg : (s.enter v).graph = mark s.graph v :=
      enter_graph (by rw [hS.t_in_len]; omega)
    have hSe : Shape N adj (s.enter v).graph := by rw [hg]; exact Shape_mark hS v
    obtain ⟨s1, h1, h2, h3, h4, h5⟩ := forNeighboursLog_run ih v p hv (adj v) (s.enter v)
      hSe (fun e he => hrange v e he) (by rw [hg]; omega)
    refine ⟨s1, ?_, h2, ?_, h4, by rw [hg] at h5; omega⟩
    · simp only [DFSLog]
      rw [enterLog_ok hS hv]
      simp only
      rw [neighbours_ok hSe hv]
      exact h1
    · simp only [DFS]
      rw [enter_ok hS hv]
      simp only
      rw [neighbours_ok (Shape_mark hS v) hv]
      rw [hg] at h3
      exact h3

end

/-! ## The trace of states -/

section

variable {N : Nat} {edges : List DefaultEdge} {adj : Nat → List (Nat × Nat)}

/-- The logged driver loop agrees with its big-step relation and, on the graph
object, with the driver loop of the program. -/
theorem rootsLog_run (hrange : ∀ v e, e ∈ adj v → e.1 ≤ N) (fuel : Nat) (L : List Nat) :
    ∀ s, Shape N adj s.graph → (∀ i ∈ L, i ≤ N) → cnt s.graph ≤ fuel →
      ∃ s1, rootsLog fuel L s = .ok s1 ∧ RootsL adj L s s1 ∧
        roots fuel L s.graph = .ok s1.graph ∧ Shape N adj s1.graph ∧
        cnt s1.graph ≤ cnt s.graph := by
  induction L with
  | nil =>
    intro s hS _ _
    exact ⟨s, rfl, RootsL.done s, rfl, hS, le_refl _⟩
  | cons i rest ih =>
    intro s hS hL hc
    have hi : i ≤ N := hL i (List.mem_cons_self _ _)
    have hL2 : ∀ i ∈ rest, i ≤ N := fun k hk => hL k (List.mem_cons_of_mem _ hk)
    have hlen : i < s.graph.used.length := by rw [hS.used_len]; omega
    by_cases hu : U s.graph i
    · obtain ⟨s1, h1, h2, h3, h4, h5⟩ := ih s hS hL2 hc
      have hu2 := hu
      unfold U at hu2
      refine ⟨s1, ?_, RootsL.skip i rest s s1 hu h2, ?_, h4, h5⟩
      · simp only [rootsLog]
        rw [rd_ok hlen false, hu2]
        exact h1
      · simp only [roots]
        rw [rd_ok hlen false, hu2]
        exact h3
    · obtain ⟨sc, c1, c2, c3, c4, c5⟩ := DFSLog_run hrange fuel
        (s.call { caller := none, point := i, parent := 0 }) i 0 hS hi hu hc
      obtain ⟨s1, h1, h2, h3, h4, h5⟩ := ih sc c4 hL2 (by simp at c5; omega)
      have hu2 : s.graph.used.getD i false = false := by
        unfold U at hu; simpa using hu
      refine ⟨s1, ?_, RootsL.root i rest s sc s1 hu c2 h2, ?_, h4, by simp at c5; omega⟩
      · simp only [rootsLog]
        rw [rd_ok hlen false, hu2]
        simp only
        rw [c1]
        exact h1
      · simp only [roots]
        rw [rd_ok hlen false, hu2]
        simp only
        rw [call_graph] at c3
        rw [c3]
        exact h3

/-- The logged traversal of a valid input: it returns a logged state, whose
graph object is the state `traverse` returns, by a run of the logged driver
loop from the state the constructor builds. -/
theorem traverseLog_run (hE : ValidInput N edges) :
    ∃ g0 s, AdjacencyListGraph.new N edges = .ok g0 ∧
      traverseLog (N + 1) N edges = .ok s ∧ traverse (N + 1) N edges = .ok s.graph ∧
      RootsL (neighboursSpec edges) (List.range' 1 N)
        { graph := g0, calls := [], states := [g0] } s ∧
      Shape N (neighboursSpec edges) g0 ∧ g0.res = [] ∧ g0.timer = 0 ∧ (∀ v, ¬ U g0 v) := by
  obtain ⟨g0, h1, h2, h3, h4, h5, h6⟩ := new_ok hE
  obtain ⟨s, k1, k2, k3, _, _⟩ := rootsLog_run (range_spec hE) (N + 1) (List.range' 1 N)
    { graph := g0, calls := [], states := [g0] } h2
    (fun i hi => by rw [List.mem_range'_1] at hi; omega)
    (show cnt g0 ≤ N + 1 by omega)
  refine ⟨g0, s, h1, ?_, ?_, k2, h2, h3, h4, h5⟩
  · unfold traverseLog
    rw [h1]
    exact k1
  · unfold traverse
    rw [h1]
    exact k3

/-- Whatever holds of the logged state and is kept by recording a statement
and by recording a call is kept by a run of the loop of `DFS`. -/
theorem RunL.preserve (Q : Logged → Prop)
    (hrec : ∀ s g, Q s → Prim s.graph g → Q (s.record g))
    (hcall : ∀ s c, Q s → Q (s.call c))
    {v p : Nat} {nbrs : List (Nat × Nat)} {s s1 : Logged}
    (h : RunL adj v p nbrs s s1) : Q s → Q s1 := by
  induction h with
  | done v p s => exact id
  | skip v p u rest s s1 _ ih => exact ih
  | back v p u j rest s s1 _ _ _ ih =>
    intro hq
    exact ih (hrec s _ hq (Prim.lower _ _ _))
  | tree v p u j rest s s1 s2 _ _ _ _ ihc ih =>
    intro hq
    have h1 := hcall s { caller := some v, point := u, parent := j } hq
    have h2 : Q ((s.call { caller := some v, point := u, parent := j }).enter u) := by
      unfold Logged.enter
      refine hrec _ _ (hrec _ _ (hrec _ _ h1 (Prim.stamp _ _)) ?_) ?_
      · exact Prim.start _ _
      · exact Prim.flag _ _
    have h3 := ihc h2
    have h4 := hrec s1 _ h3 (Prim.lower s1.graph v (R s1.graph u))
    apply ih
    unfold Logged.report
    split
    · exact hrec _ _ h4 (Prim.push _ _)
    · exact h4

/-- The same for a run of the driver loop. -/
theorem RootsL.preserve_roots (Q : Logged → Prop)
    (hrec : ∀ s g, Q s → Prim s.graph g → Q (s.record g))
    (hcall : ∀ s c, Q s → Q (s.call c))
    {L : List Nat} {s s1 : Logged} (h : RootsL adj L s s1) : Q s → Q s1 := by
  induction h with
  | done s => exact id
  | skip i rest s s1 _ _ ih => exact ih
  | root i rest s s1 s2 _ hrun _ ih =>
    intro hq
    have h1 := hcall s { caller := none, point := i, parent := 0 } hq
    have h2 : Q ((s.call { caller := none, point := i, parent := 0 }).enter i) := by
      unfold Logged.enter
      refine hrec _ _ (hrec _ _ (hrec _ _ h1 (Prim.stamp _ _)) ?_) ?_
      · exact Prim.start _ _
      · exact Prim.flag _ _
    exact ih (hrun.preserve Q hrec hcall h2)

theorem Traced.record {s : Logged} (h : Traced s) {g : AdjacencyListGraph}
    (hp : Prim s.graph g) : Traced (s.record g) := by
  refine ⟨?_, by simp⟩
  rw [record_states, List.chain'_append]
  refine ⟨h.chain, List.chain'_singleton g, ?_⟩
  intro x hx y hy
  rw [h.last] at hx
  simp at hx hy
  subst hx
  subst hy
  exact hp

theorem Traced.mem_graph {s : Logged} (h : Traced s) : s.graph ∈ s.states :=
  List.mem_of_getLast?_eq_some h.last

theorem T_stamp (g : AdjacencyListGraph) (p v : Nat) :
    T (stamp g p) v = if p = v ∧ p < g.t_in.length then g.timer else T g v := by
  unfold T stamp
  simp only [getD_set]

theorem R_start (g : AdjacencyListGraph) (p v : Nat) :
    R (start g p) v = if p = v ∧ p < g.ret.length then T g p else R g v := by
  unfold R start
  simp only [getD_set]

theorem R_lower_le (g : AdjacencyListGraph) (p x v : Nat) : R (lower g p x) v ≤ R g v := by
  unfold lower
  simp only [R, getD_set]
  split
  · rename_i h
    rw [h.1]
    exact Nat.min_le_left _ _
  · exact le_refl _

/-- Every statement keeps the low-link below the discovery time and the
discovery time below the timer. -/
theorem LowBound.prim {g g1 : AdjacencyListGraph} (h : LowBound g) (hp : Prim g g1) :
    LowBound g1 := by
  cases hp with
  | stamp p =>
    intro v
    have hv := h v
    rw [T_stamp]
    have h1 : R (stamp g p) v = R g v := rfl
    have h2 : (stamp g p).timer = g.timer + 1 := rfl
    rw [h1, h2]
    split <;> omega
  | start p =>
    intro v
    have hv := h v
    have hp := h p
    rw [R_start]
    have h1 : T (start g p) v = T g v := rfl
    have h2 : (start g p).timer = g.timer := rfl
    rw [h1, h2]
    split
    · rename_i hc
      rw [← hc.1]
      omega
    · omega
  | flag p => exact h
  | lower p x =>
    intro v
    have hv := h v
    have := R_lower_le g p x v
    have h1 : T (lower g p x) v = T g v := rfl
    have h2 : (lower g p x).timer = g.timer := rfl
    omega
  | push j => exact h

/-- Every statement leaves `res` alone or appends to it. -/
theorem Prim.res_sublist {g g1 : AdjacencyListGraph} (hp : Prim g g1) :
    g.res.Sublist g1.res := by
  cases hp with
  | stamp p => exact List.Sublist.refl _
  | start p => exact List.Sublist.refl _
  | flag p => exact List.Sublist.refl _
  | lower p x => exact List.Sublist.refl _
  | push j => exact List.sublist_append_left _ _

theorem Traced.call {s : Logged} (h : Traced s) (c : Call) : Traced (s.call c) :=
  ⟨h.chain, h.last⟩

/-- The vectors `t_in` and `ret` built by the constructor hold zeros. -/
theorem new_zero {g0 : AdjacencyListGraph} (h : AdjacencyListGraph.new N edges = .ok g0)
    (v : Nat) : T g0 v = 0 ∧ R g0 v = 0 := by
  unfold AdjacencyListGraph.new at h
  split at h
  · cases h
  · cases h
    exact ⟨getD_replicate _ _ _, getD_replicate _ _ _⟩

/-- What the trace of a whole logged traversal satisfies. -/
theorem trace_spec (hE : ValidInput N edges) :
    ∃ g0 s, AdjacencyListGraph.new N edges = .ok g0 ∧
      traverseLog (N + 1) N edges = .ok s ∧ traverse (N + 1) N edges = .ok s.graph ∧
      Traced s ∧ s.states.head? = some g0 ∧
      (∀ g ∈ s.states, LowBound g) ∧ (∀ g ∈ s.states, g.res.Sublist s.graph.res) := by
  obtain ⟨g0, s, h1, h2, h3, h4, h5, h6, h7, h8⟩ := traverseLog_run hE
  refine ⟨g0, s, h1, h2, h3, ?_⟩
  have hq := h4.preserve_roots
    (fun s => Traced s ∧ s.states.head? = some g0 ∧ (∀ g ∈ s.states, LowBound g) ∧
      (∀ g ∈ s.states, g.res.Sublist s.graph.res))
    (fun s g ⟨q1, q2, q3, q4⟩ hp => by
      refine ⟨q1.record hp, ?_, ?_, ?_⟩
      · rw [record_states, List.head?_append_of_ne_nil _ (List.ne_nil_of_mem q1.mem_graph)]
        exact q2
      · intro g' hg'
        rw [record_states, List.mem_append, List.mem_singleton] at hg'
        rcases hg' with hg' | rfl
        · exact q3 g' hg'
        · exact (q3 _ q1.mem_graph).prim hp
      · intro g' hg'
        rw [record_states, List.mem_append, List.mem_singleton] at hg'
        rw [record_graph]
        rcases hg' with hg' | rfl
        · exact (q4 g' hg').trans hp.res_sublist
        · exact List.Sublist.refl _)
    (fun s c ⟨q1, q2, q3, q4⟩ => ⟨q1.call c, q2, q3, q4⟩)
    ⟨⟨List.chain'_singleton g0, rfl⟩, rfl, ?_, ?_⟩
  · exact hq
  · intro g hg
    simp only [List.mem_singleton] at hg
    subst hg
    intro v
    have hz := new_zero h1 v
    rw [hz.1, hz.2, h7]
    exact ⟨le_refl _, le_refl _⟩
  · intro g hg
    simp only [List.mem_singleton] at hg
    subst hg
    exact List.Sublist.refl _

end

/-! ## The log of calls -/

section

variable {N : Nat} {edges : List DefaultEdge} {adj : Nat → List (Nat × Nat)}

theorem U_lt {g : AdjacencyListGraph} {v : Nat} (h : U g v) : v < g.used.length := by
  unfold U at h
  by_contra hc
  rw [List.getD_eq_default _ _ (by omega)] at h
  cases h

theorem CallsInv.index {s : Logged} (h : CallsInv N edges adj s) {v : Nat} (hU : U s.graph v) :
    ∃ k c, s.calls[k]? = some c ∧ c.point = v ∧ T s.graph v = k ∧ k < s.calls.length := by
  have h1 := (h.used_iff v).mp hU
  obtain ⟨c, hc, hcv⟩ := List.mem_map.mp h1
  obtain ⟨k, hk⟩ := List.mem_iff_getElem?.mp hc
  refine ⟨k, c, hk, hcv, ?_, ?_⟩
  · rw [← hcv]; exact h.tin_eq k c hk
  · exact (List.getElem?_eq_some_iff.mp hk).1

theorem CallsInv.tin_lt {s : Logged} (h : CallsInv N edges adj s) {v : Nat} (hU : U s.graph v) :
    T s.graph v < s.graph.timer := by
  obtain ⟨k, c, _, _, h3, h4⟩ := h.index hU
  rw [h3, h.timer_eq]
  exact h4

theorem CallsInv.used_point {s : Logged} (h : CallsInv N edges adj s) {c : Call}
    (hc : c ∈ s.calls) : U s.graph c.point :=
  (h.used_iff _).mpr (List.mem_map.mpr ⟨c, hc, rfl⟩)

theorem CallsInv.lower {s : Logged} (h : CallsInv N edges adj s) (v x : Nat) :
    CallsInv N edges adj (s.record (lower s.graph v x)) :=
  ⟨Shape_lower h.shape v x, h.nodup, h.used_iff, h.timer_eq, h.tin_eq, h.point_pos,
    h.tree_edge, h.root_edge, h.caller_tin, h.res_tree⟩

theorem CallsInv.report {s : Logged} (h : CallsInv N edges adj s) (u j : Nat)
    (hc : ∃ c ∈ s.calls, c.parent = j ∧ c.caller ≠ none) :
    CallsInv N edges adj (s.report u j) := by
  unfold Logged.report
  split
  · refine ⟨⟨h.shape.t_in_len, h.shape.ret_len, h.shape.used_len, h.shape.list_eq⟩, h.nodup,
      h.used_iff, h.timer_eq, h.tin_eq, h.point_pos, h.tree_edge, h.root_edge, h.caller_tin, ?_⟩
    intro i hi
    have hi2 : i ∈ s.graph.res ++ [j] := hi
    rcases List.mem_append.mp hi2 with h1 | h1
    · exact h.res_tree i h1
    · have : i = j := by simpa using h1
      subst this
      exact hc
  · exact h

theorem CallsInv.entered {s : Logged} (h : CallsInv N edges adj s) (c : Call)
    (hu : ¬ U s.graph c.point) (hN : c.point ≤ N) (h1 : 1 ≤ c.point)
    (htree : ∀ a, c.caller = some a → Joins edges c.parent a c.point ∧ U s.graph a)
    (hroot : c.caller = none → c.parent = 0) :
    CallsInv N edges adj ((s.call c).enter c.point) := by
  have hS := h.shape
  have l1 : c.point < s.graph.t_in.length := by rw [hS.t_in_len]; omega
  have l2 : c.point < s.graph.ret.length := by rw [hS.ret_len]; omega
  have l3 : c.point < s.graph.used.length := by rw [hS.used_len]; omega
  have hg : ((s.call c).enter c.point).graph = mark s.graph c.point := enter_graph l1
  have hcalls : ((s.call c).enter c.point).calls = s.calls ++ [c] := rfl
  have hne : ∀ d ∈ s.calls, d.point ≠ c.point := fun d hd he => hu (he ▸ h.used_point hd)
  constructor
  · rw [hg]; exact Shape_mark hS _
  · rw [hcalls, List.map_append, List.nodup_append]
    refine ⟨h.nodup, by simp, ?_⟩
    intro a ha ha2
    have : a = c.point := by simpa using ha2
    subst this
    exact hu ((h.used_iff _).mpr ha)
  · intro v
    rw [hg, hcalls, U_mark l3, List.map_append, List.mem_append, h.used_iff]
    simp [or_comm]
  · rw [hg, hcalls]
    simp [h.timer_eq]
  · intro k d hk
    rw [hcalls] at hk
    rw [hg, T_mark l1]
    by_cases hlt : k < s.calls.length
    · rw [List.getElem?_append_left hlt] at hk
      have hd : d ∈ s.calls := List.mem_iff_getElem?.mpr ⟨k, hk⟩
      rw [if_neg (hne d hd)]
      exact h.tin_eq k d hk
    · rw [List.getElem?_append_right (by omega)] at hk
      have hk0 : k - s.calls.length = 0 := by
        by_contra h0
        rw [List.getElem?_eq_none (by simp; omega)] at hk
        cases hk
      rw [hk0] at hk
      have : d = c := by simpa using hk.symm
      subst this
      rw [if_pos rfl, h.timer_eq]
      omega
  · intro d hd
    rw [hcalls] at hd
    rcases List.mem_append.mp hd with hd | hd
    · exact h.point_pos d hd
    · have : d = c := by simpa using hd
      subst this; exact h1
  · intro d hd a ha
    rw [hcalls] at hd
    rcases List.mem_append.mp hd with hd | hd
    · exact h.tree_edge d hd a ha
    · have : d = c := by simpa using hd
      subst this; exact (htree a ha).1
  · intro d hd ha
    rw [hcalls] at hd
    rcases List.mem_append.mp hd with hd | hd
    · exact h.root_edge d hd ha
    · have : d = c := by simpa using hd
      subst this; exact hroot ha
  · intro d hd a ha
    rw [hcalls] at hd
    rw [hg, U_mark l3, T_mark l1, T_mark l1]
    rcases List.mem_append.mp hd with hd | hd
    · obtain ⟨k1, k2⟩ := h.caller_tin d hd a ha
      have hane : a ≠ c.point := fun he => hu (he ▸ k1)
      rw [if_neg hane, if_neg (hne d hd)]
      exact ⟨Or.inr k1, k2⟩
    · have : d = c := by simpa using hd
      subst this
      have k1 := (htree a ha).2
      have hane : a ≠ d.point := fun he => hu (he ▸ k1)
      rw [if_neg hane, if_pos rfl]
      exact ⟨Or.inr k1, h.tin_lt k1⟩
  · intro j hj
    rw [hg] at hj
    obtain ⟨d, hd, hd2⟩ := h.res_tree j hj
    exact ⟨d, by rw [hcalls]; exact List.mem_append_left _ hd, hd2⟩

theorem CallsGrow.rfl_ (v : Nat) (s : Logged) : CallsGrow v s s :=
  ⟨⟨[], by simp, by simp⟩, fun _ h => h, fun _ _ => rfl, fun _ _ _ => rfl⟩

theorem CallsGrow.lower_then {v : Nat} {s s1 : Logged} (x : Nat)
    (h : CallsGrow v (s.record (lower s.graph v x)) s1) : CallsGrow v s s1 := by
  obtain ⟨h1, h2, h3, h4⟩ := h
  refine ⟨h1, h2, h3, ?_⟩
  intro u hu huv
  rw [h4 u hu huv]
  show R (lower s.graph v x) u = R s.graph u
  unfold lower R
  simp only [getD_set]
  rw [if_neg]
  rintro ⟨h5, _⟩
  exact huv h5.symm

/-- The log of calls along the loop of `DFS` at `v`. -/
theorem RunL.calls (hE : ValidInput N edges)
    (hadj : ∀ v u j, (u, j) ∈ adj v → Joins edges j v u)
    {v p : Nat} {nbrs : List (Nat × Nat)} {s s1 : Logged} (h : RunL adj v p nbrs s s1) :
    CallsInv N edges adj s → U s.graph v → (∀ e ∈ nbrs, e ∈ adj v) →
      CallsInv N edges adj s1 ∧ CallsGrow v s s1 := by
  induction h with
  | done v p s => exact fun hI _ _ => ⟨hI, CallsGrow.rfl_ v s⟩
  | skip v p u rest s s1 _ ih =>
    exact fun hI hU hn => ih hI hU (fun e he => hn e (List.mem_cons_of_mem _ he))
  | back v p u j rest s s1 hjp hUu _ ih =>
    intro hI hU hn
    obtain ⟨k1, k2⟩ := ih (hI.lower v _) hU (fun e he => hn e (List.mem_cons_of_mem _ he))
    exact ⟨k1, k2.lower_then _⟩
  | tree v p u j rest s s1 s2 hjp hUu _ _ ih1 ih2 =>
    intro hI hU hn
    have hJ : Joins edges j v u := hadj v u j (hn (u, j) (List.mem_cons_self _ _))
    obtain ⟨_, _, hu1, huN⟩ := Joins_range hE hJ
    have hS := hI.shape
    have l1 : u < s.graph.t_in.length := by rw [hS.t_in_len]; omega
    have l2 : u < s.graph.ret.length := by rw [hS.ret_len]; omega
    have l3 : u < s.graph.used.length := by rw [hS.used_len]; omega
    have hg : ((s.call { caller := some v, point := u, parent := j }).enter u).graph
        = mark s.graph u := enter_graph l1
    have hIe := hI.entered { caller := some v, point := u, parent := j } hUu huN hu1
      (fun a ha => by cases ha; exact ⟨hJ, hU⟩) (fun ha => by cases ha)
    have hUe : U ((s.call { caller := some v, point := u, parent := j }).enter u).graph u := by
      rw [hg, U_mark l3]; exact Or.inl rfl
    obtain ⟨k1, k2⟩ := ih1 hIe hUe (fun e he => he)
    have hvN : v < s1.graph.ret.length := by
      have := U_lt hU
      rw [k1.shape.ret_len]; rw [hS.used_len] at this; exact this
    have hcu : ∃ c ∈ s1.calls, c.parent = j ∧ c.caller ≠ none := by
      obtain ⟨more, hm, _⟩ := k2.calls
      refine ⟨{ caller := some v, point := u, parent := j }, ?_, rfl, by simp⟩
      rw [hm]
      exact List.mem_append_left _ (by simp [Logged.enter])
    have hI2 : CallsInv N edges adj ((s1.record (lower s1.graph v (R s1.graph u))).report u j) :=
      (k1.lower v _).report u j hcu
    have hU2 : U ((s1.record (lower s1.graph v (R s1.graph u))).report u j).graph v := by
      rw [report_graph, U_report]
      show U s1.graph v
      apply k2.used
      rw [hg, U_mark l3]; exact Or.inr hU
    obtain ⟨m1, m2⟩ := ih2 hI2 hU2 (fun e he => hn e (List.mem_cons_of_mem _ he))
    refine ⟨m1, ?_⟩
    have hmono : ∀ w, U s.graph w → U ((s.call { caller := some v, point := u, parent := j }).enter u).graph w := by
      intro w hw; rw [hg, U_mark l3]; exact Or.inr hw
    have hmono2 : ∀ w, U s.graph w →
        U ((s1.record (lower s1.graph v (R s1.graph u))).report u j).graph w := by
      intro w hw
      rw [report_graph, U_report]
      exact k2.used w (hmono w hw)
    constructor
    · obtain ⟨more1, hm1, hm1b⟩ := k2.calls
      obtain ⟨more2, hm2, hm2b⟩ := m2.calls
      refine ⟨{ caller := some v, point := u, parent := j } :: more1 ++ more2, ?_, ?_⟩
      · rw [hm2, report_calls, record_calls, hm1]
        simp [Logged.enter]
      · intro c hc
        rcases List.mem_append.mp hc with hc | hc
        · rcases List.mem_cons.mp hc with hc | hc
          · subst hc
            exact ⟨hUu, fun a ha => by cases ha; exact Or.inl rfl⟩
          · obtain ⟨q1, q2⟩ := hm1b c hc
            refine ⟨fun hw => q1 (hmono _ hw), ?_⟩
            intro a ha
            rcases q2 a ha with q2 | q3
            · subst q2; exact Or.inr hUu
            · exact Or.inr (fun hw => q3 (hmono _ hw))
        · obtain ⟨q1, q2⟩ := hm2b c hc
          refine ⟨fun hw => q1 (hmono2 _ hw), ?_⟩
          intro a ha
          rcases q2 a ha with q2 | q3
          · exact Or.inl q2
          · exact Or.inr (fun hw => q3 (hmono2 _ hw))
    · intro w hw
      exact m2.used w (hmono2 w hw)
    · intro w hw
      have hwu : w ≠ u := fun he => hUu (he ▸ hw)
      rw [m2.tin w (hmono2 w hw), report_graph, T_report]
      show T s1.graph w = _
      rw [k2.tin w (hmono w hw), hg, T_mark l1, if_neg hwu]
    · intro w hw hwv
      have hwu : w ≠ u := fun he => hUu (he ▸ hw)
      rw [m2.ret w (hmono2 w hw) hwv, report_graph, R_report]
      show R (lower s1.graph v (R s1.graph u)) w = _
      rw [R_lower hvN, if_neg hwv, k2.ret w (hmono w hw) hwu, hg, R_mark l2, if_neg hwu]

end

/-! ## Frames for the low-link facts -/

section

variable {N : Nat} {edges : List DefaultEdge} {adj : Nat → List (Nat × Nat)}

theorem CallsInv.unique {s : Logged} (h : CallsInv N edges adj s) {c d : Call}
    (hc : c ∈ s.calls) (hd : d ∈ s.calls) (he : c.point = d.point) : c = d :=
  List.inj_on_of_nodup_map h.nodup hc hd he

theorem CallsInv.ret_lt {s : Logged} (h : CallsInv N edges adj s) {v : Nat} (hU : U s.graph v) :
    v < s.graph.ret.length := by
  have := U_lt hU
  rw [h.shape.ret_len]; rw [h.shape.used_len] at this; exact this

theorem CallsInv.child_ne {s : Logged} (h : CallsInv N edges adj s) {c : Call}
    (hc : c ∈ s.calls) {a : Nat} (ha : c.caller = some a) : c.point ≠ a := by
  have := (h.caller_tin c hc a ha).2
  intro he
  rw [he] at this
  omega

theorem CallsGrow.compose {v : Nat} {s s1 s2 : Logged} (h1 : CallsGrow v s s1)
    (h2 : CallsGrow v s1 s2) : CallsGrow v s s2 := by
  obtain ⟨more1, hm1, hm1b⟩ := h1.calls
  obtain ⟨more2, hm2, hm2b⟩ := h2.calls
  refine ⟨⟨more1 ++ more2, by rw [hm2, hm1, List.append_assoc], ?_⟩, ?_, ?_, ?_⟩
  · intro c hc
    rcases List.mem_append.mp hc with hc | hc
    · exact hm1b c hc
    · obtain ⟨q1, q2⟩ := hm2b c hc
      refine ⟨fun hw => q1 (h1.used _ hw), fun a ha => ?_⟩
      rcases q2 a ha with q | q
      · exact Or.inl q
      · exact Or.inr (fun hw => q (h1.used _ hw))
  · exact fun u hu => h2.used u (h1.used u hu)
  · intro u hu
    rw [h2.tin u (h1.used u hu), h1.tin u hu]
  · intro u hu huv
    rw [h2.ret u (h1.used u hu) huv, h1.ret u hu huv]

theorem CallsGrow.lower_report (s : Logged) (v x u j : Nat) :
    CallsGrow v s ((s.record (lower s.graph v x)).report u j) := by
  refine ⟨⟨[], by simp, by simp⟩, ?_, ?_, ?_⟩
  · intro w hw
    rw [report_graph, U_report]
    exact hw
  · intro w _
    rw [report_graph, T_report]
    rfl
  · intro w _ hwv
    rw [report_graph, R_report]
    show R (lower s.graph v x) w = R s.graph w
    unfold lower R
    simp only [getD_set]
    rw [if_neg]
    rintro ⟨h5, _⟩
    exact hwv h5.symm

theorem CallsGrow.step_enter {s : Logged} (hI : CallsInv N edges adj s) (v : Nat) (c : Call)
    (hu : ¬ U s.graph c.point) (hN : c.point ≤ N)
    (hc : ∀ a, c.caller = some a → a = v ∨ ¬ U s.graph a) :
    CallsGrow v s ((s.call c).enter c.point) := by
  have hS := hI.shape
  have l1 : c.point < s.graph.t_in.length := by rw [hS.t_in_len]; omega
  have l2 : c.point < s.graph.ret.length := by rw [hS.ret_len]; omega
  have l3 : c.point < s.graph.used.length := by rw [hS.used_len]; omega
  have hg : ((s.call c).enter c.point).graph = mark s.graph c.point := enter_graph l1
  refine ⟨⟨[c], rfl, ?_⟩, ?_, ?_, ?_⟩
  · intro d hd
    have : d = c := by simpa using hd
    subst this
    exact ⟨hu, hc⟩
  · intro w hw
    rw [hg, U_mark l3]; exact Or.inr hw
  · intro w hw
    have : w ≠ c.point := fun he => hu (he ▸ hw)
    rw [hg, T_mark l1, if_neg this]
  · intro w hw _
    have : w ≠ c.point := fun he => hu (he ▸ hw)
    rw [hg, R_mark l2, if_neg this]

/-- What a finished recursive call leaves of the state it was made in. -/
theorem CallsGrow.child {s s1 : Logged} (hI : CallsInv N edges adj s) (c : Call)
    (hu : ¬ U s.graph c.point) (hN : c.point ≤ N)
    (h : CallsGrow c.point ((s.call c).enter c.point) s1) :
    (∃ more, s1.calls = s.calls ++ c :: more ∧
      ∀ d ∈ more, ¬ U s.graph d.point ∧ ∀ a, d.caller = some a → ¬ U s.graph a) ∧
    ∀ w, U s.graph w → U s1.graph w ∧ T s1.graph w = T s.graph w ∧
      R s1.graph w = R s.graph w := by
  have hS := hI.shape
  have l1 : c.point < s.graph.t_in.length := by rw [hS.t_in_len]; omega
  have l2 : c.point < s.graph.ret.length := by rw [hS.ret_len]; omega
  have l3 : c.point < s.graph.used.length := by rw [hS.used_len]; omega
  have hg : ((s.call c).enter c.point).graph = mark s.graph c.point := enter_graph l1
  have hmono : ∀ w, U s.graph w → U ((s.call c).enter c.point).graph w := by
    intro w hw; rw [hg, U_mark l3]; exact Or.inr hw
  obtain ⟨more, hm, hmb⟩ := h.calls
  constructor
  · refine ⟨more, ?_, ?_⟩
    · rw [hm]; simp [Logged.enter]
    · intro d hd
      obtain ⟨q1, q2⟩ := hmb d hd
      refine ⟨fun hw => q1 (hmono _ hw), fun a ha hw => ?_⟩
      rcases q2 a ha with q | q
      · subst q; exact hu hw
      · exact q (hmono _ hw)
  · intro w hw
    have hne : w ≠ c.point := fun he => hu (he ▸ hw)
    refine ⟨h.used w (hmono w hw), ?_, ?_⟩
    · rw [h.tin w (hmono w hw), hg, T_mark l1, if_neg hne]
    · rw [h.ret w (hmono w hw) hne, hg, R_mark l2, if_neg hne]

theorem LowAt.frame {s s1 : Logged} {v x px : Nat} {nbrs : List (Nat × Nat)}
    (hI : CallsInv N edges adj s) (hG : CallsGrow v s s1) (hxv : x ≠ v) (hUx : U s.graph x)
    (hch : ∀ c ∈ s.calls, c.caller = some x → c.point ≠ v)
    (hL : LowAt adj s x px nbrs) : LowAt adj s1 x px nbrs := by
  obtain ⟨more, hm, hmb⟩ := hG.calls
  have hR : R s1.graph x = R s.graph x := hG.ret x hUx hxv
  have hT : T s1.graph x = T s.graph x := hG.tin x hUx
  have hRc : ∀ c ∈ s.calls, c.caller = some x → R s1.graph c.point = R s.graph c.point :=
    fun c hc hca => hG.ret _ (hI.used_point hc) (hch c hc hca)
  constructor
  · rw [hR, hT]; exact hL.bound
  · intro e he hn hp
    obtain ⟨q1, q2⟩ := hL.seen e he hn hp
    refine ⟨hG.used _ q1, ?_⟩
    rw [hR, hG.tin _ q1]; exact q2
  · intro c hc hca
    rw [hm] at hc
    rcases List.mem_append.mp hc with hc | hc
    · obtain ⟨q1, q2⟩ := hL.children c hc hca
      refine ⟨q1, ?_⟩
      rw [hR, hRc c hc hca]; exact q2
    · rcases (hmb c hc).2 x hca with q | q
      · exact absurd q hxv
      · exact absurd hUx q
  · rcases hL.attained with q | ⟨e, he, q1, q2, q3⟩ | ⟨c, hc, hca, q⟩
    · left; rw [hR, hT]; exact q
    · right; left
      exact ⟨e, he, q1, hG.used _ q2, by rw [hR, hG.tin _ q2]; exact q3⟩
    · right; right
      refine ⟨c, by rw [hm]; exact List.mem_append_left _ hc, hca, ?_⟩
      rw [hR, hRc c hc hca]; exact q

theorem LowDone.kept {s s1 : Logged} {v x : Nat}
    (hI : CallsInv N edges adj s) (hG : CallsGrow v s s1) (hxv : x ≠ v) (hUx : U s.graph x)
    (hch : ∀ c ∈ s.calls, c.caller = some x → c.point ≠ v)
    (hL : LowDone adj s x) : LowDone adj s1 x := by
  obtain ⟨cx, hcx, hp, hL⟩ := hL
  obtain ⟨more, hm, _⟩ := hG.calls
  exact ⟨cx, by rw [hm]; exact List.mem_append_left _ hcx, hp, hL.frame hI hG hxv hUx hch⟩

theorem LowAt.start {s : Logged} (hI : CallsInv N edges adj s) (c : Call)
    (hu : ¬ U s.graph c.point) (hN : c.point ≤ N) (hc : c.caller ≠ some c.point) (p : Nat) :
    LowAt adj ((s.call c).enter c.point) c.point p (adj c.point) := by
  have hS := hI.shape
  have l1 : c.point < s.graph.t_in.length := by rw [hS.t_in_len]; omega
  have l2 : c.point < s.graph.ret.length := by rw [hS.ret_len]; omega
  have hg : ((s.call c).enter c.point).graph = mark s.graph c.point := enter_graph l1
  have hRT : R ((s.call c).enter c.point).graph c.point
      = T ((s.call c).enter c.point).graph c.point := by
    rw [hg, R_mark l2, T_mark l1, if_pos rfl, if_pos rfl]
  constructor
  · rw [hRT]
  · intro e he hn; exact absurd he hn
  · intro d hd hda
    have hd2 : d ∈ s.calls ++ [c] := hd
    rcases List.mem_append.mp hd2 with hd2 | hd2
    · exact absurd (hI.caller_tin d hd2 _ hda).1 hu
    · have : d = c := by simpa using hd2
      subst this
      exact absurd hda hc
  · exact Or.inl hRT

theorem LowAt.skip {s : Logged} {v p u : Nat} {rest : List (Nat × Nat)}
    (hL : LowAt adj s v p ((u, p) :: rest)) : LowAt adj s v p rest := by
  refine ⟨hL.bound, ?_, hL.children, hL.attained⟩
  intro e he hn hp
  apply hL.seen e he _ hp
  intro hmem
  rcases List.mem_cons.mp hmem with h1 | h1
  · subst h1; exact hp rfl
  · exact hn h1

/-- The statement `ret[v] = min(ret[v], x)` in the loop at `v`. -/
theorem LowAt.lower_step {s : Logged} (hI : CallsInv N edges adj s) {v p x : Nat}
    {nbrs : List (Nat × Nat)} (hU : U s.graph v)
    (hb : R s.graph v ≤ T s.graph v)
    (hs : ∀ e ∈ adj v, e ∉ nbrs → e.2 ≠ p →
      U s.graph e.1 ∧ min (R s.graph v) x ≤ T s.graph e.1)
    (hk : ∀ c ∈ s.calls, c.caller = some v →
      c.parent ≠ p ∧ min (R s.graph v) x ≤ R s.graph c.point)
    (ha : R s.graph v = T s.graph v ∨
      (∃ e ∈ adj v, e.2 ≠ p ∧ U s.graph e.1 ∧ R s.graph v = T s.graph e.1) ∨
      (∃ c ∈ s.calls, c.caller = some v ∧ R s.graph v = R s.graph c.point))
    (hx : (∃ e ∈ adj v, e.2 ≠ p ∧ U s.graph e.1 ∧ x = T s.graph e.1) ∨
      (∃ c ∈ s.calls, c.caller = some v ∧ x = R s.graph c.point)) :
    LowAt adj (s.record (lower s.graph v x)) v p nbrs := by
  have hvl := hI.ret_lt hU
  have hRv : R (lower s.graph v x) v = min (R s.graph v) x := by rw [R_lower hvl, if_pos rfl]
  have hRw : ∀ w, w ≠ v → R (lower s.graph v x) w = R s.graph w :=
    fun w hw => by rw [R_lower hvl, if_neg hw]
  have hRc : ∀ c ∈ s.calls, c.caller = some v → R (lower s.graph v x) c.point = R s.graph c.point :=
    fun c hc hca => hRw _ (hI.child_ne hc hca)
  constructor
  · show R (lower s.graph v x) v ≤ T s.graph v
    rw [hRv]; omega
  · intro e he hn hp
    show U s.graph e.1 ∧ R (lower s.graph v x) v ≤ T s.graph e.1
    rw [hRv]; exact hs e he hn hp
  · intro c hc hca
    show c.parent ≠ p ∧ R (lower s.graph v x) v ≤ R (lower s.graph v x) c.point
    rw [hRv, hRc c hc hca]; exact hk c hc hca
  · show R (lower s.graph v x) v = T s.graph v ∨
      (∃ e ∈ adj v, e.2 ≠ p ∧ U s.graph e.1 ∧ R (lower s.graph v x) v = T s.graph e.1) ∨
      (∃ c ∈ s.calls, c.caller = some v ∧ R (lower s.graph v x) v = R (lower s.graph v x) c.point)
    rw [hRv]
    rcases Nat.le_total x (R s.graph v) with hle | hle
    · rw [Nat.min_eq_right hle]
      rcases hx with ⟨e, he, q1, q2, q3⟩ | ⟨c, hc, hca, q⟩
      · exact Or.inr (Or.inl ⟨e, he, q1, q2, q3⟩)
      · exact Or.inr (Or.inr ⟨c, hc, hca, by rw [hRc c hc hca]; exact q⟩)
    · rw [Nat.min_eq_left hle]
      rcases ha with q | ⟨e, he, q1, q2, q3⟩ | ⟨c, hc, hca, q⟩
      · exact Or.inl q
      · exact Or.inr (Or.inl ⟨e, he, q1, q2, q3⟩)
      · exact Or.inr (Or.inr ⟨c, hc, hca, by rw [hRc c hc hca]; exact q⟩)

theorem LowAt.report_step {s : Logged} {x p : Nat} {nbrs : List (Nat × Nat)} (u j : Nat)
    (hL : LowAt adj s x p nbrs) : LowAt adj (s.report u j) x p nbrs := by
  constructor
  · rw [report_graph, R_report, T_report]; exact hL.bound
  · intro e he hn hp
    rw [report_graph, U_report, R_report, T_report]; exact hL.seen e he hn hp
  · intro c hc hca
    rw [report_calls] at hc
    rw [report_graph, R_report, R_report]; exact hL.children c hc hca
  · simp only [report_graph, report_calls, R_report, T_report, U_report]
    exact hL.attained

end

/-! ## The low-link facts along the run -/

section

variable {N : Nat} {edges : List DefaultEdge} {adj : Nat → List (Nat × Nat)}

/-- The loop of `DFS` at `v` completes what is known of `ret[v]`, and every vertex
entered meanwhile is finished when it ends. -/
theorem RunL.low (hE : ValidInput N edges)
    (hadj : ∀ v u j, (u, j) ∈ adj v → Joins edges j v u)
    {v p : Nat} {nbrs : List (Nat × Nat)} {s s1 : Logged} (h : RunL adj v p nbrs s s1) :
    CallsInv N edges adj s → U s.graph v → (∀ e ∈ nbrs, e ∈ adj v) → LowAt adj s v p nbrs →
      LowAt adj s1 v p [] ∧ ∀ x, ¬ U s.graph x → U s1.graph x → LowDone adj s1 x := by
  induction h with
  | done v p s => exact fun _ _ _ hL => ⟨hL, fun x h1 h2 => absurd h2 h1⟩
  | skip v p u rest s s1 _ ih =>
    exact fun hI hU hn hL => ih hI hU (fun e he => hn e (List.mem_cons_of_mem _ he)) hL.skip
  | back v p u j rest s s1 hjp hUu _ ih =>
    intro hI hU hn hL
    have hmem : (u, j) ∈ adj v := hn (u, j) (List.mem_cons_self _ _)
    have hL2 : LowAt adj (s.record (lower s.graph v (T s.graph u))) v p rest := by
      apply LowAt.lower_step hI hU hL.bound _ _ hL.attained
        (Or.inl ⟨(u, j), hmem, hjp, hUu, rfl⟩)
      · intro e he hn2 hp
        by_cases h1 : e = (u, j)
        · subst h1; exact ⟨hUu, Nat.min_le_right _ _⟩
        · have := hL.seen e he (by simp [h1, hn2]) hp
          exact ⟨this.1, Nat.le_trans (Nat.min_le_left _ _) this.2⟩
      · intro c hc hca
        have := hL.children c hc hca
        exact ⟨this.1, Nat.le_trans (Nat.min_le_left _ _) this.2⟩
    exact ih (hI.lower v _) hU (fun e he => hn e (List.mem_cons_of_mem _ he)) hL2
  | tree v p u j rest s s1 s2 hjp hUu hr1 hr2 ih1 ih2 =>
    intro hI hU hn hL
    have hmem : (u, j) ∈ adj v := hn (u, j) (List.mem_cons_self _ _)
    have hJ : Joins edges j v u := hadj v u j hmem
    obtain ⟨_, _, hu1, huN⟩ := Joins_range hE hJ
    have hS := hI.shape
    have l3 : u < s.graph.used.length := by rw [hS.used_len]; omega
    have l1 : u < s.graph.t_in.length := by rw [hS.t_in_len]; omega
    have hg : ((s.call { caller := some v, point := u, parent := j }).enter u).graph
        = mark s.graph u := enter_graph l1
    have hvu : v ≠ u := fun he => hUu (he ▸ hU)
    have hIe := hI.entered { caller := some v, point := u, parent := j } hUu huN hu1
      (fun a ha => by cases ha; exact ⟨hJ, hU⟩) (fun ha => by cases ha)
    have hUe : U ((s.call { caller := some v, point := u, parent := j }).enter u).graph u := by
      rw [hg, U_mark l3]; exact Or.inl rfl
    obtain ⟨k1, k2⟩ := hr1.calls hE hadj hIe hUe (fun e he => he)
    have hLe : LowAt adj ((s.call { caller := some v, point := u, parent := j }).enter u) u j
        (adj u) :=
      LowAt.start hI { caller := some v, point := u, parent := j } hUu huN
        (fun h0 => hvu (Option.some.inj h0)) j
    obtain ⟨a1, a2⟩ := ih1 hIe hUe (fun e he => he) hLe
    obtain ⟨⟨more, hm, hmb⟩, hfr⟩ :=
      CallsGrow.child hI { caller := some v, point := u, parent := j } hUu huN k2
    have hcu : (⟨some v, u, j⟩ : Call) ∈ s1.calls := by rw [hm]; simp
    have hU1v : U s1.graph v := (hfr v hU).1
    have hU1u : U s1.graph u := k2.used u hUe
    have hRv : R s1.graph v = R s.graph v := (hfr v hU).2.2
    have hTv : T s1.graph v = T s.graph v := (hfr v hU).2.1
    -- the state after `ret[v] = min(ret[v], ret[u])`
    have hL1 : LowAt adj (s1.record (lower s1.graph v (R s1.graph u))) v p rest := by
      apply LowAt.lower_step k1 hU1v
      · rw [hRv, hTv]; exact hL.bound
      · intro e he hn2 hp
        by_cases h1 : e = (u, j)
        · subst h1
          exact ⟨hU1u, Nat.le_trans (Nat.min_le_right _ _) a1.bound⟩
        · obtain ⟨q1, q2⟩ := hL.seen e he (by simp [h1, hn2]) hp
          refine ⟨(hfr _ q1).1, Nat.le_trans (Nat.min_le_left _ _) ?_⟩
          rw [hRv, (hfr _ q1).2.1]; exact q2
      · intro c hc hca
        rw [hm] at hc
        rcases List.mem_append.mp hc with hc | hc
        · obtain ⟨q1, q2⟩ := hL.children c hc hca
          refine ⟨q1, Nat.le_trans (Nat.min_le_left _ _) ?_⟩
          rw [hRv, (hfr _ (hI.used_point hc)).2.2]; exact q2
        · rcases List.mem_cons.mp hc with hc | hc
          · subst hc
            exact ⟨hjp, Nat.min_le_right _ _⟩
          · exact absurd hU ((hmb c hc).2 v hca)
      · rcases hL.attained with q | ⟨e, he, q1, q2, q3⟩ | ⟨c, hc, hca, q⟩
        · left; rw [hRv, hTv]; exact q
        · right; left
          exact ⟨e, he, q1, (hfr _ q2).1, by rw [hRv, (hfr _ q2).2.1]; exact q3⟩
        · right; right
          refine ⟨c, by rw [hm]; exact List.mem_append_left _ hc, hca, ?_⟩
          rw [hRv, (hfr _ (hI.used_point hc)).2.2]; exact q
      · exact Or.inr ⟨⟨some v, u, j⟩, hcu, rfl, rfl⟩
    have hL2 := hL1.report_step u j
    have hI2 : CallsInv N edges adj ((s1.record (lower s1.graph v (R s1.graph u))).report u j) :=
      (k1.lower v _).report u j ⟨⟨some v, u, j⟩, hcu, rfl, by simp⟩
    have hU2 : U ((s1.record (lower s1.graph v (R s1.graph u))).report u j).graph v := by
      rw [report_graph, U_report]; exact hU1v
    have hn2 : ∀ e ∈ rest, e ∈ adj v := fun e he => hn e (List.mem_cons_of_mem _ he)
    obtain ⟨m1, m2⟩ := hr2.calls hE hadj hI2 hU2 hn2
    obtain ⟨b1, b2⟩ := ih2 hI2 hU2 hn2 hL2
    refine ⟨b1, ?_⟩
    intro x hx hx2
    have hxv : x ≠ v := fun he => hx (he ▸ hU)
    by_cases hx1 : U s1.graph x
    · have hG : CallsGrow v s1 s2 := (CallsGrow.lower_report s1 v _ u j).compose m2
      have hD : LowDone adj s1 x := by
        by_cases hxu : x = u
        · subst hxu
          exact ⟨⟨some v, x, j⟩, hcu, rfl, a1⟩
        · apply a2 x _ hx1
          rw [hg, U_mark l3]
          rintro (q | q)
          · exact hxu q
          · exact hx q
      apply hD.kept k1 hG hxv hx1
      intro c hc hca hcp
      obtain ⟨k, d, hd1, hd2, _, _⟩ := hI.index hU
      have hd : d ∈ s.calls := List.mem_iff_getElem?.mpr ⟨k, hd1⟩
      have hd3 : d ∈ s1.calls := by rw [hm]; exact List.mem_append_left _ hd
      have : c = d := k1.unique hc hd3 (by rw [hcp, hd2])
      subst this
      exact hx (hI.caller_tin c hd x hca).1
    · apply b2 x _ hx2
      rw [report_graph, U_report]
      exact hx1

/-- The loop of `main`: every marked vertex is finished between two of its steps. -/
theorem RootsL.low_roots (hE : ValidInput N edges)
    (hadj : ∀ v u j, (u, j) ∈ adj v → Joins edges j v u)
    {L : List Nat} {s s1 : Logged} (h : RootsL adj L s s1) :
    CallsInv N edges adj s → (∀ i ∈ L, 1 ≤ i ∧ i ≤ N) →
      (∀ x, U s.graph x → LowDone adj s x) →
      CallsInv N edges adj s1 ∧ (∀ x, U s.graph x → U s1.graph x) ∧
        (∀ i ∈ L, U s1.graph i) ∧ (∀ x, U s1.graph x → LowDone adj s1 x) := by
  induction h with
  | done s => exact fun hI _ hD => ⟨hI, fun _ h => h, by simp, hD⟩
  | skip i rest s s1 hUi _ ih =>
    intro hI hL hD
    obtain ⟨q1, q2, q3, q4⟩ := ih hI (fun k hk => hL k (List.mem_cons_of_mem _ hk)) hD
    refine ⟨q1, q2, ?_, q4⟩
    intro k hk
    rcases List.mem_cons.mp hk with hk | hk
    · subst hk; exact q2 _ hUi
    · exact q3 k hk
  | root i rest s s1 s2 hUi hr _ ih =>
    intro hI hL hD
    obtain ⟨hi1, hiN⟩ := hL i (List.mem_cons_self _ _)
    have hS := hI.shape
    have l3 : i < s.graph.used.length := by rw [hS.used_len]; omega
    have l1 : i < s.graph.t_in.length := by rw [hS.t_in_len]; omega
    have hg : ((s.call { caller := none, point := i, parent := 0 }).enter i).graph
        = mark s.graph i := enter_graph l1
    have hIe := hI.entered { caller := none, point := i, parent := 0 } hUi hiN hi1
      (fun a ha => by cases ha) (fun _ => rfl)
    have hUe : U ((s.call { caller := none, point := i, parent := 0 }).enter i).graph i := by
      rw [hg, U_mark l3]; exact Or.inl rfl
    obtain ⟨k1, k2⟩ := hr.calls hE hadj hIe hUe (fun e he => he)
    have hLe : LowAt adj ((s.call { caller := none, point := i, parent := 0 }).enter i) i 0
        (adj i) :=
      LowAt.start hI { caller := none, point := i, parent := 0 } hUi hiN (by simp) 0
    obtain ⟨a1, a2⟩ := hr.low hE hadj hIe hUe (fun e he => he) hLe
    have hG0 : CallsGrow i s ((s.call { caller := none, point := i, parent := 0 }).enter i) :=
      CallsGrow.step_enter hI i { caller := none, point := i, parent := 0 } hUi hiN
        (fun a ha => by cases ha)
    have hG : CallsGrow i s s1 := hG0.compose k2
    have hci : (⟨none, i, 0⟩ : Call) ∈ s1.calls := by
      obtain ⟨more, hm, _⟩ := hG.calls
      obtain ⟨more0, hm0, _⟩ := k2.calls
      rw [hm0]
      exact List.mem_append_left _ (by simp [Logged.enter])
    have hD1 : ∀ x, U s1.graph x → LowDone adj s1 x := by
      intro x hx1
      by_cases hx : U s.graph x
      · have hxi : x ≠ i := fun he => hUi (he ▸ hx)
        apply (hD x hx).kept hI hG hxi hx
        intro c hc _ hcp
        exact hUi (hcp ▸ hI.used_point hc)
      · by_cases hxi : x = i
        · subst hxi
          exact ⟨⟨none, x, 0⟩, hci, rfl, a1⟩
        · apply a2 x _ hx1
          rw [hg, U_mark l3]
          rintro (q | q)
          · exact hxi q
          · exact hx q
    obtain ⟨q1, q2, q3, q4⟩ := ih k1 (fun k hk => hL k (List.mem_cons_of_mem _ hk)) hD1
    refine ⟨q1, fun x hx => q2 x (hG.used x hx), ?_, q4⟩
    intro k hk
    rcases List.mem_cons.mp hk with hk | hk
    · subst hk; exact q2 _ (k2.used _ hUe)
    · exact q3 k hk

/-- The logged traversal from the constructed graph: the final state satisfies
the invariant of the log, every vertex of `1..N` is marked, and every marked
vertex is finished. -/
theorem low_spec (hE : ValidInput N edges) :
    ∃ g0 s, AdjacencyListGraph.new N edges = .ok g0 ∧
      traverseLog (N + 1) N edges = .ok s ∧ traverse (N + 1) N edges = .ok s.graph ∧
      CallsInv N edges (neighboursSpec edges) s ∧
      (∀ v, 1 ≤ v → v ≤ N → U s.graph v) ∧
      (∀ x, U s.graph x → LowDone (neighboursSpec edges) s x) := by
  obtain ⟨g0, s, h1, h2, h3, h4, hS, hres, htimer, hU⟩ := traverseLog_run hE
  have hI0 : CallsInv N edges (neighboursSpec edges) ⟨g0, [], [g0]⟩ := by
    constructor
    · exact hS
    · simp
    · intro v; simp [hU v]
    · simpa using htimer
    · intro k c hk; simp at hk
    · intro c hc; simp at hc
    · intro c hc; simp at hc
    · intro c hc; simp at hc
    · intro c hc; simp at hc
    · intro j hj
      have : j ∈ g0.res := hj
      rw [hres] at this
      simp at this
  have hadj : ∀ v u j, (u, j) ∈ neighboursSpec edges v → Joins edges j v u :=
    fun v u j h => mem_neighboursSpec.mp h
  obtain ⟨q1, _, q3, q4⟩ := h4.low_roots hE hadj hI0
    (fun i hi => by rw [List.mem_range'_1] at hi; omega)
    (fun x hx => absurd hx (hU x))
  refine ⟨g0, s, h1, h2, h3, q1, ?_, q4⟩
  intro v hv1 hvN
  exact q3 v (by rw [List.mem_range'_1]; omega)

end

/-! ## The least candidate and the count of calls -/

section

variable {N : Nat} {edges : List DefaultEdge} {adj : Nat → List (Nat × Nat)}

theorem InSubtree.low_le {s : Logged} (hI : CallsInv N edges adj s)
    (hD : ∀ x, U s.graph x → LowDone adj s x) {v w : Nat}
    (h : InSubtree s.calls v w) (hv : U s.graph v) :
    U s.graph w ∧ R s.graph v ≤ R s.graph w := by
  unfold InSubtree at h
  induction h with
  | refl => exact ⟨hv, Nat.le_refl _⟩
  | tail _ hbc ih =>
    obtain ⟨c, hc, hca, hcp⟩ := hbc
    obtain ⟨q1, q2⟩ := ih
    obtain ⟨cx, _, _, hL⟩ := hD _ q1
    have := (hL.children c hc hca).2
    rw [hcp] at this
    exact ⟨hcp ▸ hI.used_point hc, Nat.le_trans q2 this⟩

theorem LowCandidate.lower_bound {s : Logged}
    (hI : CallsInv N edges (neighboursSpec edges) s)
    (hD : ∀ x, U s.graph x → LowDone (neighboursSpec edges) s x) {v t : Nat}
    (hv : U s.graph v) (h : LowCandidate edges s v t) : R s.graph v ≤ t := by
  rcases h with h | ⟨w, u, e, h1, h2, h3, h4⟩
  · obtain ⟨cx, _, _, hL⟩ := hD v hv
    rw [h]; exact hL.bound
  · obtain ⟨q1, q2⟩ := h1.low_le hI hD hv
    obtain ⟨cx, hcx, hcp, hL⟩ := hD w q1
    have hne : e ≠ cx.parent := fun he => h3 ⟨cx, hcx, hcp, he.symm⟩
    have := (hL.seen (u, e) (mem_neighboursSpec.mpr h2) (by simp) hne).2
    rw [h4]
    exact Nat.le_trans q2 this

theorem LowCandidate.attained {s : Logged}
    (hI : CallsInv N edges (neighboursSpec edges) s)
    (hD : ∀ x, U s.graph x → LowDone (neighboursSpec edges) s x) (n : Nat) :
    ∀ v, U s.graph v → s.graph.timer - T s.graph v ≤ n →
      LowCandidate edges s v (R s.graph v) := by
  induction n with
  | zero =>
    intro v hv hn
    have := hI.tin_lt hv
    omega
  | succ n ih =>
    intro v hv hn
    obtain ⟨cv, hcv, hcp, hL⟩ := hD v hv
    have hent : ∀ e, e ≠ cv.parent → ¬ EnteredBy s.calls v e := by
      rintro e he ⟨d, hd, hd1, hd2⟩
      have : d = cv := hI.unique hd hcv (by rw [hd1, hcp])
      subst this
      exact he hd2.symm
    rcases hL.attained with q | ⟨e, he, q1, _, q3⟩ | ⟨c, hc, hca, q⟩
    · exact Or.inl q
    · exact Or.inr ⟨v, e.1, e.2, Relation.ReflTransGen.refl, mem_neighboursSpec.mp he,
        hent _ q1, q3⟩
    · have hct := hI.caller_tin c hc v hca
      have hcU := hI.used_point hc
      have hlt := hI.tin_lt hcU
      rcases ih c.point hcU (by omega) with r | ⟨w, u, e, r1, r2, r3, r4⟩
      · refine Or.inr ⟨v, c.point, c.parent, Relation.ReflTransGen.refl,
          hI.tree_edge c hc v hca, hent _ (hL.children c hc hca).1, ?_⟩
        rw [q, r]
      · refine Or.inr ⟨w, u, e, Relation.ReflTransGen.head ⟨c, hc, hca, rfl⟩ r1, r2, r3, ?_⟩
        rw [q, r4]

theorem CallsInv.points_perm {s : Logged} (hI : CallsInv N edges adj s)
    (hU : ∀ v, 1 ≤ v → v ≤ N → U s.graph v) :
    (s.calls.map Call.point).Perm (List.range' 1 N) := by
  rw [List.perm_ext_iff_of_nodup hI.nodup (List.nodup_range' 1 N)]
  intro v
  rw [List.mem_range'_1, ← hI.used_iff]
  constructor
  · intro hv
    have h1 := U_lt hv
    rw [hI.shape.used_len] at h1
    obtain ⟨k, c, hk, hc, _, _⟩ := hI.index hv
    have := hI.point_pos c (List.mem_iff_getElem?.mpr ⟨k, hk⟩)
    omega
  · intro hv
    exact hU v hv.1 (by omega)

theorem CallsInv.length_calls {s : Logged} (hI : CallsInv N edges adj s)
    (hU : ∀ v, 1 ≤ v → v ≤ N → U s.graph v) : s.calls.length = N := by
  have := (hI.points_perm hU).length_eq
  simpa using this

theorem CallsInv.first_root {s : Logged} (hI : CallsInv N edges adj s) {c : Call}
    (h : s.calls[0]? = some c) : c.caller = none := by
  cases hc : c.caller with
  | none => rfl
  | some a =>
    have hm : c ∈ s.calls := List.mem_iff_getElem?.mpr ⟨0, h⟩
    have := (hI.caller_tin c hm a hc).2
    rw [hI.tin_eq 0 c h] at this
    omega

theorem CallsInv.res_le {s : Logged} (hI : CallsInv N edges adj s) (hn : s.graph.res.Nodup) :
    s.graph.res.length + s.calls.countP (fun c => c.caller.isNone) ≤ s.calls.length := by
  have hsub : s.graph.res ⊆ (s.calls.filter (fun c => ! c.caller.isNone)).map Call.parent := by
    intro j hj
    obtain ⟨c, hc, hp, hca⟩ := hI.res_tree j hj
    refine List.mem_map.mpr ⟨c, List.mem_filter.mpr ⟨hc, ?_⟩, hp⟩
    cases h : c.caller with
    | none => exact absurd h hca
    | some a => rfl
  have h1 := (hn.subperm hsub).length_le
  rw [List.length_map, ← List.countP_eq_length_filter] at h1
  have h2 := @List.length_eq_countP_add_countP _ (fun c : Call => c.caller.isNone) s.calls
  have h3 : List.countP (fun c : Call => ! c.caller.isNone) s.calls
      = List.countP (fun a : Call => decide ¬ a.caller.isNone = true) s.calls := by
    congr 1
    funext c
    cases h : c.caller <;> simp [h]
  omega

end

/-! ## The result does not depend on the fuel -/

section

variable {N : Nat} {edges : List DefaultEdge} {adj : Nat → List (Nat × Nat)}

theorem pushAt_inv {l l1 : List (List (Nat × Nat))} {i : Nat} {x : Nat × Nat}
    (h : pushAt l i x = .ok l1) :
    i < l.length ∧ l1.length = l.length ∧
      ∀ row ∈ l1, ∀ e ∈ row, e = x ∨ ∃ row0 ∈ l, e ∈ row0 := by
  unfold pushAt at h
  split at h
  · rename_i row hrow
    have hl := (List.getElem?_eq_some_iff.mp hrow).1
    have hrow2 : row ∈ l := List.mem_iff_getElem?.mpr ⟨i, hrow⟩
    cases h
    refine ⟨hl, by simp, ?_⟩
    intro r hr e he
    rcases List.mem_or_eq_of_mem_set hr with h1 | h1
    · exact Or.inr ⟨r, h1, he⟩
    · subst h1
      rcases List.mem_append.mp he with h2 | h2
      · exact Or.inr ⟨row, hrow2, h2⟩
      · exact Or.inl (by simpa using h2)
  · cases h

/-- When the loop of the constructor succeeds it keeps the number of rows and
stores only vertices that index a row. -/
theorem addEdges_inv (es : List DefaultEdge) :
    ∀ (i : Nat) (l l1 : List (List (Nat × Nat))), addEdges es i l = .ok l1 →
      (∀ row ∈ l, ∀ e ∈ row, e.1 < l.length) →
      l1.length = l.length ∧ ∀ row ∈ l1, ∀ e ∈ row, e.1 < l.length := by
  induction es with
  | nil =>
    intro i l l1 h hl
    cases h
    exact ⟨rfl, hl⟩
  | cons e rest ih =>
    intro i l l1 h hl
    simp only [addEdges] at h
    split at h
    · cases h
    · rename_i la ha
      split at h
      · cases h
      · rename_i lb hb
        obtain ⟨a1, a2, a3⟩ := pushAt_inv ha
        obtain ⟨b1, b2, b3⟩ := pushAt_inv hb
        have hlb : ∀ row ∈ lb, ∀ x ∈ row, x.1 < lb.length := by
          intro row hrow x hx
          rw [b2, a2]
          rcases b3 row hrow x hx with q | ⟨r0, hr0, q⟩
          · subst q; exact a1
          · rcases a3 r0 hr0 x q with q2 | ⟨r1, hr1, q2⟩
            · subst q2
              rw [a2] at b1
              exact b1
            · exact hl r1 hr1 x q2
        obtain ⟨c1, c2⟩ := ih (i + 1) lb l1 h hlb
        rw [b2, a2] at c1 c2
        exact ⟨c1, c2⟩

/-- Whatever the edge list, a constructed graph has vectors of `N + 1` entries,
nothing marked, and neighbour lists that name vertices of `0..N` only. -/
theorem new_shape {g0 : AdjacencyListGraph} (h : AdjacencyListGraph.new N edges = .ok g0) :
    Shape N (fun v => g0.list_.getD v []) g0 ∧
      (∀ v e, e ∈ g0.list_.getD v [] → e.1 ≤ N) ∧
      g0.timer = 0 ∧ g0.res = [] ∧ (∀ v, ¬ U g0 v) ∧ cnt g0 ≤ N + 1 := by
  unfold AdjacencyListGraph.new at h
  split at h
  · cases h
  · rename_i l hl
    cases h
    obtain ⟨c1, c2⟩ := addEdges_inv edges 1 _ l hl (by
      intro row hrow e he
      have : row = [] := List.eq_of_mem_replicate hrow
      subst this
      cases he)
    rw [List.length_replicate] at c1 c2
    refine ⟨⟨by simp, by simp, by simp, ?_⟩, ?_, rfl, rfl, ?_, ?_⟩
    · intro v hv
      simp only
      rw [List.getD_eq_getElem?_getD, List.getElem?_eq_getElem (by omega : v < l.length)]
      rfl
    · intro v e he
      simp only at he
      by_cases hv : v < l.length
      · rw [List.getD_eq_getElem?_getD, List.getElem?_eq_getElem hv] at he
        have := c2 _ (List.getElem_mem hv) e he
        omega
      · rw [List.getD_eq_default _ _ (by omega)] at he
        cases he
    · intro v
      unfold U
      simp only
      rw [getD_replicate]
      simp
    · unfold cnt
      simp only
      simp

/-- The loop of `DFS` on logged states ends in one state only. -/
theorem RunL.det {v p : Nat} {nbrs : List (Nat × Nat)} {s s1 : Logged}
    (h : RunL adj v p nbrs s s1) : ∀ s2, RunL adj v p nbrs s s2 → s1 = s2 := by
  induction h with
  | done v p s =>
    intro s2 h2
    cases h2
    rfl
  | skip v p u rest s s1 _ ih =>
    intro s2 h2
    cases h2 with
    | skip _ _ _ _ _ _ h3 => exact ih s2 h3
    | back _ _ _ _ _ _ _ hjp _ _ => exact absurd rfl hjp
    | tree _ _ _ _ _ _ _ _ hjp _ _ _ => exact absurd rfl hjp
  | back v p u j rest s s1 hjp hU _ ih =>
    intro s2 h2
    cases h2 with
    | skip _ _ _ _ _ _ h3 => exact absurd rfl hjp
    | back _ _ _ _ _ _ _ _ _ h3 => exact ih s2 h3
    | tree _ _ _ _ _ _ _ _ _ hU2 _ _ => exact absurd hU hU2
  | tree v p u j rest s s1 s2 hjp hU _ _ ih1 ih2 =>
    intro s3 h3
    cases h3 with
    | skip _ _ _ _ _ _ h4 => exact absurd rfl hjp
    | back _ _ _ _ _ _ _ _ hU2 _ => exact absurd hU2 hU
    | tree _ _ _ _ _ _ s1b _ _ _ h4 h5 =>
      have := ih1 s1b h4
      subst this
      exact ih2 s3 h5

/-- The loop of `main` on logged states ends in one state only. -/
theorem RootsL.det_roots {L : List Nat} {s s1 : Logged}
    (h : RootsL adj L s s1) : ∀ s2, RootsL adj L s s2 → s1 = s2 := by
  induction h with
  | done s =>
    intro s2 h2
    cases h2
    rfl
  | skip i rest s s1 hU _ ih =>
    intro s2 h2
    cases h2 with
    | skip _ _ _ _ _ h3 => exact ih s2 h3
    | root _ _ _ _ _ hU2 _ _ => exact absurd hU hU2
  | root i rest s s1 s2 hU hr _ ih =>
    intro s3 h3
    cases h3 with
    | skip _ _ _ _ hU2 _ => exact absurd hU2 hU
    | root _ _ _ s1b _ _ h4 h5 =>
      have := hr.det s1b h4
      subst this
      exact ih s3 h5

/-- On every input, valid or not, the traversal gives the same result with any
two amounts of fuel of at least `N + 1`. -/
theorem traverse_fuel (N : Nat) (edges : List DefaultEdge) (fuel1 fuel2 : Nat)
    (h1 : N + 1 ≤ fuel1) (h2 : N + 1 ≤ fuel2) :
    traverse fuel1 N edges = traverse fuel2 N edges := by
  unfold traverse
  cases hn : AdjacencyListGraph.new N edges with
  | error e => rfl
  | ok g0 =>
    simp only
    obtain ⟨hS, hrange, _, _, _, hc⟩ := new_shape hn
    have hL : ∀ i ∈ List.range' 1 N, i ≤ N := by
      intro i hi
      rw [List.mem_range'_1] at hi
      omega
    obtain ⟨s1, _, a2, a3, _⟩ := rootsLog_run hrange fuel1 (List.range' 1 N)
      ⟨g0, [], [g0]⟩ hS hL (by show cnt g0 ≤ fuel1; omega)
    obtain ⟨s2, _, b2, b3, _⟩ := rootsLog_run hrange fuel2 (List.range' 1 N)
      ⟨g0, [], [g0]⟩ hS hL (by show cnt g0 ≤ fuel2; omega)
    have := a2.det_roots s2 b2
    subst this
    have a4 : roots fuel1 (List.range' 1 N) g0 = .ok s1.graph := a3
    have b4 : roots fuel2 (List.range' 1 N) g0 = .ok s1.graph := b3
    rw [a4, b4]

end

/-! ## Back-edge statements in the trace -/

section

variable {N : Nat} {edges : List DefaultEdge} {adj : Nat → List (Nat × Nat)}

theorem Traced.after_enter {s : Logged} (h : Traced s) (v : Nat) : Traced (s.enter v) := by
  unfold Logged.enter
  exact ((h.record (Prim.stamp _ _)).record (Prim.start _ _)).record (Prim.flag _ _)

theorem Traced.after_report {s : Logged} (h : Traced s) (u j : Nat) :
    Traced (s.report u j) := by
  unfold Logged.report
  split
  · exact h.record (Prim.push _ _)
  · exact h

theorem RunL.traced {v p : Nat} {nbrs : List (Nat × Nat)} {s s1 : Logged}
    (h : RunL adj v p nbrs s s1) (hT : Traced s) : Traced s1 :=
  h.preserve Traced (fun _ _ q hp => q.record hp) (fun _ c q => q.call c) hT

/-- A run of the loop of `DFS` only appends to the trace. -/
theorem RunL.states_ext {v p : Nat} {nbrs : List (Nat × Nat)} {s s1 : Logged}
    (h : RunL adj v p nbrs s s1) : ∃ more, s1.states = s.states ++ more := by
  refine h.preserve (fun t => ∃ more, t.states = s.states ++ more) ?_ ?_ ⟨[], by simp⟩
  · rintro t g ⟨more, hm⟩ _
    exact ⟨more ++ [g], by rw [record_states, hm, List.append_assoc]⟩
  · rintro t c ⟨more, hm⟩
    exact ⟨more, hm⟩

theorem BackStep.extend {s s1 : Logged} {v a : Nat} (h : BackStep s v a)
    (hs : ∃ more, s1.states = s.states ++ more) (hT : T s1.graph a = T s.graph a) :
    BackStep s1 v a := by
  obtain ⟨l1, l2, g, hg⟩ := h
  obtain ⟨more, hm⟩ := hs
  refine ⟨l1, l2 ++ more, g, ?_⟩
  rw [hm, hg, hT]
  simp

/-- The statement `ret[v] = min(ret[v], t_in[a])`, just executed, is in the
trace. -/
theorem BackStep.now {s : Logged} (hT : Traced s) (v a : Nat) :
    BackStep (s.record (lower s.graph v (T s.graph a))) v a := by
  obtain ⟨init, hi⟩ := List.getLast?_eq_some_iff.mp hT.last
  refine ⟨init, [], s.graph, ?_⟩
  rw [record_states, hi, record_graph, T_lower]
  simp

theorem states_ext_lower_report (s : Logged) (v x u j : Nat) :
    ∃ more, ((s.record (lower s.graph v x)).report u j).states = s.states ++ more := by
  unfold Logged.report
  split
  · exact ⟨[lower s.graph v x, push (s.record (lower s.graph v x)).graph j], by simp⟩
  · exact ⟨[lower s.graph v x], by simp⟩

theorem states_ext_trans {s s1 s2 : Logged} (h1 : ∃ more, s1.states = s.states ++ more)
    (h2 : ∃ more, s2.states = s1.states ++ more) : ∃ more, s2.states = s.states ++ more := by
  obtain ⟨m1, hm1⟩ := h1
  obtain ⟨m2, hm2⟩ := h2
  exact ⟨m1 ++ m2, by rw [hm2, hm1, List.append_assoc]⟩

/-- A vertex entered after the state `s` has a discovery time of at least the
timer of `s`. -/
theorem CallsInv.fresh_tin {s s1 : Logged} (hI : CallsInv N edges adj s)
    (hI1 : CallsInv N edges adj s1) (hext : ∃ more, s1.calls = s.calls ++ more) {a : Nat}
    (ha : ¬ U s.graph a) (ha1 : U s1.graph a) : s.graph.timer ≤ T s1.graph a := by
  obtain ⟨k, c, hk, hc, hT, _⟩ := hI1.index ha1
  obtain ⟨more, hm⟩ := hext
  rw [hT, hI.timer_eq]
  by_contra hlt
  have hlt2 : k < s.calls.length := by omega
  rw [hm, List.getElem?_append_left hlt2] at hk
  have hmem : c ∈ s.calls := List.mem_iff_getElem?.mpr ⟨k, hk⟩
  exact ha (hc ▸ hI.used_point hmem)

/-- In the loop of `DFS` at `v`, every entry other than the parent edge that
leads to a vertex marked when the loop started is worked through as a
back-edge, and so it is in the loop of every call made meanwhile for the
entries that lead to a vertex entered before that call. -/
theorem RunL.steps (hE : ValidInput N edges)
    (hadj : ∀ v u j, (u, j) ∈ adj v → Joins edges j v u)
    {v p : Nat} {nbrs : List (Nat × Nat)} {s s1 : Logged} (h : RunL adj v p nbrs s s1) :
    CallsInv N edges adj s → Traced s → U s.graph v → (∀ e ∈ nbrs, e ∈ adj v) →
      (∀ a e, U s.graph a → (a, e) ∈ nbrs → e ≠ p → BackStep s1 v a) ∧
      (∀ c ∈ s1.calls, ¬ U s.graph c.point → ∀ a, U s1.graph a →
        T s1.graph a < T s1.graph c.point →
        ∀ e, (a, e) ∈ adj c.point → e ≠ c.parent → BackStep s1 c.point a) := by
  induction h with
  | done v p s =>
    intro hI _ _ _
    refine ⟨fun a e _ he _ => absurd he (List.not_mem_nil _), ?_⟩
    intro c hc hU
    exact absurd (hI.used_point hc) hU
  | skip v p u rest s s1 _ ih =>
    intro hI hT hU hn
    obtain ⟨q1, q2⟩ := ih hI hT hU (fun e he => hn e (List.mem_cons_of_mem _ he))
    refine ⟨?_, q2⟩
    intro a e ha he hep
    rcases List.mem_cons.mp he with h1 | h1
    · cases h1; exact absurd rfl hep
    · exact q1 a e ha h1 hep
  | back v p u j rest s s1 hjp hUu hr ih =>
    intro hI hT hU hn
    have hn2 : ∀ e ∈ rest, e ∈ adj v := fun e he => hn e (List.mem_cons_of_mem _ he)
    have hI2 := hI.lower v (T s.graph u)
    have hT2 : Traced (s.record (lower s.graph v (T s.graph u))) :=
      hT.record (Prim.lower _ _ _)
    obtain ⟨q1, q2⟩ := ih hI2 hT2 hU hn2
    obtain ⟨_, k2⟩ := hr.calls hE hadj hI2 hU hn2
    refine ⟨?_, q2⟩
    intro a e ha he hep
    rcases List.mem_cons.mp he with h1 | h1
    · cases h1
      exact (BackStep.now hT v u).extend hr.states_ext (k2.tin u ha)
    · exact q1 a e ha h1 hep
  | tree v p u j rest s s1 s2 hjp hUu hr1 hr2 ih1 ih2 =>
    intro hI hT hU hn
    have hmem : (u, j) ∈ adj v := hn (u, j) (List.mem_cons_self _ _)
    have hJ : Joins edges j v u := hadj v u j hmem
    obtain ⟨_, _, hu1, huN⟩ := Joins_range hE hJ
    have hS := hI.shape
    have l3 : u < s.graph.used.length := by rw [hS.used_len]; omega
    have l1 : u < s.graph.t_in.length := by rw [hS.t_in_len]; omega
    have hg : ((s.call { caller := some v, point := u, parent := j }).enter u).graph
        = mark s.graph u := enter_graph l1
    have hIe := hI.entered { caller := some v, point := u, parent := j } hUu huN hu1
      (fun a ha => by cases ha; exact ⟨hJ, hU⟩) (fun ha => by cases ha)
    have hUe : U ((s.call { caller := some v, point := u, parent := j }).enter u).graph u := by
      rw [hg, U_mark l3]; exact Or.inl rfl
    have hTe : Traced ((s.call { caller := some v, point := u, parent := j }).enter u) :=
      (hT.call _).after_enter u
    obtain ⟨k1, k2⟩ := hr1.calls hE hadj hIe hUe (fun e he => he)
    obtain ⟨a1, a2⟩ := ih1 hIe hTe hUe (fun e he => he)
    obtain ⟨⟨more, hm, hmb⟩, hfr⟩ :=
      CallsGrow.child hI { caller := some v, point := u, parent := j } hUu huN k2
    have hcu : (⟨some v, u, j⟩ : Call) ∈ s1.calls := by rw [hm]; simp
    have hT1 : Traced s1 := hr1.traced hTe
    have hT2 : Traced ((s1.record (lower s1.graph v (R s1.graph u))).report u j) :=
      (hT1.record (Prim.lower _ _ _)).after_report u j
    have hI2 : CallsInv N edges adj ((s1.record (lower s1.graph v (R s1.graph u))).report u j) :=
      (k1.lower v _).report u j ⟨⟨some v, u, j⟩, hcu, rfl, by simp⟩
    have hU2 : ∀ w, U s1.graph w →
        U ((s1.record (lower s1.graph v (R s1.graph u))).report u j).graph w := by
      intro w hw
      rw [report_graph, U_report]; exact hw
    have hn2 : ∀ e ∈ rest, e ∈ adj v := fun e he => hn e (List.mem_cons_of_mem _ he)
    obtain ⟨m1, m2⟩ := hr2.calls hE hadj hI2 (hU2 v (hfr v hU).1) hn2
    obtain ⟨b1, b2⟩ := ih2 hI2 hT2 (hU2 v (hfr v hU).1) hn2
    have hT12 : ∀ w, U s1.graph w → T s2.graph w = T s1.graph w := by
      intro w hw
      rw [m2.tin w (hU2 w hw), report_graph, T_report]
      rfl
    have hext12 : ∃ more, s2.calls = s1.calls ++ more := by
      obtain ⟨more2, hm2, _⟩ := m2.calls
      exact ⟨more2, by rw [hm2, report_calls, record_calls]⟩
    constructor
    · intro a e ha he hep
      rcases List.mem_cons.mp he with h1 | h1
      · cases h1; exact absurd ha hUu
      · exact b1 a e (hU2 a (hfr a ha).1) h1 hep
    · intro c hc hcU a haU haT e he hep
      by_cases hU1 : U s1.graph c.point
      · have hc1 : c ∈ s1.calls := by
          obtain ⟨more2, hm2, hm2b⟩ := m2.calls
          rw [hm2] at hc
          rcases List.mem_append.mp hc with h1 | h1
          · simpa using h1
          · exact absurd (hU2 _ hU1) (hm2b c h1).1
        rw [hT12 _ hU1] at haT
        have hUa : U s1.graph a := by
          by_contra hna
          have h1 := k1.fresh_tin m1 hext12 hna haU
          have h2 := k1.tin_lt hU1
          omega
        rw [hT12 _ hUa] at haT
        have hB : BackStep s1 c.point a := by
          by_cases hcu2 : c.point = u
          · have : c = ⟨some v, u, j⟩ := k1.unique hc1 hcu hcu2
            subst this
            have hTu : T s1.graph u = s.graph.timer := by
              rw [k2.tin u hUe, hg, T_mark l1, if_pos rfl]
            have hUea : U ((s.call { caller := some v, point := u, parent := j }).enter
                u).graph a := by
              by_contra hna
              have h1 := hIe.fresh_tin k1 (by
                obtain ⟨more1, hm1, _⟩ := k2.calls
                exact ⟨more1, hm1⟩) hna hUa
              rw [hg, timer_mark] at h1
              have h3 : T s1.graph a < T s1.graph u := haT
              omega
            exact a1 a e hUea he hep
          · apply a2 c hc1 _ a hUa haT e he hep
            rw [hg, U_mark l3]
            rintro (q | q)
            · exact hcu2 q
            · exact hcU q
        exact hB.extend
          (states_ext_trans (states_ext_lower_report s1 v _ u j) hr2.states_ext) (hT12 a hUa)
      · apply b2 c hc _ a haU haT e he hep
        rw [report_graph, U_report]
        exact hU1

theorem RootsL.traced_roots {L : List Nat} {s s1 : Logged} (h : RootsL adj L s s1)
    (hT : Traced s) : Traced s1 :=
  h.preserve_roots Traced (fun _ _ q hp => q.record hp) (fun _ c q => q.call c) hT

/-- The loop of `main`: in the loop of every logged call, the entries other
than the parent edge that lead to a vertex entered before the call are worked
through as back-edges. -/
theorem RootsL.steps_roots (hE : ValidInput N edges)
    (hadj : ∀ v u j, (u, j) ∈ adj v → Joins edges j v u)
    {L : List Nat} {s s1 : Logged} (h : RootsL adj L s s1) :
    CallsInv N edges adj s → Traced s → (∀ i ∈ L, 1 ≤ i ∧ i ≤ N) →
      (∀ c ∈ s.calls, ∀ a, U s.graph a → T s.graph a < T s.graph c.point →
        ∀ e, (a, e) ∈ adj c.point → e ≠ c.parent → BackStep s c.point a) →
      ∀ c ∈ s1.calls, ∀ a, U s1.graph a → T s1.graph a < T s1.graph c.point →
        ∀ e, (a, e) ∈ adj c.point → e ≠ c.parent → BackStep s1 c.point a := by
  induction h with
  | done s => exact fun _ _ _ hP => hP
  | skip i rest s s1 _ _ ih =>
    exact fun hI hT hL hP => ih hI hT (fun k hk => hL k (List.mem_cons_of_mem _ hk)) hP
  | root i rest s s1 s2 hUi hr _ ih =>
    intro hI hT hL hP
    obtain ⟨hi1, hiN⟩ := hL i (List.mem_cons_self _ _)
    have hS := hI.shape
    have l3 : i < s.graph.used.length := by rw [hS.used_len]; omega
    have l1 : i < s.graph.t_in.length := by rw [hS.t_in_len]; omega
    have hg : ((s.call { caller := none, point := i, parent := 0 }).enter i).graph
        = mark s.graph i := enter_graph l1
    have hIe := hI.entered { caller := none, point := i, parent := 0 } hUi hiN hi1
      (fun a ha => by cases ha) (fun _ => rfl)
    have hUe : U ((s.call { caller := none, point := i, parent := 0 }).enter i).graph i := by
      rw [hg, U_mark l3]; exact Or.inl rfl
    have hTe : Traced ((s.call { caller := none, point := i, parent := 0 }).enter i) :=
      (hT.call _).after_enter i
    obtain ⟨k1, k2⟩ := hr.calls hE hadj hIe hUe (fun e he => he)
    obtain ⟨a1, a2⟩ := hr.steps hE hadj hIe hTe hUe (fun e he => he)
    have hG0 : CallsGrow i s ((s.call { caller := none, point := i, parent := 0 }).enter i) :=
      CallsGrow.step_enter hI i { caller := none, point := i, parent := 0 } hUi hiN
        (fun a ha => by cases ha)
    have hG : CallsGrow i s s1 := hG0.compose k2
    have hext : ∃ more, s1.states = s.states ++ more :=
      states_ext_trans
        ⟨_, enter_states (s.call { caller := none, point := i, parent := 0 }) i⟩ hr.states_ext
    have hcext : ∃ more, s1.calls = s.calls ++ more := by
      obtain ⟨more, hm, _⟩ := hG.calls
      exact ⟨more, hm⟩
    have hcext2 : ∃ more, s1.calls
        = ((s.call { caller := none, point := i, parent := 0 }).enter i).calls ++ more := by
      obtain ⟨more, hm, _⟩ := k2.calls
      exact ⟨more, hm⟩
    apply ih k1 (hr.traced hTe) (fun k hk => hL k (List.mem_cons_of_mem _ hk))
    intro c hc a haU haT e he hep
    by_cases hcU : U s.graph c.point
    · have hc0 : c ∈ s.calls := by
        obtain ⟨more, hm, hmb⟩ := hG.calls
        rw [hm] at hc
        rcases List.mem_append.mp hc with h1 | h1
        · exact h1
        · exact absurd hcU (hmb c h1).1
      rw [hG.tin _ hcU] at haT
      have hUa : U s.graph a := by
        by_contra hna
        have h1 := hI.fresh_tin k1 hcext hna haU
        have h2 := hI.tin_lt hcU
        omega
      rw [hG.tin _ hUa] at haT
      exact (hP c hc0 a hUa haT e he hep).extend hext (hG.tin a hUa)
    · by_cases hci : c.point = i
      · have hci2 : (⟨none, i, 0⟩ : Call) ∈ s1.calls := by
          obtain ⟨more0, hm0, _⟩ := k2.calls
          rw [hm0]
          exact List.mem_append_left _ (by simp [Logged.enter])
        have : c = ⟨none, i, 0⟩ := k1.unique hc hci2 hci
        subst this
        have hTi : T s1.graph i = s.graph.timer := by
          rw [k2.tin i hUe, hg, T_mark l1, if_pos rfl]
        have hUea : U ((s.call { caller := none, point := i, parent := 0 }).enter i).graph a := by
          by_contra hna
          have h1 := hIe.fresh_tin k1 hcext2 hna haU
          rw [hg, timer_mark] at h1
          have h3 : T s1.graph a < T s1.graph i := haT
          omega
        exact a1 a e hUea he hep
      · apply a2 c hc _ a haU haT e he hep
        rw [hg, U_mark l3]
        rintro (q | q)
        · exact hci q
        · exact hcU q

/-- The logged traversal of a valid input: the final state with the invariant
of the log, every vertex of `1..N` marked, every marked vertex finished, and
the back-edge statements towards the vertices entered earlier in the trace. -/
theorem back_spec (hE : ValidInput N edges) :
    ∃ s, traverseLog (N + 1) N edges = .ok s ∧ traverse (N + 1) N edges = .ok s.graph ∧
      CallsInv N edges (neighboursSpec edges) s ∧
      (∀ v, 1 ≤ v → v ≤ N → U s.graph v) ∧
      (∀ x, U s.graph x → LowDone (neighboursSpec edges) s x) ∧
      (∀ c ∈ s.calls, ∀ a, U s.graph a → T s.graph a < T s.graph c.point →
        ∀ e, (a, e) ∈ neighboursSpec edges c.point → e ≠ c.parent →
          BackStep s c.point a) := by
  obtain ⟨g0, s, _, h2, h3, h4, hS, hres, htimer, hU⟩ := traverseLog_run hE
  obtain ⟨_, s2, _, t2, _, hI, hUall, hD⟩ := low_spec hE
  rw [h2] at t2
  have hs : s = s2 := Except.ok.inj t2
  subst hs
  have hI0 : CallsInv N edges (neighboursSpec edges) ⟨g0, [], [g0]⟩ := by
    constructor
    · exact hS
    · simp
    · intro v; simp [hU v]
    · simpa using htimer
    · intro k c hk; simp at hk
    · intro c hc; simp at hc
    · intro c hc; simp at hc
    · intro c hc; simp at hc
    · intro c hc; simp at hc
    · intro j hj
      have : j ∈ g0.res := hj
      rw [hres] at this
      simp at this
  have hT0 : Traced ⟨g0, [], [g0]⟩ := ⟨List.chain'_singleton g0, rfl⟩
  have hadj : ∀ v u j, (u, j) ∈ neighboursSpec edges v → Joins edges j v u :=
    fun v u j h => mem_neighboursSpec.mp h
  refine ⟨s, h2, h3, hI, hUall, hD, ?_⟩
  exact h4.steps_roots hE hadj hI0 hT0
    (fun i hi => by rw [List.mem_range'_1] at hi; omega)
    (fun c hc => by simp at hc)

end

/-! ## Claims C1 to C3: the reported identifiers are the bridges -/

section

/-- C1: on every input whose endpoints all lie in `1..N` the program returns
its sorted list of identifiers, and that list contains the identifier `i`
exactly when the `i`-th input edge is a bridge: it is an edge of the input and
its two endpoints are not connected once it is removed. -/
theorem bridges_mem_iff_isBridge (N : Nat) (edges : List DefaultEdge)
    (hE : ValidInput N edges) :
    ∃ out, bridges N edges = .ok out ∧ ∀ i, i ∈ out ↔ IsBridge edges i := by
  obtain ⟨g, _, h2, _, h4, h5, h6⟩ := main_spec hE
  exact ⟨sort g.res, h2, fun i => mem_sort.trans (res_iff_bridge hE h4 h5 h6 i)⟩

/-- C1 at the example input of the specification (a pendant edge on a triangle). -/
theorem bridges_mem_iff_isBridge_witness :
    ValidInput 4 [(1, 2), (2, 3), (3, 4), (4, 2)] ∧
      ∃ out, bridges 4 [(1, 2), (2, 3), (3, 4), (4, 2)] = .ok out ∧
        ∀ i, i ∈ out ↔ IsBridge [(1, 2), (2, 3), (3, 4), (4, 2)] i :=
  ⟨by decide, bridges_mem_iff_isBridge 4 [(1, 2), (2, 3), (3, 4), (4, 2)] (by decide)⟩

/-- C2: on every input whose endpoints lie in `1..N` the program prints the
number of identifiers the traversal collected in `res`, followed by a strictly
ascending list that is a permutation of `res`. -/
theorem main_prints_count_then_sorted (N : Nat) (edges : List DefaultEdge)
    (hE : ValidInput N edges) :
    ∃ g out, traverse (N + 1) N edges = .ok g ∧ main N edges = .ok (g.res.length :: out) ∧
      List.Sorted (fun a b => a < b) out ∧ List.Perm out g.res := by
  obtain ⟨g, h1, _, h3, h4, _, _⟩ := main_spec hE
  refine ⟨g, sort g.res, h1, ?_, sort_sorted_lt h4.nodup, List.perm_insertionSort _ g.res⟩
  rw [h3]
  unfold Print sort
  rw [(List.perm_insertionSort (fun a b : Nat => a ≤ b) g.res).length_eq]

/-- C2 at a path on three vertices, where both edges are printed. -/
theorem main_prints_count_then_sorted_witness :
    ValidInput 3 [(3, 2), (2, 1)] ∧
      ∃ g out, traverse (3 + 1) 3 [(3, 2), (2, 1)] = .ok g ∧
        main 3 [(3, 2), (2, 1)] = .ok (g.res.length :: out) ∧
        List.Sorted (fun a b => a < b) out ∧ List.Perm out g.res :=
  ⟨by decide, main_prints_count_then_sorted 3 [(3, 2), (2, 1)] (by decide)⟩

/-- C3: on `N = 4` with the edges `(1,2), (2,3), (3,4), (4,2)` the program
prints the count 1 and then the identifier 1. -/
theorem main_example_pendant_triangle :
    main 4 [(1, 2), (2, 3), (3, 4), (4, 2)] = .ok [1, 1] := by
  rfl

end

/-! ## Claim C4: trees -/

section

/-- The two edges of the path `3 - 2 - 1` and what they join. -/
theorem path3_joins {j x y : Nat} (h : Joins [(3, 2), (2, 1)] j x y) :
    (j = 1 ∧ ((x = 3 ∧ y = 2) ∨ (x = 2 ∧ y = 3))) ∨
      (j = 2 ∧ ((x = 2 ∧ y = 1) ∨ (x = 1 ∧ y = 2))) := by
  rw [Joins_iff] at h
  obtain ⟨e, he, h⟩ := h
  have hr := (endpoints_mem he).2
  simp only [List.length_cons, List.length_nil] at hr
  have hj : j = 1 ∨ j = 2 := by omega
  rcases hj with rfl | rfl
  · simp [endpoints] at he
    subst he
    simp at h
    omega
  · simp [endpoints] at he
    subst he
    simp at h
    omega

/-- The path `3 - 2 - 1` is a tree on three vertices. -/
theorem path3_isTree : IsTree 3 [(3, 2), (2, 1)] := by
  have h32 : Reach [(3, 2), (2, 1)] 3 2 := Reach.edge (j := 1) (by decide)
  have h21 : Reach [(3, 2), (2, 1)] 2 1 := Reach.edge (j := 2) (by decide)
  refine ⟨rfl, ?_, ?_⟩
  · intro x y hx1 hx3 hy1 hy3
    have hx : x = 1 ∨ x = 2 ∨ x = 3 := by omega
    have hy : y = 1 ∨ y = 2 ∨ y = 3 := by omega
    rcases hx with rfl | rfl | rfl <;> rcases hy with rfl | rfl | rfl
    · exact Reach.here
    · exact h21.flip
    · exact (h32.concat h21).flip
    · exact h21
    · exact Reach.here
    · exact h32.flip
    · exact h32.concat h21
    · exact h32
    · exact Reach.here
  · rintro x w ⟨hne, hw, hnd⟩
    match w, hne, hw, hnd with
    | [s], _, hw, _ =>
      obtain ⟨h1, h2⟩ := hw
      have := path3_joins h1
      have h3 : s.2 = x := h2
      omega
    | [s, t], _, hw, hnd =>
      obtain ⟨h1, h2, h3⟩ := hw
      have h4 : t.2 = x := h3
      have := path3_joins h1
      have := path3_joins h2
      simp at hnd
      omega
    | s :: t :: r :: _, _, hw, hnd =>
      obtain ⟨h1, h2, h3, _⟩ := hw
      have := path3_joins h1
      have := path3_joins h2
      have := path3_joins h3
      simp at hnd
      omega

/-- C4: on a tree with vertices `1..N` (an input of `N - 1` edges with
endpoints in `1..N` that is connected and has no cycle), the edges being given
in any order and orientation, the program reports every edge: the sorted
output is the list `1, 2, ..., N - 1`. -/
theorem tree_reports_every_edge (N : Nat) (edges : List DefaultEdge)
    (hE : ValidInput N edges) (hT : IsTree N edges) :
    bridges N edges = .ok (List.range' 1 (N - 1)) := by
  apply bridges_eq_of_mem_iff hE (sorted_range' 1 (N - 1))
  intro i
  have hs := hT.size
  rw [List.mem_range'_1]
  constructor
  · intro hi
    obtain ⟨e, he⟩ := @endpoints_isSome edges i hi.1 (by omega)
    exact hT.acyclic.bridge he
  · intro hb
    have := hb.range
    omega

/-- C4 at the path `3 - 2 - 1`, its edges given from the far end. -/
theorem tree_reports_every_edge_witness :
    ValidInput 3 [(3, 2), (2, 1)] ∧ IsTree 3 [(3, 2), (2, 1)] ∧
      bridges 3 [(3, 2), (2, 1)] = .ok (List.range' 1 (3 - 1)) :=
  ⟨by decide, path3_isTree,
    tree_reports_every_edge 3 [(3, 2), (2, 1)] (by decide) path3_isTree⟩

end

/-! ## Claim C5: cycles -/

section

/-- C5: when the `N` input edges form one cycle through all the vertices
`1..N` (a single self-loop for `N = 1`, two parallel edges for `N = 2`), in
any order and orientation, the program reports no bridge: the list of
identifiers is empty and the count `0` is all that is printed. -/
theorem cycle_reports_nothing (N : Nat) (edges : List DefaultEdge)
    (hC : IsSimpleCycle N edges) :
    bridges N edges = .ok [] ∧ main N edges = .ok [0] := by
  obtain ⟨vs, ids, h⟩ := hC
  have hb : bridges N edges = .ok [] :=
    bridges_eq_of_mem_iff h.validInput List.sorted_nil
      (fun i => ⟨fun hi => absurd hi (List.not_mem_nil i), fun hi => absurd hi (h.not_bridge i)⟩)
  refine ⟨hb, ?_⟩
  unfold main
  rw [hb]
  rfl

/-- C5 at a triangle whose edges are given out of order and with mixed
orientation. -/
theorem cycle_reports_nothing_witness :
    IsSimpleCycle 3 [(1, 2), (3, 1), (2, 3)] ∧
      bridges 3 [(1, 2), (3, 1), (2, 3)] = .ok [] ∧
      main 3 [(1, 2), (3, 1), (2, 3)] = .ok [0] :=
  ⟨⟨[1, 2, 3], [1, 3, 2], by decide⟩,
    cycle_reports_nothing 3 [(1, 2), (3, 1), (2, 3)] ⟨[1, 2, 3], [1, 3, 2], by decide⟩⟩

end

/-! ## Claim C6: two triangles joined by an edge -/

section

/-- C6: when the input is two vertex-disjoint triangles on the vertices `1..6`
together with one edge joining a vertex of the first to a vertex of the
second, for every labelling of the vertices and every order and orientation of
the seven edges, the program reports exactly one identifier: the input
position `i7` of the joining edge. -/
theorem two_triangles_report_joining_edge (edges : List DefaultEdge)
    (a b c d e f i1 i2 i3 i4 i5 i6 i7 : Nat)
    (h : TwoTriangles edges a b c d e f i1 i2 i3 i4 i5 i6 i7) :
    bridges 6 edges = .ok [i7] ∧ main 6 edges = .ok [1, i7] := by
  have hb : bridges 6 edges = .ok [i7] :=
    bridges_eq_of_mem_iff h.inRange (List.sorted_singleton i7) h.bridge_iff
  refine ⟨hb, ?_⟩
  unfold main
  rw [hb]
  rfl

/-- C6 at the triangles `2 5 3` and `6 1 4` joined by the edge `2 - 6`, which
is the fourth edge of the input. -/
theorem two_triangles_report_joining_edge_witness :
    TwoTriangles [(5, 3), (1, 6), (3, 2), (6, 2), (4, 1), (2, 5), (4, 6)]
        2 5 3 6 1 4 6 1 3 2 5 7 4 ∧
      (bridges 6 [(5, 3), (1, 6), (3, 2), (6, 2), (4, 1), (2, 5), (4, 6)] = .ok [4] ∧
        main 6 [(5, 3), (1, 6), (3, 2), (6, 2), (4, 1), (2, 5), (4, 6)] = .ok [1, 4]) :=
  ⟨by decide, two_triangles_report_joining_edge
    [(5, 3), (1, 6), (3, 2), (6, 2), (4, 1), (2, 5), (4, 6)] 2 5 3 6 1 4 6 1 3 2 5 7 4
    (by decide)⟩

end

/-! ## Claim C7: disjoint unions -/

section

/-- C7: for edge lists `E1` over the vertices `1..n1` and `E2` over `1..n2`,
the program run on `n1 + n2` vertices with the edges of `E1` followed by those
of `E2` moved up by `n1` returns the list it returns on `(n1, E1)` followed by
the list it returns on `(n2, E2)` with every identifier increased by the
length of `E1`; and in the final state of that run every discovery time of a
vertex of the first part is smaller than every discovery time of a vertex of
the second part. -/
theorem disjoint_union_output (n1 n2 : Nat) (E1 E2 : List DefaultEdge)
    (h1 : ValidInput n1 E1) (h2 : ValidInput n2 E2) :
    ∃ o1 o2 g, bridges n1 E1 = .ok o1 ∧ bridges n2 E2 = .ok o2 ∧
      bridges (n1 + n2) (E1 ++ shift n1 E2) = .ok (o1 ++ o2.map (fun i => i + E1.length)) ∧
      traverse (n1 + n2 + 1) (n1 + n2) (E1 ++ shift n1 E2) = .ok g ∧
      ∀ v w, 1 ≤ v → v ≤ n1 → n1 < w → w ≤ n1 + n2 → T g v < T g w := by
  obtain ⟨o1, o2, a1, a2, a3⟩ := bridges_union h1 h2
  obtain ⟨g, b1, b2⟩ := traverse_union_times h1 h2
  exact ⟨o1, o2, g, a1, a2, a3, b1, b2⟩

/-- C7 at a pendant edge on a triangle together with a path of two edges. -/
theorem disjoint_union_output_witness :
    ValidInput 4 [(1, 2), (2, 3), (3, 4), (4, 2)] ∧ ValidInput 3 [(3, 2), (2, 1)] ∧
      ∃ o1 o2 g, bridges 4 [(1, 2), (2, 3), (3, 4), (4, 2)] = .ok o1 ∧
        bridges 3 [(3, 2), (2, 1)] = .ok o2 ∧
        bridges (4 + 3) ([(1, 2), (2, 3), (3, 4), (4, 2)] ++ shift 4 [(3, 2), (2, 1)]) =
          .ok (o1 ++ o2.map (fun i => i + [(1, 2), (2, 3), (3, 4), (4, 2)].length)) ∧
        traverse (4 + 3 + 1) (4 + 3)
          ([(1, 2), (2, 3), (3, 4), (4, 2)] ++ shift 4 [(3, 2), (2, 1)]) = .ok g ∧
        ∀ v w, 1 ≤ v → v ≤ 4 → 4 < w → w ≤ 4 + 3 → T g v < T g w :=
  ⟨by decide, by decide,
    disjoint_union_output 4 3 [(1, 2), (2, 3), (3, 4), (4, 2)] [(3, 2), (2, 1)]
      (by decide) (by decide)⟩

end

/-! ## Claims C8 to C10: construction, termination and index safety -/

section

/-- C8: for every input with endpoints in `1..N` the constructor succeeds, and
`GetNeighbours(v)` of the graph it builds is, for every `v` up to `N`, exactly
the list the specification describes: the scan of the edges in input order
with identifiers `1, 2, ...`, emitting `(b, i)` when the first endpoint is `v`
and then `(a, i)` when the second is. -/
theorem getNeighbours_eq_scan (N : Nat) (edges : List DefaultEdge) (hE : ValidInput N edges) :
    ∃ g, AdjacencyListGraph.new N edges = .ok g ∧
      ∀ v, v ≤ N → g.GetNeighbours v = .ok (neighboursSpec edges v) := by
  obtain ⟨g, h1, h2, _⟩ := new_ok hE
  exact ⟨g, h1, fun v hv => neighbours_ok h2 hv⟩

/-- C8 at an input with a self-loop, a parallel pair and an isolated vertex. -/
theorem getNeighbours_eq_scan_witness :
    ValidInput 3 [(1, 2), (2, 2), (2, 1)] ∧
      ∃ g, AdjacencyListGraph.new 3 [(1, 2), (2, 2), (2, 1)] = .ok g ∧
        ∀ v, v ≤ 3 → g.GetNeighbours v = .ok (neighboursSpec [(1, 2), (2, 2), (2, 1)] v) :=
  ⟨by decide, getNeighbours_eq_scan 3 [(1, 2), (2, 2), (2, 1)] (by decide)⟩

/-- C9: on an input with endpoints in `1..N` the constructor builds a state of
the right shape (vectors of `N + 1` entries, the neighbour lists of the
input); in every state of that shape a call of `DFS` on an unmarked vertex
`1..N`, with one unit of fuel per unmarked entry, returns a state, again of
that shape and with strictly fewer unmarked entries; and the driver loop of
`main` over the vertices `1..N` returns a state. -/
theorem DFS_and_driver_terminate (N : Nat) (edges : List DefaultEdge)
    (hE : ValidInput N edges) :
    (∃ g0, AdjacencyListGraph.new N edges = .ok g0 ∧ Shape N (neighboursSpec edges) g0 ∧
        cnt g0 ≤ N + 1) ∧
      (∀ (g : AdjacencyListGraph) (point parent fuel : Nat),
        Shape N (neighboursSpec edges) g → 1 ≤ point → point ≤ N → ¬ U g point →
        cnt g ≤ fuel →
        ∃ g1, DFS fuel g point parent = .ok g1 ∧ Shape N (neighboursSpec edges) g1 ∧
          cnt g1 < cnt g) ∧
      ∃ g, traverse (N + 1) N edges = .ok g := by
  refine ⟨?_, ?_, ?_⟩
  · obtain ⟨g0, h1, h2, _, _, _, h6⟩ := new_ok hE
    exact ⟨g0, h1, h2, by omega⟩
  · intro g point parent fuel hS _ hp hU hc
    obtain ⟨g1, h1, _, h3, h4⟩ := DFS_run (range_spec hE) fuel g point parent hS hp hU hc
    exact ⟨g1, h1, h3, h4⟩
  · obtain ⟨g, h1, _⟩ := main_spec hE
    exact ⟨g, h1⟩

/-- C9 at two triangles joined by an edge. -/
theorem DFS_and_driver_terminate_witness :
    ValidInput 6 [(1, 2), (2, 3), (3, 1), (4, 5), (5, 6), (6, 4), (1, 4)] ∧
      ((∃ g0, AdjacencyListGraph.new 6
          [(1, 2), (2, 3), (3, 1), (4, 5), (5, 6), (6, 4), (1, 4)] = .ok g0 ∧
        Shape 6 (neighboursSpec [(1, 2), (2, 3), (3, 1), (4, 5), (5, 6), (6, 4), (1, 4)]) g0 ∧
        cnt g0 ≤ 6 + 1) ∧
      (∀ (g : AdjacencyListGraph) (point parent fuel : Nat),
        Shape 6 (neighboursSpec [(1, 2), (2, 3), (3, 1), (4, 5), (5, 6), (6, 4), (1, 4)]) g →
        1 ≤ point → point ≤ 6 → ¬ U g point → cnt g ≤ fuel →
        ∃ g1, DFS fuel g point parent = .ok g1 ∧
          Shape 6 (neighboursSpec [(1, 2), (2, 3), (3, 1), (4, 5), (5, 6), (6, 4), (1, 4)]) g1 ∧
          cnt g1 < cnt g) ∧
      ∃ g, traverse (6 + 1) 6 [(1, 2), (2, 3), (3, 1), (4, 5), (5, 6), (6, 4), (1, 4)] = .ok g) :=
  ⟨by decide, DFS_and_driver_terminate 6 _ (by decide)⟩

/-- C10: on an input with endpoints in `1..N` no access is made outside a
vector: whatever the fuel, neither the constructor, nor a call of `DFS` on a
vertex up to `N` in a state of the right shape, nor the whole run of `main`
ends in the out-of-bounds fault. -/
theorem no_access_out_of_bounds (N : Nat) (edges : List DefaultEdge)
    (hE : ValidInput N edges) :
    AdjacencyListGraph.new N edges ≠ .error .outOfBounds ∧
      (∀ (fuel : Nat) (g : AdjacencyListGraph) (point parent : Nat),
        Shape N (neighboursSpec edges) g → point ≤ N →
        DFS fuel g point parent ≠ .error .outOfBounds) ∧
      (∀ fuel, traverse fuel N edges ≠ .error .outOfBounds) ∧
      main N edges ≠ .error .outOfBounds := by
  refine ⟨?_, ?_, ?_, ?_⟩
  · obtain ⟨g, h1, _⟩ := new_ok hE
    rw [h1]
    exact fun h => by cases h
  · intro fuel g point parent hS hp
    rcases DFS_safe (range_spec hE) fuel g point parent hS hp with h | ⟨g1, h, _⟩
    · rw [h]; exact fun h => by cases h
    · rw [h]; exact fun h => by cases h
  · intro fuel
    rcases traverse_safe hE fuel with h | ⟨g1, h, _⟩
    · rw [h]; exact fun h => by cases h
    · rw [h]; exact fun h => by cases h
  · obtain ⟨g, _, _, h3, _⟩ := main_spec hE
    rw [h3]
    exact fun h => by cases h

/-- C10 at the example input of the specification. -/
theorem no_access_out_of_bounds_witness :
    ValidInput 4 [(1, 2), (2, 3), (3, 4), (4, 2)] ∧
      (AdjacencyListGraph.new 4 [(1, 2), (2, 3), (3, 4), (4, 2)] ≠ .error .outOfBounds ∧
      (∀ (fuel : Nat) (g : AdjacencyListGraph) (point parent : Nat),
        Shape 4 (neighboursSpec [(1, 2), (2, 3), (3, 4), (4, 2)]) g → point ≤ 4 →
        DFS fuel g point parent ≠ .error .outOfBounds) ∧
      (∀ fuel, traverse fuel 4 [(1, 2), (2, 3), (3, 4), (4, 2)] ≠ .error .outOfBounds) ∧
      main 4 [(1, 2), (2, 3), (3, 4), (4, 2)] ≠ .error .outOfBounds) :=
  ⟨by decide, no_access_out_of_bounds 4 _ (by decide)⟩

end

/-! ## Claim C11: the order of the traversal -/

section

/-- C11: on an input with endpoints in `1..N`, let the neighbour list of every
vertex be replaced by any permutation of itself and let the driver try the
vertices `1..N` as roots in any order; the traversal still returns a state,
and its list of identifiers, once sorted, is the list the program produces. -/
theorem order_of_traversal_irrelevant (N : Nat) (edges : List DefaultEdge)
    (L : List (List (Nat × Nat))) (order : List Nat)
    (hE : ValidInput N edges) (hL : Reordered N edges L)
    (ho : order.Perm (List.range' 1 N)) :
    ∃ g0 g1, AdjacencyListGraph.new N edges = .ok g0 ∧
      (∀ v, v ≤ N → (L.getD v []).Perm (g0.list_.getD v [])) ∧
      roots (N + 1) order { g0 with list_ := L } = .ok g1 ∧
      bridges N edges = .ok (sort g1.res) := by
  obtain ⟨g0, h1, h2, h3, _, h5, h6⟩ := new_ok hE
  obtain ⟨hS, hadj⟩ := hL.shape hE h2
  obtain ⟨g1, k1, k2, _⟩ := roots_output hE hadj hS
    (fun v => (U_with_list g0 L v).not.2 (h5 v)) h3
    (fun i => by rw [ho.mem_iff, List.mem_range'_1]; omega)
    (show cnt { g0 with list_ := L } ≤ N + 1 from by
      have : cnt { g0 with list_ := L } = cnt g0 := rfl
      omega)
  refine ⟨g0, g1, h1, ?_, k1, k2⟩
  intro v hv
  have h7 : g0.list_.getD v [] = neighboursSpec edges v := by
    rw [List.getD_eq_getElem?_getD, h2.list_eq v hv]
    rfl
  rw [h7]
  exact hL.2 v hv

/-- C11 at the example input, every neighbour list reversed and the roots
tried from the last vertex down. -/
theorem order_of_traversal_irrelevant_witness :
    ValidInput 4 [(1, 2), (2, 3), (3, 4), (4, 2)] ∧
      Reordered 4 [(1, 2), (2, 3), (3, 4), (4, 2)]
        [[], [(2, 1)], [(4, 4), (3, 2), (1, 1)], [(4, 3), (2, 2)], [(2, 4), (3, 3)]] ∧
      [4, 3, 2, 1].Perm (List.range' 1 4) ∧
      ∃ g0 g1, AdjacencyListGraph.new 4 [(1, 2), (2, 3), (3, 4), (4, 2)] = .ok g0 ∧
        (∀ v, v ≤ 4 →
          ([[], [(2, 1)], [(4, 4), (3, 2), (1, 1)], [(4, 3), (2, 2)], [(2, 4), (3, 3)]].getD
            v []).Perm (g0.list_.getD v [])) ∧
        roots (4 + 1) [4, 3, 2, 1] { g0 with list_ :=
          [[], [(2, 1)], [(4, 4), (3, 2), (1, 1)], [(4, 3), (2, 2)], [(2, 4), (3, 3)]] } =
            .ok g1 ∧
        bridges 4 [(1, 2), (2, 3), (3, 4), (4, 2)] = .ok (sort g1.res) :=
  ⟨by decide, by decide, by decide,
    order_of_traversal_irrelevant 4 [(1, 2), (2, 3), (3, 4), (4, 2)]
      [[], [(2, 1)], [(4, 4), (3, 2), (1, 1)], [(4, 3), (2, 2)], [(2, 4), (3, 3)]]
      [4, 3, 2, 1] (by decide) (by decide) (by decide)⟩

end

/-! ## Claim C12: parallel edges -/

section

/-- C12: on an input with endpoints in `1..N`, when the edges at two different
positions `i` and `j` join the same pair of vertices `x`, `y`, neither
identifier is in the output of the program (the hypothesis that the two
vertices differ is not needed for this).  In the loop of a call entered
through `i` an entry carrying the identifier `i` is skipped, and an entry
carrying `j` whose far end is marked lowers `ret` of the vertex to `t_in` of
the far end.  Of the run itself, with its log and trace: for every logged call
of `DFS` made by the loop at `a` whose parent edge is `i` or `j`, the caller
and the vertex entered are `x` and `y` in one order, the other identifier is
not the parent edge, its entry towards `a` is in the neighbour list of the
vertex entered, the trace holds the back-edge statement
`ret[point] = min(ret[point], t_in[a])`, and in the final state
`ret[point] ≤ t_in[a] < t_in[point]`, so that the test
`ret[point] == t_in[point]` fails.  And when `x` and `y` differ, one of them,
`w`, is entered after the other, `a`; at most one of `i`, `j` is the edge
through which `w` was entered; each of the two that is not has its entry
towards `a` in the neighbour list of `w` and its back-edge statement
`ret[w] = min(ret[w], t_in[a])` in the trace; and `ret[w] ≤ t_in[a] < t_in[w]`
in the final state. -/
theorem parallel_edges_not_reported (N : Nat) (edges : List DefaultEdge) (i j x y : Nat)
    (hE : ValidInput N edges) (hij : i ≠ j) (hi : Joins edges i x y)
    (hj : Joins edges j x y) :
    (∃ out, bridges N edges = .ok out ∧ i ∉ out ∧ j ∉ out) ∧
      (∀ call g v u, visit call v i g (u, i) = .ok g) ∧
      (∀ call g v u, Shape N (neighboursSpec edges) g → v ≤ N → u ≤ N → U g u →
        visit call v i g (u, j) = .ok (lower g v (T g u))) ∧
      ∃ s, traverseLog (N + 1) N edges = .ok s ∧ traverse (N + 1) N edges = .ok s.graph ∧
        (∀ c ∈ s.calls, ∀ a, c.caller = some a → c.parent = i ∨ c.parent = j →
          ((a = x ∧ c.point = y) ∨ (a = y ∧ c.point = x)) ∧
          (∀ k, k = i ∨ k = j → k ≠ c.parent →
            (a, k) ∈ s.graph.list_.getD c.point [] ∧ BackStep s c.point a) ∧
          U s.graph a ∧ R s.graph c.point ≤ T s.graph a ∧
          T s.graph a < T s.graph c.point) ∧
        (x ≠ y → ∃ a w, ((a = x ∧ w = y) ∨ (a = y ∧ w = x)) ∧
          U s.graph a ∧ U s.graph w ∧ T s.graph a < T s.graph w ∧
          R s.graph w ≤ T s.graph a ∧
          (¬ EnteredBy s.calls w i ∨ ¬ EnteredBy s.calls w j) ∧
          ∀ k, k = i ∨ k = j → ¬ EnteredBy s.calls w k →
            (a, k) ∈ s.graph.list_.getD w [] ∧ BackStep s w a) := by
  obtain ⟨out, h1, _, h3⟩ := bridges_spec hE
  refine ⟨⟨out, h1, ?_, ?_⟩, ?_, ?_, ?_⟩
  · intro h
    exact not_bridge_of_reach hi (ReachAvoid.step (Ne.symm hij) hj) ((h3 i).1 h)
  · intro h
    exact not_bridge_of_reach hj (ReachAvoid.step hij hi) ((h3 j).1 h)
  · intro call g v u
    unfold visit
    simp
  · intro call g v u hS hv hu hU
    exact visit_back hS hv hu (Ne.symm hij) hU
  · obtain ⟨s, t2, t3, hI, hUall, hD, hB⟩ := back_spec hE
    have hlist : ∀ w, w ≤ N → s.graph.list_.getD w [] = neighboursSpec edges w := by
      intro w hw
      rw [List.getD_eq_getElem?_getD, hI.shape.list_eq w hw]
      rfl
    -- the later endpoint `w` of a pair joined by both `i` and `j`
    have key : ∀ a w, Joins edges i w a → Joins edges j w a → U s.graph a →
        T s.graph a < T s.graph w → ∀ c ∈ s.calls, c.point = w →
        R s.graph w ≤ T s.graph a ∧
        ∀ k, k = i ∨ k = j → k ≠ c.parent →
          (a, k) ∈ s.graph.list_.getD w [] ∧ BackStep s w a := by
      intro a w hiw hjw hUa hT c hc hcw
      have hwN : w ≤ N := (Joins_range hE hiw).2.1
      have hk : ∀ k, k = i ∨ k = j → (a, k) ∈ neighboursSpec edges w := by
        intro k hk
        apply mem_neighboursSpec.mpr
        rcases hk with hk | hk
        · rw [hk]; exact hiw
        · rw [hk]; exact hjw
      obtain ⟨cx, hcx, hcp, hL⟩ := hD w (hcw ▸ hI.used_point hc)
      have hcc : cx = c := hI.unique hcx hc (by rw [hcp, hcw])
      subst hcc
      have hle : ∀ k, k = i ∨ k = j → k ≠ cx.parent → R s.graph w ≤ T s.graph a :=
        fun k hk1 hk2 => (hL.seen (a, k) (hk k hk1) (by simp) hk2).2
      constructor
      · by_cases hp : cx.parent = i
        · exact hle j (Or.inr rfl) (by rw [hp]; exact Ne.symm hij)
        · exact hle i (Or.inl rfl) (Ne.symm hp)
      · intro k hk1 hk2
        rw [hlist w hwN]
        refine ⟨hk k hk1, ?_⟩
        have := hB cx hc a hUa (by rw [hcw]; exact hT) k (by rw [hcw]; exact hk k hk1) hk2
        rw [hcw] at this
        exact this
    refine ⟨s, t2, t3, ?_, ?_⟩
    · intro c hc a hca hp
      have hJc : Joins edges c.parent a c.point := hI.tree_edge c hc a hca
      have hor : (a = x ∧ c.point = y) ∨ (a = y ∧ c.point = x) := by
        rcases hp with hp | hp
        · rw [hp] at hJc; exact Joins_fun hi hJc
        · rw [hp] at hJc; exact Joins_fun hj hJc
      have hct := hI.caller_tin c hc a hca
      have hJ2 : Joins edges i c.point a ∧ Joins edges j c.point a := by
        rcases hor with ⟨q1, q2⟩ | ⟨q1, q2⟩
        · rw [q1, q2]; exact ⟨Joins_symm hi, Joins_symm hj⟩
        · rw [q1, q2]; exact ⟨hi, hj⟩
      obtain ⟨r1, r2⟩ := key a c.point hJ2.1 hJ2.2 hct.1 hct.2 c hc rfl
      exact ⟨hor, r2, hct.1, r1, hct.2⟩
    · intro hxy
      obtain ⟨hx1, hxN, hy1, hyN⟩ := Joins_range hE hi
      have hUx := hUall x hx1 hxN
      have hUy := hUall y hy1 hyN
      obtain ⟨kx, cx, ex1, ex2, ex3, _⟩ := hI.index hUx
      obtain ⟨ky, cy, ey1, ey2, ey3, _⟩ := hI.index hUy
      have hcx : cx ∈ s.calls := List.mem_iff_getElem?.mpr ⟨kx, ex1⟩
      have hcy : cy ∈ s.calls := List.mem_iff_getElem?.mpr ⟨ky, ey1⟩
      have hne : T s.graph x ≠ T s.graph y := by
        intro he
        have hk : kx = ky := by rw [← ex3, ← ey3, he]
        subst hk
        rw [ex1] at ey1
        cases ey1
        exact hxy (ex2.symm.trans ey2)
      have fin : ∀ a w, Joins edges i w a → Joins edges j w a → U s.graph a → U s.graph w →
          T s.graph a < T s.graph w → ∀ c ∈ s.calls, c.point = w →
          U s.graph a ∧ U s.graph w ∧ T s.graph a < T s.graph w ∧
          R s.graph w ≤ T s.graph a ∧
          (¬ EnteredBy s.calls w i ∨ ¬ EnteredBy s.calls w j) ∧
          ∀ k, k = i ∨ k = j → ¬ EnteredBy s.calls w k →
            (a, k) ∈ s.graph.list_.getD w [] ∧ BackStep s w a := by
        intro a w hiw hjw hUa hUw hT c hc hcw
        obtain ⟨r1, r2⟩ := key a w hiw hjw hUa hT c hc hcw
        have hent : ∀ k, EnteredBy s.calls w k → c.parent = k := by
          rintro k ⟨d, hd, hd1, hd2⟩
          have : d = c := hI.unique hd hc (by rw [hd1, hcw])
          rw [← this]; exact hd2
        refine ⟨hUa, hUw, hT, r1, ?_, ?_⟩
        · by_cases hp : c.parent = i
          · exact Or.inr (fun h => hij (hp.symm.trans (hent j h)))
          · exact Or.inl (fun h => hp (hent i h))
        · intro k hk1 hk2
          exact r2 k hk1 (fun h => hk2 ⟨c, hc, hcw, h.symm⟩)
      rcases Nat.lt_or_gt_of_ne hne with hlt | hlt
      · exact ⟨x, y, Or.inl ⟨rfl, rfl⟩,
          fin x y (Joins_symm hi) (Joins_symm hj) hUx hUy hlt cy hcy ey2⟩
      · exact ⟨y, x, Or.inr ⟨rfl, rfl⟩, fin y x hi hj hUy hUx hlt cx hcx ex2⟩

/-- C12 at a pendant edge on a pair of parallel edges, given in opposite
orientations; the run enters vertex `3` from vertex `2` through the edge `2`,
so that the edge `3` is the parallel edge back to the parent. -/
theorem parallel_edges_not_reported_witness :
    ValidInput 3 [(1, 2), (2, 3), (3, 2)] ∧ 2 ≠ 3 ∧ Joins [(1, 2), (2, 3), (3, 2)] 2 2 3 ∧
      Joins [(1, 2), (2, 3), (3, 2)] 3 2 3 ∧
      ((∃ out, bridges 3 [(1, 2), (2, 3), (3, 2)] = .ok out ∧ 2 ∉ out ∧ 3 ∉ out) ∧
      (∀ call g v u, visit call v 2 g (u, 2) = .ok g) ∧
      (∀ call g v u, Shape 3 (neighboursSpec [(1, 2), (2, 3), (3, 2)]) g → v ≤ 3 → u ≤ 3 →
        U g u → visit call v 2 g (u, 3) = .ok (lower g v (T g u))) ∧
      ∃ s, traverseLog (3 + 1) 3 [(1, 2), (2, 3), (3, 2)] = .ok s ∧
        traverse (3 + 1) 3 [(1, 2), (2, 3), (3, 2)] = .ok s.graph ∧
        (∀ c ∈ s.calls, ∀ a, c.caller = some a → c.parent = 2 ∨ c.parent = 3 →
          ((a = 2 ∧ c.point = 3) ∨ (a = 3 ∧ c.point = 2)) ∧
          (∀ k, k = 2 ∨ k = 3 → k ≠ c.parent →
            (a, k) ∈ s.graph.list_.getD c.point [] ∧ BackStep s c.point a) ∧
          U s.graph a ∧ R s.graph c.point ≤ T s.graph a ∧
          T s.graph a < T s.graph c.point) ∧
        (2 ≠ 3 → ∃ a w, ((a = 2 ∧ w = 3) ∨ (a = 3 ∧ w = 2)) ∧
          U s.graph a ∧ U s.graph w ∧ T s.graph a < T s.graph w ∧
          R s.graph w ≤ T s.graph a ∧
          (¬ EnteredBy s.calls w 2 ∨ ¬ EnteredBy s.calls w 3) ∧
          ∀ k, k = 2 ∨ k = 3 → ¬ EnteredBy s.calls w k →
            (a, k) ∈ s.graph.list_.getD w [] ∧ BackStep s w a)) ∧
      ∃ s, traverseLog (3 + 1) 3 [(1, 2), (2, 3), (3, 2)] = .ok s ∧
        s.calls = [⟨none, 1, 0⟩, ⟨some 1, 2, 1⟩, ⟨some 2, 3, 2⟩] :=
  ⟨by decide, by decide, by decide, by decide,
    parallel_edges_not_reported 3 [(1, 2), (2, 3), (3, 2)] 2 3 2 3 (by decide) (by decide)
      (by decide) (by decide), _, rfl, rfl⟩

end

/-! ## Claim C13: determinism -/

section

/-- C13: for every `N` and every edge list, valid or not, two full traversals,
each building the graph anew and given any fuel of at least `N + 1`, have the
same result; a graph the constructor returns is fresh (timer `0`, `res` empty,
nothing marked); and on an input with endpoints in `1..N` both traversals
return a state, with the sorted list of identifiers the program produces. -/
theorem traversal_deterministic (N : Nat) (edges : List DefaultEdge) (fuel1 fuel2 : Nat)
    (h1 : N + 1 ≤ fuel1) (h2 : N + 1 ≤ fuel2) :
    traverse fuel1 N edges = traverse fuel2 N edges ∧
      (∀ g0, AdjacencyListGraph.new N edges = .ok g0 →
        g0.timer = 0 ∧ g0.res = [] ∧ ∀ v, ¬ U g0 v) ∧
      (ValidInput N edges →
        ∃ g1 g2, traverse fuel1 N edges = .ok g1 ∧ traverse fuel2 N edges = .ok g2 ∧
          sort g1.res = sort g2.res ∧ bridges N edges = .ok (sort g1.res)) := by
  refine ⟨traverse_fuel N edges fuel1 fuel2 h1 h2, ?_, ?_⟩
  · intro g0 hg
    obtain ⟨_, _, a3, a4, a5, _⟩ := new_shape hg
    exact ⟨a3, a4, a5⟩
  · intro hE
    obtain ⟨g, k1, k2, _⟩ := main_spec hE
    refine ⟨g, g, ?_, ?_, rfl, k2⟩
    · rw [traverse_fuel N edges fuel1 (N + 1) h1 (Nat.le_refl _)]
      exact k1
    · rw [traverse_fuel N edges fuel2 (N + 1) h2 (Nat.le_refl _)]
      exact k1

/-- C13 at the example input, with fuel `5` and fuel `7`. -/
theorem traversal_deterministic_witness :
    4 + 1 ≤ 5 ∧ 4 + 1 ≤ 7 ∧ ValidInput 4 [(1, 2), (2, 3), (3, 4), (4, 2)] ∧
      traverse 5 4 [(1, 2), (2, 3), (3, 4), (4, 2)] =
        traverse 7 4 [(1, 2), (2, 3), (3, 4), (4, 2)] ∧
      ∃ g1 g2, traverse 5 4 [(1, 2), (2, 3), (3, 4), (4, 2)] = .ok g1 ∧
        traverse 7 4 [(1, 2), (2, 3), (3, 4), (4, 2)] = .ok g2 ∧
        sort g1.res = sort g2.res ∧
        bridges 4 [(1, 2), (2, 3), (3, 4), (4, 2)] = .ok (sort g1.res) :=
  ⟨by decide, by decide, by decide,
    (traversal_deterministic 4 [(1, 2), (2, 3), (3, 4), (4, 2)] 5 7 (by decide) (by decide)).1,
    (traversal_deterministic 4 [(1, 2), (2, 3), (3, 4), (4, 2)] 5 7 (by decide)
      (by decide)).2.2 (by decide)⟩

end

/-! ## Claim C14: the low-link value -/

section

/-- C14: on an input with endpoints in `1..N` the logged traversal returns, the
log holds at most one call per vertex, and in the final state, for every vertex
`v` of `1..N`, the value `ret[v]` is the least candidate: it is `t_in[v]` or the
`t_in[u]` of an edge `(w, u, e)` with `w` in the subtree of `v` in the forest of
recursive calls and `e` not the edge through which `w` was entered, and it is at
most every such value. -/
theorem low_link_is_least_candidate (N : Nat) (edges : List DefaultEdge)
    (hE : ValidInput N edges) :
    ∃ s, traverseLog (N + 1) N edges = .ok s ∧ traverse (N + 1) N edges = .ok s.graph ∧
      (s.calls.map Call.point).Nodup ∧
      ∀ v, 1 ≤ v → v ≤ N →
        LowCandidate edges s v (R s.graph v) ∧
        ∀ t, LowCandidate edges s v t → R s.graph v ≤ t := by
  obtain ⟨g0, s, _, h2, h3, hI, hU, hD⟩ := low_spec hE
  refine ⟨s, h2, h3, hI.nodup, fun v hv1 hvN => ⟨?_, fun t ht => ?_⟩⟩
  · exact LowCandidate.attained hI hD _ v (hU v hv1 hvN) (Nat.le_refl _)
  · exact LowCandidate.lower_bound hI hD (hU v hv1 hvN) ht

/-- C14 at the example input. -/
theorem low_link_is_least_candidate_witness :
    ValidInput 4 [(1, 2), (2, 3), (3, 4), (4, 2)] ∧
      ∃ s, traverseLog (4 + 1) 4 [(1, 2), (2, 3), (3, 4), (4, 2)] = .ok s ∧
        traverse (4 + 1) 4 [(1, 2), (2, 3), (3, 4), (4, 2)] = .ok s.graph ∧
        (s.calls.map Call.point).Nodup ∧
        ∀ v, 1 ≤ v → v ≤ 4 →
          LowCandidate [(1, 2), (2, 3), (3, 4), (4, 2)] s v (R s.graph v) ∧
          ∀ t, LowCandidate [(1, 2), (2, 3), (3, 4), (4, 2)] s v t → R s.graph v ≤ t :=
  ⟨by decide, low_link_is_least_candidate 4 [(1, 2), (2, 3), (3, 4), (4, 2)] (by decide)⟩

end

/-! ## Claim C15: the low-link bound -/

section

/-- C15: on an input with endpoints in `1..N` the logged traversal returns; its
trace starts with the state the constructor builds, ends with the final state,
advances by one statement of the program at a time, and in every state of it
every entry of `ret` is at most the entry of `t_in` at the same index (for
every index, the unused index `0` included). -/
theorem low_link_bound_in_every_state (N : Nat) (edges : List DefaultEdge)
    (hE : ValidInput N edges) :
    ∃ g0 s, AdjacencyListGraph.new N edges = .ok g0 ∧
      traverseLog (N + 1) N edges = .ok s ∧ traverse (N + 1) N edges = .ok s.graph ∧
      s.states.head? = some g0 ∧ s.states.getLast? = some s.graph ∧
      List.Chain' Prim s.states ∧
      ∀ g ∈ s.states, ∀ v, R g v ≤ T g v := by
  obtain ⟨g0, s, h1, h2, h3, h4, h5, h6, _⟩ := trace_spec hE
  exact ⟨g0, s, h1, h2, h3, h5, h4.last, h4.chain, fun g hg v => (h6 g hg v).1⟩

/-- C15 at the example input. -/
theorem low_link_bound_in_every_state_witness :
    ValidInput 4 [(1, 2), (2, 3), (3, 4), (4, 2)] ∧
      ∃ g0 s, AdjacencyListGraph.new 4 [(1, 2), (2, 3), (3, 4), (4, 2)] = .ok g0 ∧
        traverseLog (4 + 1) 4 [(1, 2), (2, 3), (3, 4), (4, 2)] = .ok s ∧
        traverse (4 + 1) 4 [(1, 2), (2, 3), (3, 4), (4, 2)] = .ok s.graph ∧
        s.states.head? = some g0 ∧ s.states.getLast? = some s.graph ∧
        List.Chain' Prim s.states ∧
        ∀ g ∈ s.states, ∀ v, R g v ≤ T g v :=
  ⟨by decide, low_link_bound_in_every_state 4 [(1, 2), (2, 3), (3, 4), (4, 2)] (by decide)⟩

end

/-! ## Claim C16: discovery times -/

section

/-- C16: on an input with endpoints in `1..N` the logged traversal returns; the
vertices of the logged calls of `DFS`, in the order the calls were made, are a
rearrangement of `1..N` (one call per vertex); the call at position `k` of the
log is the one whose vertex has discovery time `k`, so a vertex entered later
has a strictly greater discovery time; at the end every vertex of `1..N` is
marked, `timer` is `N`, and `t_in` on `1..N` is injective with values below `N`
and takes every value below `N`. -/
theorem discovery_times_follow_entry_order (N : Nat) (edges : List DefaultEdge)
    (hE : ValidInput N edges) :
    ∃ s, traverseLog (N + 1) N edges = .ok s ∧ traverse (N + 1) N edges = .ok s.graph ∧
      (s.calls.map Call.point).Perm (List.range' 1 N) ∧
      (∀ k c, s.calls[k]? = some c → T s.graph c.point = k) ∧
      (∀ (k1 k2 : Nat) (c1 c2 : Call), s.calls[k1]? = some c1 → s.calls[k2]? = some c2 → k1 < k2 →
        T s.graph c1.point < T s.graph c2.point) ∧
      (∀ v, 1 ≤ v → v ≤ N → U s.graph v) ∧
      s.graph.timer = N ∧
      (∀ v, 1 ≤ v → v ≤ N → T s.graph v < N) ∧
      (∀ v w, 1 ≤ v → v ≤ N → 1 ≤ w → w ≤ N → T s.graph v = T s.graph w → v = w) ∧
      (∀ t, t < N → ∃ v, 1 ≤ v ∧ v ≤ N ∧ T s.graph v = t) := by
  obtain ⟨g0, s, _, h2, h3, hI, hU, _⟩ := low_spec hE
  have hperm := hI.points_perm hU
  have hlen := hI.length_calls hU
  have htimer : s.graph.timer = N := by rw [hI.timer_eq, hlen]
  refine ⟨s, h2, h3, hperm, hI.tin_eq, ?_, hU, htimer, ?_, ?_, ?_⟩
  · intro k1 k2 c1 c2 q1 q2 hlt
    rw [hI.tin_eq k1 c1 q1, hI.tin_eq k2 c2 q2]
    exact hlt
  · intro v hv1 hvN
    have := hI.tin_lt (hU v hv1 hvN)
    omega
  · intro v w hv1 hvN hw1 hwN hT
    obtain ⟨k, c, q1, q2, q3, _⟩ := hI.index (hU v hv1 hvN)
    obtain ⟨m, d, r1, r2, r3, _⟩ := hI.index (hU w hw1 hwN)
    have hkm : k = m := by rw [← q3, ← r3, hT]
    subst hkm
    rw [q1] at r1
    cases r1
    rw [← q2, ← r2]
  · intro t ht
    have hlt : t < s.calls.length := by rw [hlen]; exact ht
    have hk : s.calls[t]? = some s.calls[t] := List.getElem?_eq_getElem hlt
    have hm : s.calls[t].point ∈ List.range' 1 N :=
      hperm.subset (List.mem_map.mpr ⟨_, List.getElem_mem hlt, rfl⟩)
    rw [List.mem_range'_1] at hm
    exact ⟨s.calls[t].point, hm.1, by omega, hI.tin_eq t _ hk⟩

/-- C16 at the example input. -/
theorem discovery_times_follow_entry_order_witness :
    ValidInput 4 [(1, 2), (2, 3), (3, 4), (4, 2)] ∧
      ∃ s, traverseLog (4 + 1) 4 [(1, 2), (2, 3), (3, 4), (4, 2)] = .ok s ∧
        traverse (4 + 1) 4 [(1, 2), (2, 3), (3, 4), (4, 2)] = .ok s.graph ∧
        (s.calls.map Call.point).Perm (List.range' 1 4) ∧
        (∀ k c, s.calls[k]? = some c → T s.graph c.point = k) ∧
        (∀ (k1 k2 : Nat) (c1 c2 : Call), s.calls[k1]? = some c1 → s.calls[k2]? = some c2 → k1 < k2 →
          T s.graph c1.point < T s.graph c2.point) ∧
        (∀ v, 1 ≤ v → v ≤ 4 → U s.graph v) ∧
        s.graph.timer = 4 ∧
        (∀ v, 1 ≤ v → v ≤ 4 → T s.graph v < 4) ∧
        (∀ v w, 1 ≤ v → v ≤ 4 → 1 ≤ w → w ≤ 4 → T s.graph v = T s.graph w → v = w) ∧
        (∀ t, t < 4 → ∃ v, 1 ≤ v ∧ v ≤ 4 ∧ T s.graph v = t) :=
  ⟨by decide,
    discovery_times_follow_entry_order 4 [(1, 2), (2, 3), (3, 4), (4, 2)] (by decide)⟩

end

/-! ## Claim C17: no identifier twice -/

section

/-- C17: on an input with endpoints in `1..N` (self-loops and parallel edges
allowed) the list `res` has no repeated identifier in any state the logged
traversal passes through, and the list the program returns has none. -/
theorem no_identifier_twice (N : Nat) (edges : List DefaultEdge) (hE : ValidInput N edges) :
    ∃ s out, traverseLog (N + 1) N edges = .ok s ∧ traverse (N + 1) N edges = .ok s.graph ∧
      (∀ g ∈ s.states, g.res.Nodup) ∧ bridges N edges = .ok out ∧ out.Nodup := by
  obtain ⟨g0, s, _, h2, h3, _, _, _, h7⟩ := trace_spec hE
  obtain ⟨g, k1, k2, _, k4, _, _⟩ := main_spec hE
  rw [h3] at k1
  have hg : s.graph = g := Except.ok.inj k1
  refine ⟨s, sort g.res, h2, h3, ?_, k2, ?_⟩
  · intro g' hg'
    have := h7 g' hg'
    rw [hg] at this
    exact k4.nodup.sublist this
  · exact (List.perm_insertionSort _ g.res).nodup_iff.mpr k4.nodup

/-- C17 at a path with a self-loop and a doubled edge. -/
theorem no_identifier_twice_witness :
    ValidInput 4 [(1, 2), (2, 2), (2, 3), (3, 2), (3, 4)] ∧
      ∃ s out, traverseLog (4 + 1) 4 [(1, 2), (2, 2), (2, 3), (3, 2), (3, 4)] = .ok s ∧
        traverse (4 + 1) 4 [(1, 2), (2, 2), (2, 3), (3, 2), (3, 4)] = .ok s.graph ∧
        (∀ g ∈ s.states, g.res.Nodup) ∧
        bridges 4 [(1, 2), (2, 2), (2, 3), (3, 2), (3, 4)] = .ok out ∧ out.Nodup :=
  ⟨by decide, no_identifier_twice 4 [(1, 2), (2, 2), (2, 3), (3, 2), (3, 4)] (by decide)⟩

end

/-! ## Claim C18: stored identifiers -/

section

/-- C18: on an input of `M` edges with endpoints in `1..N`, every identifier
stored in the neighbour lists built by the constructor lies in `1..M`; for
every `i` in `1..M`, with `(a, b)` the `i`-th edge, the entry `(b, i)` is in
the list of `a`, the entry `(a, i)` is in the list of `b`, and over all lists
taken together exactly two entries carry the identifier `i`; and no stored
identifier is `0`, so that the test `to.second == parent` of a root call, whose
parent is `0`, never skips an entry. -/
theorem stored_identifiers (N : Nat) (edges : List DefaultEdge) (hE : ValidInput N edges) :
    ∃ g, AdjacencyListGraph.new N edges = .ok g ∧
      (∀ e ∈ g.list_.flatten, 1 ≤ e.2 ∧ e.2 ≤ edges.length) ∧
      (∀ i, 1 ≤ i → i ≤ edges.length →
        ∃ a b, endpoints edges i = some (a, b) ∧ (b, i) ∈ g.list_.getD a [] ∧
          (a, i) ∈ g.list_.getD b [] ∧ g.list_.flatten.countP (fun x => x.2 = i) = 2) ∧
      (∀ v, v ≤ N → ∀ e ∈ g.list_.getD v [], ¬ (e.2 = 0)) := by
  obtain ⟨g, h1, h2⟩ := new_list hE
  have hmem : ∀ v, v ≤ N → ∀ e ∈ g.list_.getD v [], 1 ≤ e.2 ∧ e.2 ≤ edges.length := by
    intro v hv e he
    rw [h2, getD_map_range _ hv] at he
    obtain ⟨e0, he0, _⟩ := Joins_iff.1 ((hadj_spec edges v e.1 e.2).1 he)
    exact (endpoints_mem he0).2
  refine ⟨g, h1, ?_, ?_, ?_⟩
  · intro e he
    rw [h2, List.mem_flatten] at he
    obtain ⟨l, hl, hel⟩ := he
    obtain ⟨v, hv, rfl⟩ := List.mem_map.mp hl
    rw [List.mem_range] at hv
    obtain ⟨e0, he0, _⟩ := Joins_iff.1 ((hadj_spec edges v e.1 e.2).1 hel)
    exact (endpoints_mem he0).2
  · intro i hi1 hi2
    obtain ⟨e, he⟩ := @endpoints_isSome edges i hi1 hi2
    have hv := hE e (endpoints_mem he).1
    refine ⟨e.1, e.2, he, ?_, ?_, ?_⟩
    · rw [h2, getD_map_range _ hv.2.1]
      exact mem_neighboursSpec.2 (Joins_iff.2 ⟨e, he, Or.inl ⟨rfl, rfl⟩⟩)
    · rw [h2, getD_map_range _ hv.2.2.2]
      exact mem_neighboursSpec.2 (Joins_iff.2 ⟨e, he, Or.inr ⟨rfl, rfl⟩⟩)
    · rw [h2]
      exact count_id_all hE he
  · intro v hv e he h0
    have := (hmem v hv e he).1
    omega

/-- C18 at an input with a self-loop and a pair of parallel edges. -/
theorem stored_identifiers_witness :
    ValidInput 3 [(1, 2), (2, 2), (2, 1)] ∧
      ∃ g, AdjacencyListGraph.new 3 [(1, 2), (2, 2), (2, 1)] = .ok g ∧
        (∀ e ∈ g.list_.flatten, 1 ≤ e.2 ∧ e.2 ≤ [(1, 2), (2, 2), (2, 1)].length) ∧
        (∀ i, 1 ≤ i → i ≤ [(1, 2), (2, 2), (2, 1)].length →
          ∃ a b, endpoints [(1, 2), (2, 2), (2, 1)] i = some (a, b) ∧
            (b, i) ∈ g.list_.getD a [] ∧ (a, i) ∈ g.list_.getD b [] ∧
            g.list_.flatten.countP (fun x => x.2 = i) = 2) ∧
        (∀ v, v ≤ 3 → ∀ e ∈ g.list_.getD v [], ¬ (e.2 = 0)) :=
  ⟨by decide, stored_identifiers 3 [(1, 2), (2, 2), (2, 1)] (by decide)⟩

end

/-! ## Claim C19: self-loops -/

section

/-- C19: on an input with endpoints in `1..N` whose `i`-th edge is a self-loop
at `a`, the constructor puts the entry `(a, i)` twice into the neighbour list
of `a`; the program nevertheless returns its list, `i` is not in it, and `i` is
not in `res` in any state the logged traversal passes through. -/
theorem self_loop_not_reported (N : Nat) (edges : List DefaultEdge) (i a : Nat)
    (hE : ValidInput N edges) (hi : endpoints edges i = some (a, a)) :
    (∃ g, AdjacencyListGraph.new N edges = .ok g ∧ (g.list_.getD a []).count (a, i) = 2) ∧
      (∃ out, bridges N edges = .ok out ∧ i ∉ out) ∧
      ∃ s, traverseLog (N + 1) N edges = .ok s ∧ ∀ g ∈ s.states, i ∉ g.res := by
  have hJ : Joins edges i a a := Joins_iff.2 ⟨(a, a), hi, Or.inl ⟨rfl, rfl⟩⟩
  have haN : a ≤ N := (Joins_range hE hJ).2.1
  obtain ⟨out, h1, _, h3⟩ := bridges_spec hE
  have hout : i ∉ out := fun h => not_bridge_of_reach hJ ReachAvoid.refl ((h3 i).1 h)
  refine ⟨?_, ⟨out, h1, hout⟩, ?_⟩
  · obtain ⟨g, k1, k2⟩ := new_list hE
    refine ⟨g, k1, ?_⟩
    rw [k2, getD_map_range _ haN]
    exact count_self_loop hi
  · obtain ⟨_, s, _, t2, t3, _, _, _, t7⟩ := trace_spec hE
    obtain ⟨g, k1, k2, _⟩ := main_spec hE
    rw [t3] at k1
    have hg : s.graph = g := Except.ok.inj k1
    rw [h1] at k2
    have ho : out = sort g.res := Except.ok.inj k2
    refine ⟨s, t2, fun g1 hg1 hmem => hout ?_⟩
    rw [ho, mem_sort, ← hg]
    exact (t7 g1 hg1).subset hmem

/-- C19 at a self-loop on the far end of a single edge. -/
theorem self_loop_not_reported_witness :
    ValidInput 2 [(1, 2), (2, 2)] ∧ endpoints [(1, 2), (2, 2)] 2 = some (2, 2) ∧
      (∃ g, AdjacencyListGraph.new 2 [(1, 2), (2, 2)] = .ok g ∧
        (g.list_.getD 2 []).count (2, 2) = 2) ∧
      (∃ out, bridges 2 [(1, 2), (2, 2)] = .ok out ∧ 2 ∉ out) ∧
      ∃ s, traverseLog (2 + 1) 2 [(1, 2), (2, 2)] = .ok s ∧ ∀ g ∈ s.states, 2 ∉ g.res :=
  ⟨by decide, by decide,
    self_loop_not_reported 2 [(1, 2), (2, 2)] 2 2 (by decide) (by decide)⟩

end

/-! ## Claim C20: only tree edges are reported -/

section

/-- C20: on an input with endpoints in `1..N` the logged traversal returns, and
every identifier in `res`, in any state of the run, is the parent edge of a
logged call of `DFS` made by the loop at one endpoint `a` of that edge into the
other endpoint, which was entered after `a`; every identifier of the output
lies in `1..M`; the length of the output plus the number of calls made by the
loop of `main` is at most `N`, so the length is at most `N - 1` when
`1 ≤ N`. -/
theorem only_tree_edges_reported (N : Nat) (edges : List DefaultEdge)
    (hE : ValidInput N edges) :
    ∃ s out, traverseLog (N + 1) N edges = .ok s ∧ traverse (N + 1) N edges = .ok s.graph ∧
      bridges N edges = .ok out ∧
      (∀ g ∈ s.states, ∀ j ∈ g.res, ∃ c ∈ s.calls, c.parent = j ∧
        ∃ a, c.caller = some a ∧ Joins edges j a c.point ∧
          T s.graph a < T s.graph c.point) ∧
      (∀ j, j ∈ out ↔ j ∈ s.graph.res) ∧
      (∀ j ∈ out, 1 ≤ j ∧ j ≤ edges.length) ∧
      out.length + s.calls.countP (fun c => c.caller.isNone) ≤ N ∧
      (1 ≤ N → out.length ≤ N - 1) := by
  obtain ⟨g0, s, _, h2, h3, hI, hU, _⟩ := low_spec hE
  obtain ⟨_, s2, _, t2, _, _, _, _, t7⟩ := trace_spec hE
  rw [h2] at t2
  have hs : s = s2 := Except.ok.inj t2
  subst hs
  obtain ⟨g, k1, k2, _, k4, _, _⟩ := main_spec hE
  rw [h3] at k1
  have hg : s.graph = g := Except.ok.inj k1
  have hlen := hI.length_calls hU
  have hperm : (sort g.res).Perm s.graph.res := by
    rw [hg]; exact List.perm_insertionSort _ g.res
  have hres : ∀ j ∈ s.graph.res, ∃ c ∈ s.calls, c.parent = j ∧
      ∃ a, c.caller = some a ∧ Joins edges j a c.point ∧ T s.graph a < T s.graph c.point := by
    intro j hj
    obtain ⟨c, hc, hp, hca⟩ := hI.res_tree j hj
    cases ha : c.caller with
    | none => exact absurd ha hca
    | some a =>
      refine ⟨c, hc, hp, a, ha, ?_, (hI.caller_tin c hc a ha).2⟩
      rw [← hp]; exact hI.tree_edge c hc a ha
  have hcount : (sort g.res).length + s.calls.countP (fun c => c.caller.isNone) ≤ N := by
    have := hI.res_le (hg ▸ k4.nodup)
    rw [hperm.length_eq]
    omega
  refine ⟨s, sort g.res, h2, h3, k2, ?_, fun j => hperm.mem_iff, ?_, hcount, ?_⟩
  · intro g1 hg1 j hj
    exact hres j ((t7 g1 hg1).subset hj)
  · intro j hj
    obtain ⟨c, _, _, a, _, hJ, _⟩ := hres j (hperm.mem_iff.mp hj)
    rw [Joins_iff] at hJ
    obtain ⟨e, he, _⟩ := hJ
    exact (endpoints_mem he).2
  · intro hN
    have h0 : 0 < s.calls.length := by omega
    have hk : s.calls[0]? = some s.calls[0] := List.getElem?_eq_getElem h0
    have hroot := hI.first_root hk
    have hpos : 0 < s.calls.countP (fun c => c.caller.isNone) :=
      List.countP_pos_iff.mpr ⟨s.calls[0], List.getElem_mem h0, by simp [hroot]⟩
    omega

/-- C20 at the example input. -/
theorem only_tree_edges_reported_witness :
    ValidInput 4 [(1, 2), (2, 3), (3, 4), (4, 2)] ∧
      ∃ s out, traverseLog (4 + 1) 4 [(1, 2), (2, 3), (3, 4), (4, 2)] = .ok s ∧
        traverse (4 + 1) 4 [(1, 2), (2, 3), (3, 4), (4, 2)] = .ok s.graph ∧
        bridges 4 [(1, 2), (2, 3), (3, 4), (4, 2)] = .ok out ∧
        (∀ g ∈ s.states, ∀ j ∈ g.res, ∃ c ∈ s.calls, c.parent = j ∧
          ∃ a, c.caller = some a ∧ Joins [(1, 2), (2, 3), (3, 4), (4, 2)] j a c.point ∧
            T s.graph a < T s.graph c.point) ∧
        (∀ j, j ∈ out ↔ j ∈ s.graph.res) ∧
        (∀ j ∈ out, 1 ≤ j ∧ j ≤ [(1, 2), (2, 3), (3, 4), (4, 2)].length) ∧
        out.length + s.calls.countP (fun c => c.caller.isNone) ≤ 4 ∧
        (1 ≤ 4 → out.length ≤ 4 - 1) :=
  ⟨by decide, only_tree_edges_reported 4 [(1, 2), (2, 3), (3, 4), (4, 2)] (by decide)⟩

end

end G
